import Mathlib

/-!
# A verification model of `sequoia.c` (frequent sequence mining with unique item occurrences)

This file gives a shallow embedding of the mining engine in `src/sequoia/src/sequoia.c`:

* the unweighted path: `closed`, `recurse`, `sequoia`;
* the weighted path: `closed_iw`, `rec_iw`, `sequoia_iw`;

together with specification-level definitions (subsequence support, gap contents,
canonical occurrence lists) and theorems settling the frozen claims.

Modelling conventions:

* C machine integers `SUPP`/`TID`/`ITEM` hold small values here; supports and error
  sentinels use `Int` (the sentinel `-1` is negative), items and positions use `Nat`.
* Sentinel-terminated item arrays are explicit-length `List`s; the C pointer `x->item`
  into a transaction becomes a position (`Nat` index) into that transaction's item list.
* A `PATOCC`'s mutable `ips` array of anchor positions becomes a function `Nat → Nat`
  updated with `Function.update`; occurrence records are identified by their
  transaction index into the state's `occs` list, mirroring the C pointers.
* `malloc` cannot fail in the model; the external item-set reporter (`report.h`,
  not part of this repository's source) is modelled from the spec as a sink that
  records emissions, filters by the configured size range `[zmin, zmax]`, and may
  fail (return a negative status) according to an oracle `failAt` on its call counter.
* Item weights (C `double`) are modelled as exact rationals `Rat`; the claims under
  study are about which sums are formed, not about floating-point rounding.
* `recurse`/`rec_iw` take an explicit fuel argument; the C functions recurse only
  while `len + 1 ≤ zmax`, and fuel `zmax + 1 - len` is proved sufficient (claim C10).
* The C touch buffer `rd->buf` is written from its base on every call of
  `closed`/`closed_iw` (the cursor `b` starts at `rd->buf`), so its contents are
  call-local; it is modelled as a local list threaded through the gap scan.
* The ghost field `MState.ghost` is pure instrumentation: `recurse` records, for each
  processed extension item just before the projection loop, the pairs
  (current `ips[depth]` of the occurrence, `x.item`).  It observes the program point
  claim C7 speaks about and changes no other behaviour.
-/

set_option linter.unusedVariables false

namespace Sequoia

/-- An input transaction: ordered items (explicit length instead of the C negative
sentinel) and an integer weight (`ta_wgt`). -/
structure Trans where
  items : List Nat
  wgt   : Int
deriving Repr, DecidableEq

/-- Total transaction weight of a bag (`tbg_wgt`). -/
def totalWgt (bag : List Trans) : Int :=
  (bag.map Trans.wgt).sum

/-- Number of item instances in the bag (`tbg_extent`). -/
def extent (bag : List Trans) : Nat :=
  (bag.map (fun t => t.items.length)).sum

/-- Specification: support of a pattern = sum of the weights of the transactions
containing it as an ordered subsequence (`List.Sublist`). -/
def support (bag : List Trans) (p : List Nat) : Int :=
  ((bag.filter (fun t => decide (p.Sublist t.items))).map Trans.wgt).sum

/-- Input sanity assumed by the miner: within each transaction every item id occurs
at most once, all ids are below the item count, and weights are positive. -/
def ValidBag (bag : List Trans) (cnt : Nat) : Prop :=
  ∀ t ∈ bag, t.items.Nodup ∧ (∀ it ∈ t.items, it < cnt) ∧ 1 ≤ t.wgt

instance : DecidablePred (fun bc : List Trans × Nat => ValidBag bc.1 bc.2) :=
  fun _ => by unfold ValidBag; infer_instance

instance (bag : List Trans) (cnt : Nat) : Decidable (ValidBag bag cnt) := by
  unfold ValidBag; infer_instance

/-! ## Engine data structures (unweighted path) -/

/-- C `PATOCC`: weight and items of the containing transaction plus the mutable
array `ips` of anchor positions (pattern position ↦ position in `items`). -/
structure PatOcc where
  wgt   : Int
  items : List Nat
  ips   : Nat → Nat

/-- C `OCCEXT`: a candidate extension: the position `item` of the extension item
inside the transaction, and the index `occ` of the pattern occurrence record. -/
structure OccExt where
  item : Nat
  occ  : Nat
deriving Repr, DecidableEq

/-- C `PATEXT`: support of the extension item and its occurrence extensions
(`cnt` is `oxs.length`). -/
structure PatExt where
  supp : Int
  oxs  : List OccExt

/-- Default occurrence record (reads out of bounds never happen in valid runs). -/
def dummyOcc : PatOcc := ⟨0, [], fun _ => 0⟩

/-- Occurrence record with index `j` (the C pointer dereference). -/
def occAt (occs : List PatOcc) (j : Nat) : PatOcc :=
  occs.getD j dummyOcc

/-- C `RECDATA` (configuration part) plus the reporter configuration that the C
code keeps inside the `ISREPORT` object: the size range `[zmin, zmax]`, the total
transaction weight (support of the empty sequence) and the failure oracle for
reporter calls.  `rd->mode & ISR_CLOSED` is the flag `modeClosed`; `target` is the
stored-but-unused target type. -/
structure RecData where
  target     : Bool
  modeClosed : Bool
  cnt        : Nat
  zmax       : Nat
  smin       : Int
  zmin       : Nat
  totalWgt   : Int
  failAt     : Nat → Bool

/-- Modelled from the spec: the external item-set reporter's state for the
unweighted path — the current pattern stack of `(item, support)` pairs built by
`isr_add`/`isr_remove`, the emitted `(pattern, support)` records, and a counter
of reporter calls (used by the failure oracle). -/
structure RepState where
  stack : List (Nat × Int)
  out   : List (List Nat × Int)
  calls : Nat
deriving Repr, DecidableEq

/-- Mutable engine state: occurrence records, the shared counter array `rd->frqs`,
the reporter, and the ghost observation log (see the file comment). -/
structure MState where
  occs  : List PatOcc
  frqs  : Nat → Nat
  rep   : RepState
  ghost : List (List (Nat × Nat))

/-- Modelled from the spec: `isr_add` pushes the item and its support. -/
def isrAdd (st : MState) (i : Nat) (supp : Int) : MState :=
  { st with rep := { st.rep with stack := st.rep.stack ++ [(i, supp)] } }

/-- Modelled from the spec: `isr_remove(·, n)` pops `n` items. -/
def isrRemove (st : MState) (n : Nat) : MState :=
  { st with rep := { st.rep with stack := st.rep.stack.dropLast } }

/-- Modelled from the spec: `isr_report` emits the current pattern with the support
recorded for its last item (the total weight for the empty pattern), filtered by
the configured size range; it fails (status `-1`) when the oracle says so. -/
def isrReport (rd : RecData) (st : MState) : Int × MState :=
  if rd.failAt st.rep.calls then
    (-1, { st with rep := { st.rep with calls := st.rep.calls + 1 } })
  else
    let pat := st.rep.stack.map Prod.fst
    let supp := match st.rep.stack.getLast? with
      | some pr => pr.2
      | none => rd.totalWgt
    let out' := if rd.zmin ≤ pat.length ∧ pat.length ≤ rd.zmax then
        st.rep.out ++ [(pat, supp)]
      else st.rep.out
    (0, { st with rep := { stack := st.rep.stack, out := out', calls := st.rep.calls + 1 } })

/-! ## The closedness test (`closed`) -/

/-- One gap of an anchored pattern occurrence: gap `0` is the prefix strictly before
position `ips 0`, gap `g` (for `g > 0`) the items strictly between `ips (g-1)` and
`ips g` (bounds from lines 257–258 of the source). -/
def gapOf (o : PatOcc) (g : Nat) : List Nat :=
  (o.items.take (o.ips g)).drop (if g = 0 then 0 else o.ips (g - 1) + 1)

/-- One step of the gap scan (line 259–263): increment the counter of item `s`;
a counter exceeding the occurrence number `i` bumps the survivor count `k`; a
first-touched item is pushed onto the touch list. -/
def gapStep (i : Nat) (acc : (Nat → Nat) × List Nat × Nat) (s : Nat) :
    (Nat → Nat) × List Nat × Nat :=
  let c := acc.1 s + 1
  (Function.update acc.1 s c,
   (if c ≤ 1 then s :: acc.2.1 else acc.2.1),
   (if i < c then acc.2.2 + 1 else acc.2.2))

/-- Scan of one occurrence's gap for occurrence number `i` (inner loop, lines
259–263), starting with survivor count `k = 0`. -/
def scanGap (i : Nat) (L : List Nat) (f : Nat → Nat) (b : List Nat) :
    (Nat → Nat) × List Nat × Nat :=
  L.foldl (gapStep i) (f, b, 0)

/-- Occurrence loop of one gap (lines 255–265): scan the occurrences' gap contents
in turn, stopping early as soon as no item survived (`k ≤ 0`); returns the final
counters, touch list and survivor count `k`. -/
def scanOccs : Nat → List (List Nat) → (Nat → Nat) → List Nat →
    (Nat → Nat) × List Nat × Nat
  | _, [], f, b => (f, b, 0)
  | i, [L], f, b => scanGap i L f b
  | i, L :: L' :: rest, f, b =>
    let r := scanGap i L f b
    if r.2.2 = 0 then r else scanOccs (i + 1) (L' :: rest) r.1 r.2.1

/-- Clearing the touched counters from the touch list (lines 266–267). -/
def clearBuf (b : List Nat) (f : Nat → Nat) : Nat → Nat :=
  b.foldl (fun f' s => Function.update f' s 0) f

/-- Gap loop of `closed` (lines 254–269): for each gap index (from `n-1` down to
`0`) scan all occurrences, clear the counters, and return `0` as soon as some item
was found in every occurrence's gap; `-1` when no gap has one. -/
def gapLoop (gls : Nat → List (List Nat)) : List Nat → (Nat → Nat) → Int × (Nat → Nat)
  | [], f => (-1, f)
  | g :: gs, f =>
    let r := scanOccs 0 (gls g) f []
    let f' := clearBuf r.2.1 r.1
    if 0 < r.2.2 then (0, f') else gapLoop gls gs f'

/-- Anchor writes at the head of `closed` (lines 251–252) and in `rec_iw` (lines
467–468): record in every occurrence of the extension the position of the new
pattern item at pattern index `idx`. -/
def writeAnchors (occs : List PatOcc) (oxs : List OccExt) (idx : Nat) : List PatOcc :=
  oxs.foldl (fun os x =>
    os.set x.occ { occAt os x.occ with
                   ips := Function.update (occAt os x.occ).ips idx x.item }) occs

/-- C `closed` (lines 241–271): write the anchors for pattern index `n-1`, then run
the gap loop over gap indices `n-1, …, 0`; result `0` means "not closed", `-1`
"closed". -/
def closedFn (ext : PatExt) (n : Nat) (rd : RecData) (st : MState) : Int × MState :=
  let occs' := writeAnchors st.occs ext.oxs (n - 1)
  let gls := fun g => ext.oxs.map (fun x => gapOf (occAt occs' x.occ) g)
  let r := gapLoop gls (List.range n).reverse st.frqs
  (r.1, { st with occs := occs', frqs := r.2 })

/-! ## The recursion (`recurse`) -/

/-- Tail positions strictly after position `p` in occurrence `o` (the C walk
`for (p = x->item; *++p >= 0; )`). -/
def tailPositions (o : PatOcc) (p : Nat) : List Nat :=
  List.range' (p + 1) (o.items.length - (p + 1))

/-- One append of the projection loop (lines 311–317): the tail item at position
`p` of occurrence `jocc` receives an occurrence extension and its support grows by
the transaction weight; the instance counter `z` is bumped. -/
def tailStep (o : PatOcc) (jocc : Nat) (cz : (Nat → PatExt) × Nat) (p : Nat) :
    (Nat → PatExt) × Nat :=
  let t := o.items.getD p 0
  let c := cz.1 t
  (Function.update cz.1 t { supp := c.supp + o.wgt, oxs := c.oxs ++ [⟨p, jocc⟩] },
   cz.2 + 1)

/-- Projection of one occurrence extension: walk the transaction tail strictly
after `x.item`. -/
def condStep (st : MState) (cz : (Nat → PatExt) × Nat) (x : OccExt) :
    (Nat → PatExt) × Nat :=
  (tailPositions (occAt st.occs x.occ) x.item).foldl
    (tailStep (occAt st.occs x.occ) x.occ) cz

/-- Projection loop (lines 306–318): build the conditional pattern extensions for
the extension `e` by appending, for every occurrence extension and every tail item,
an occurrence extension to the tail item's slot; returns the extensions and the
total number of appended tail instances (the C `z`). -/
def buildCond (st : MState) (e : PatExt) : (Nat → PatExt) × Nat :=
  e.oxs.foldl (condStep st) ((fun _ => ⟨0, []⟩), 0)

/-- Ghost observation (no C counterpart): record, for each occurrence extension of
the processed item, the current anchor `ips[len'-1]` next to `x.item`. -/
def pushGhost (st : MState) (e : PatExt) (len' : Nat) : MState :=
  { st with ghost := st.ghost ++
      [e.oxs.map (fun x => ((occAt st.occs x.occ).ips (len' - 1), x.item))] }

/-- Accumulator of the extension loop in `recurse`: `Sum.inl (s, max, st)` is the
normal state, `Sum.inr (s, st)` records a `break` with error `s < 0`. -/
def RAcc := (Int × Int × MState) ⊕ (Int × MState)

/-- Reporting part of one loop iteration (lines 324–328): report unless closed mode
is on and the child support `s` reaches `e.supp`; a reporter failure turns into a
`break` with `s = -1`; `isr_remove` runs unless the reporter failed. -/
def reportPhase (rd : RecData) (e : PatExt) (s mx : Int) (st : MState) : RAcc :=
  if ¬rd.modeClosed ∨ s < e.supp then
    let r := isrReport rd st
    if r.1 < 0 then Sum.inr (-1, r.2)
    else Sum.inl (s, mx, isrRemove r.2 1)
  else Sum.inl (s, mx, isrRemove st 1)

/-- Projection, recursion and reporting for one processed extension item (lines
304–328 after the closedness filter): with conditional extensions, recurse when
they are nonempty (a negative child result is a `break`), otherwise the stale `s`
reaches the reporting gate; without them `s` is reset to `0`. -/
def extendPhase (recur : (Nat → PatExt) → Nat → MState → Int × MState)
    (rd : RecData) (e : PatExt) (hasCond : Bool) (s mx : Int) (st : MState) : RAcc :=
  if hasCond then
    let cz := buildCond st e
    if 0 < cz.2 then
      let r := recur cz.1 cz.2 st
      if r.1 < 0 then Sum.inr (r.1, r.2)
      else reportPhase rd e r.1 mx r.2
    else reportPhase rd e s mx st
  else reportPhase rd e 0 mx st

/-- One iteration of the extension loop of `recurse` (lines 294–329), with the
recursive call abstracted as `recur`. -/
def itemStep (recur : (Nat → PatExt) → Nat → MState → Int × MState)
    (rd : RecData) (exts : Nat → PatExt) (len' : Nat) (hasCond : Bool)
    (acc : RAcc) (i : Nat) : RAcc :=
  match acc with
  | Sum.inr r => Sum.inr r
  | Sum.inl (s, mx, st) =>
    let e := exts i
    if e.supp < rd.smin then Sum.inl (s, mx, st)
    else
      let mx := if mx < e.supp then e.supp else mx
      let cr := if rd.modeClosed then closedFn e len' rd st else (-1, st)
      if rd.modeClosed ∧ cr.1 = 0 then Sum.inl (s, mx, cr.2)
      else
        extendPhase recur rd e hasCond s mx (isrAdd (pushGhost cr.2 e len') i e.supp)

/-- C `recurse` (lines 275–332), with fuel: the conditional extensions exist iff
`len + 1 ≤ zmax`; the loop runs over all items; the return value is the error
sentinel if one occurred and otherwise the maximal support seen among frequent
extension items. -/
def recurse : Nat → (Nat → PatExt) → Nat → Nat → RecData → MState → Int × MState
  | 0, _, _, _, _, st => (0, st)
  | fuel + 1, exts, _z, len, rd, st =>
    let len' := len + 1
    let hasCond := decide (len' ≤ rd.zmax)
    match (List.range rd.cnt).foldl
        (itemStep (fun c zc st' => recurse fuel c zc len' rd st') rd exts len' hasCond)
        (Sum.inl (0, 0, st)) with
    | Sum.inl (s, mx, st') => ((if s < 0 then s else mx), st')
    | Sum.inr (s, st') => (s, st')

/-! ## The driver (`sequoia`) -/

/-- Initial occurrence records (lines 371–378): one per transaction, with the given
(uninitialised-memory) anchor array `ips0 j`. -/
def mkOccs (bag : List Trans) (ips0 : Nat → Nat → Nat) : List PatOcc :=
  bag.enum.map (fun jt => ⟨jt.2.wgt, jt.2.items, ips0 jt.1⟩)

/-- One append of the root construction (lines 387–393): the item at position `p`
of transaction `j` receives an occurrence extension and its support grows by the
transaction weight. -/
def posStep (j : Nat) (tr : Trans) (ex : Nat → PatExt) (p : Nat) : Nat → PatExt :=
  let it := tr.items.getD p 0
  Function.update ex it
    { supp := (ex it).supp + tr.wgt, oxs := (ex it).oxs ++ [⟨p, j⟩] }

/-- Root construction for one transaction: walk all its item positions. -/
def rootStep (ex : Nat → PatExt) (jt : Nat × Trans) : Nat → PatExt :=
  (List.range jt.2.items.length).foldl (posStep jt.1 jt.2) ex

/-- Root pattern extensions (lines 385–394): one occurrence extension per item
instance, support summed per item. -/
def rootExts (bag : List Trans) : Nat → PatExt :=
  bag.enum.foldl rootStep (fun _ => ⟨0, []⟩)

/-- State at the start of a run. -/
def initState (bag : List Trans) (ips0 : Nat → Nat → Nat) : MState :=
  ⟨mkOccs bag ips0, fun _ => 0, ⟨[], [], 0⟩, []⟩

/-- C `sequoia` (lines 336–404): adapt `smin`, bail out when the total weight is
too small, report just the empty sequence when there are no items, otherwise run
the recursion on the root extensions and finally report the empty sequence when
permitted; returns the error status and the final state. -/
def sequoiaFn (bag : List Trans) (target : Bool) (smin : Int) (modeClosed : Bool)
    (cnt zmin zmax : Nat) (failAt : Nat → Bool) (ips0 : Nat → Nat → Nat) :
    Int × MState :=
  let W := totalWgt bag
  let rd : RecData := ⟨target, modeClosed, cnt, zmax,
    (if 0 < smin then smin else 1), zmin, W, failAt⟩
  let st0 := initState bag ips0
  if W < rd.smin then (0, st0)
  else if cnt = 0 then isrReport rd st0
  else
    let r := recurse (zmax + 1) (rootExts bag) (extent bag) 0 rd st0
    if 0 ≤ r.1 ∧ (r.1 < W ∨ ¬modeClosed) then
      let r2 := isrReport rd r.2
      ((if r2.1 < 0 then r2.1 else 0), r2.2)
    else
      ((if r.1 < 0 then r.1 else 0), r.2)

/-! ## Engine data structures (weighted path) -/

/-- C `WITEM`: an item id with its real-valued weight (modelled exactly as `Rat`). -/
structure WItem where
  item : Nat
  wgt  : Rat
deriving Repr, DecidableEq

/-- A weighted transaction (`WTRACT`). -/
structure WTrans where
  items : List WItem
  wgt   : Int
deriving Repr, DecidableEq

/-- C `WPATOCC`. -/
structure WPatOcc where
  wgt   : Int
  items : List WItem
  ips   : Nat → Nat

/-- C `WOCCEXT` (position into the weighted item list plus occurrence index). -/
structure WOccExt where
  item : Nat
  occ  : Nat
deriving Repr, DecidableEq

/-- C `WPATEXT`. -/
structure WPatExt where
  supp : Int
  oxs  : List WOccExt

/-- Default weighted occurrence record. -/
def wdummyOcc : WPatOcc := ⟨0, [], fun _ => 0⟩

/-- Weighted occurrence record with index `j`. -/
def woccAt (occs : List WPatOcc) (j : Nat) : WPatOcc :=
  occs.getD j wdummyOcc

/-- Default weighted item (out-of-bounds reads never happen in valid runs). -/
def wdummyItem : WItem := ⟨0, 0⟩

/-- Item (with weight) at position `p` of occurrence `o`. -/
def witemAt (o : WPatOcc) (p : Nat) : WItem :=
  o.items.getD p wdummyItem

/-- Item ids of a weighted item list. -/
def idsOf (l : List WItem) : List Nat :=
  l.map WItem.item

/-- Modelled from the spec: the weighted reporter records one-shot emissions
`(pattern, weights, support)` from `isr_isetx`. -/
structure WRepState where
  out   : List (List Nat × List Rat × Int)
  calls : Nat
deriving Repr, DecidableEq

/-- Mutable state of the weighted engine: occurrence records, counters `rd->frqs`,
the pattern item buffer `rd->items`, and the reporter. -/
structure WMState where
  occs   : List WPatOcc
  frqs   : Nat → Nat
  pitems : Nat → Nat
  rep    : WRepState

/-- Modelled from the spec: `isr_isetx` emits the pattern (filtered by the size
range) or fails according to the oracle. -/
def isrIsetx (rd : RecData) (st : WMState) (pat : List Nat) (ws : List Rat)
    (supp : Int) : Int × WMState :=
  if rd.failAt st.rep.calls then
    (-1, { st with rep := { st.rep with calls := st.rep.calls + 1 } })
  else
    let out' := if rd.zmin ≤ pat.length ∧ pat.length ≤ rd.zmax then
        st.rep.out ++ [(pat, ws, supp)]
      else st.rep.out
    (0, { st with rep := { out := out', calls := st.rep.calls + 1 } })

/-- The gap of a weighted occurrence, as item ids (lines 423–424; counting in
`closed_iw` uses the `item` field of each gap entry). -/
def wgapOf (o : WPatOcc) (g : Nat) : List Nat :=
  idsOf ((o.items.take (o.ips g)).drop (if g = 0 then 0 else o.ips (g - 1) + 1))

/-- C `closed_iw` (lines 410–437): same gap loop as `closed`, but the anchors were
already written by `rec_iw`; result `0` means "not closed", `-1` "closed". -/
def closediwFn (ext : WPatExt) (n : Nat) (rd : RecData) (st : WMState) :
    Int × WMState :=
  let gls := fun g => ext.oxs.map (fun x => wgapOf (woccAt st.occs x.occ) g)
  let r := gapLoop gls (List.range n).reverse st.frqs
  (r.1, { st with frqs := r.2 })

/-- Anchor writes in `rec_iw` (lines 467–468). -/
def wwriteAnchors (occs : List WPatOcc) (oxs : List WOccExt) (idx : Nat) :
    List WPatOcc :=
  oxs.foldl (fun os x =>
    os.set x.occ { woccAt os x.occ with
                   ips := Function.update (woccAt os x.occ).ips idx x.item }) occs

/-- Tail positions strictly after position `p` in weighted occurrence `o`. -/
def wtailPositions (o : WPatOcc) (p : Nat) : List Nat :=
  List.range' (p + 1) (o.items.length - (p + 1))

/-- One append of the weighted projection loop (lines 479–485). -/
def wtailStep (o : WPatOcc) (jocc : Nat) (cz : (Nat → WPatExt) × Nat) (p : Nat) :
    (Nat → WPatExt) × Nat :=
  let t := (witemAt o p).item
  let c := cz.1 t
  (Function.update cz.1 t { supp := c.supp + o.wgt, oxs := c.oxs ++ [⟨p, jocc⟩] },
   cz.2 + 1)

/-- Weighted projection of one occurrence extension. -/
def wcondStep (st : WMState) (cz : (Nat → WPatExt) × Nat) (x : WOccExt) :
    (Nat → WPatExt) × Nat :=
  (wtailPositions (woccAt st.occs x.occ) x.item).foldl
    (wtailStep (woccAt st.occs x.occ) x.occ) cz

/-- Projection loop of `rec_iw` (lines 474–486). -/
def buildWCond (st : WMState) (e : WPatExt) : (Nat → WPatExt) × Nat :=
  e.oxs.foldl (wcondStep st) ((fun _ => ⟨0, []⟩), 0)

/-- Weight aggregation before reporting (lines 495–501): for each pattern position
`m < len` sum transaction weight times the item weight at the anchored position. -/
def computeWgts (st : WMState) (e : WPatExt) (len : Nat) : Nat → Rat :=
  e.oxs.foldl (fun w x =>
    let o := woccAt st.occs x.occ
    (List.range len).foldl (fun w' m =>
      Function.update w' m (w' m + (o.wgt : Rat) * (witemAt o (o.ips m)).wgt)) w)
    (fun _ => 0)

/-- The pattern recorded in `rd->items[0..len)`. -/
def patOf (st : WMState) (len : Nat) : List Nat :=
  (List.range len).map st.pitems

/-- Accumulator of the extension loop in `rec_iw`. -/
def WAcc := (Int × Int × WMState) ⊕ (Int × WMState)

/-- Reporting part of one `rec_iw` iteration (lines 492–503): skip when closed mode
is on and the child support `s` reaches `e.supp`; otherwise compute the weights and
emit; a reporter failure turns into a `break` with `s = -1`. -/
def wreportPhase (rd : RecData) (e : WPatExt) (len' : Nat) (s mx : Int)
    (st : WMState) : WAcc :=
  if rd.modeClosed ∧ e.supp ≤ s then Sum.inl (s, mx, st)
  else
    let ws := (List.range len').map (computeWgts st e len')
    let r := isrIsetx rd st (patOf st len') ws e.supp
    if r.1 < 0 then Sum.inr (-1, r.2)
    else Sum.inl (s, mx, r.2)

/-- Projection, recursion and reporting for one processed extension item of
`rec_iw` (lines 472–503 after the closedness filter). -/
def wextendPhase (recur : (Nat → WPatExt) → Nat → WMState → Int × WMState)
    (rd : RecData) (e : WPatExt) (len' : Nat) (hasCond : Bool) (s mx : Int)
    (st : WMState) : WAcc :=
  if hasCond then
    let cz := buildWCond st e
    if 0 < cz.2 then
      let r := recur cz.1 cz.2 st
      if r.1 < 0 then Sum.inr (r.1, r.2)
      else wreportPhase rd e len' r.1 mx r.2
    else wreportPhase rd e len' s mx st
  else wreportPhase rd e len' 0 mx st

/-- One iteration of the extension loop of `rec_iw` (lines 460–504), with the
recursive call abstracted as `recur`. -/
def witemStep (recur : (Nat → WPatExt) → Nat → WMState → Int × WMState)
    (rd : RecData) (exts : Nat → WPatExt) (len' : Nat) (hasCond : Bool)
    (acc : WAcc) (i : Nat) : WAcc :=
  match acc with
  | Sum.inr r => Sum.inr r
  | Sum.inl (s, mx, st) =>
    let e := exts i
    if e.supp < rd.smin then Sum.inl (s, mx, st)
    else
      let mx := if mx < e.supp then e.supp else mx
      let st := { st with pitems := Function.update st.pitems (len' - 1) i,
                          occs := wwriteAnchors st.occs e.oxs (len' - 1) }
      let cr := if rd.modeClosed then closediwFn e len' rd st else (-1, st)
      if rd.modeClosed ∧ cr.1 = 0 then Sum.inl (s, mx, cr.2)
      else
        wextendPhase recur rd e len' hasCond s mx cr.2

/-- C `rec_iw` (lines 441–507), with fuel. -/
def recIw : Nat → (Nat → WPatExt) → Nat → Nat → RecData → WMState → Int × WMState
  | 0, _, _, _, _, st => (0, st)
  | fuel + 1, exts, _z, len, rd, st =>
    let len' := len + 1
    let hasCond := decide (len' ≤ rd.zmax)
    match (List.range rd.cnt).foldl
        (witemStep (fun c zc st' => recIw fuel c zc len' rd st') rd exts len' hasCond)
        (Sum.inl (0, 0, st)) with
    | Sum.inl (s, mx, st') => ((if s < 0 then s else mx), st')
    | Sum.inr (s, st') => (s, st')

/-! ## The weighted driver (`sequoia_iw`) -/

/-- Total transaction weight of a weighted bag. -/
def wtotalWgt (bag : List WTrans) : Int :=
  (bag.map WTrans.wgt).sum

/-- Number of item instances of a weighted bag. -/
def wextent (bag : List WTrans) : Nat :=
  (bag.map (fun t => t.items.length)).sum

/-- Initial weighted occurrence records (lines 551–558). -/
def mkWOccs (bag : List WTrans) (ips0 : Nat → Nat → Nat) : List WPatOcc :=
  bag.enum.map (fun jt => ⟨jt.2.wgt, jt.2.items, ips0 jt.1⟩)

/-- One append of the weighted root construction (lines 567–573). -/
def wposStep (j : Nat) (tr : WTrans) (ex : Nat → WPatExt) (p : Nat) : Nat → WPatExt :=
  let it := (tr.items.getD p wdummyItem).item
  Function.update ex it
    { supp := (ex it).supp + tr.wgt, oxs := (ex it).oxs ++ [⟨p, j⟩] }

/-- Weighted root construction for one transaction. -/
def wrootStep (ex : Nat → WPatExt) (jt : Nat × WTrans) : Nat → WPatExt :=
  (List.range jt.2.items.length).foldl (wposStep jt.1 jt.2) ex

/-- Root weighted pattern extensions (lines 565–574). -/
def rootWExts (bag : List WTrans) : Nat → WPatExt :=
  bag.enum.foldl wrootStep (fun _ => ⟨0, []⟩)

/-- Weighted state at the start of a run. -/
def initWState (bag : List WTrans) (ips0 : Nat → Nat → Nat) : WMState :=
  ⟨mkWOccs bag ips0, fun _ => 0, fun _ => 0, ⟨[], 0⟩⟩

/-- C `sequoia_iw` (lines 511–584).  Note line 577: unlike the unweighted path,
the final empty-sequence report is attempted even when the recursion returned a
negative error sentinel (the guard tests only `r < W` or ALL mode), and its status
then replaces `r`. -/
def sequoiaIwFn (bag : List WTrans) (target : Bool) (smin : Int) (modeClosed : Bool)
    (cnt zmin zmax : Nat) (failAt : Nat → Bool) (ips0 : Nat → Nat → Nat) :
    Int × WMState :=
  let W := wtotalWgt bag
  let rd : RecData := ⟨target, modeClosed, cnt, zmax,
    (if 0 < smin then smin else 1), zmin, W, failAt⟩
  let st0 := initWState bag ips0
  if W < rd.smin then (0, st0)
  else if cnt = 0 then
    let r := isrIsetx rd st0 [] [] W
    ((if r.1 < 0 then -1 else 0), r.2)
  else
    let r := recIw (zmax + 1) (rootWExts bag) (wextent bag) 0 rd st0
    if r.1 < W ∨ ¬modeClosed then
      let r2 := isrIsetx rd r.2 [] [] W
      ((if r2.1 < 0 then -1 else 0), r2.2)
    else
      ((if r.1 < 0 then r.1 else 0), r.2)

/-! ## Concrete inputs used by evaluations and witnesses -/

/-- A reporter that never fails. -/
def noFail : Nat → Bool := fun _ => false

/-- Arbitrary junk contents of the uninitialised `ips` arrays (value 99). -/
def junkIps : Nat → Nat → Nat := fun _ _ => 99

/-- Scenario 1/2 bag: `{(a,b,c), (a,c), (a,b)}`, weight 1 each (a=0, b=1, c=2). -/
def bagS2 : List Trans := [⟨[0, 1, 2], 1⟩, ⟨[0, 2], 1⟩, ⟨[0, 1], 1⟩]

/-- Failing input for claim C4: `{(a,c) wgt 3, (b) wgt 1}`. -/
def bagC4 : List Trans := [⟨[0, 2], 3⟩, ⟨[1], 1⟩]

/-- One-transaction bag `{(a)}` for claim C7. -/
def bagC7 : List Trans := [⟨[0], 1⟩]

/-- One-transaction weighted bag for claim C3. -/
def wbagC3 : List WTrans := [⟨[⟨0, 1⟩], 1⟩]

/-- A reporter that fails exactly on its first call. -/
def failFirst : Nat → Bool := fun k => k == 0

/-- The recursion data `sequoia_iw` builds for the C3 counterexample run. -/
def rdC3 : RecData := ⟨false, false, 1, 1, 1, 1, 1, failFirst⟩

/-- Scenario 4 weighted bag: `{(a:1,b:3) wgt 1, (a:2,b:4) wgt 2}`. -/
def wbagS4 : List WTrans := [⟨[⟨0, 1⟩, ⟨1, 3⟩], 1⟩, ⟨[⟨0, 2⟩, ⟨1, 4⟩], 2⟩]

/-- Specification: the maximum of `supps i` over the extension items `i < cnt` with
`supps i ≥ smin`, and `0` when there is none (the value `recurse`/`rec_iw` are
claimed to return in the absence of errors). -/
def maxFreq (rd : RecData) (supps : Nat → Int) : Int :=
  (List.range rd.cnt).foldl
    (fun m i => if supps i < rd.smin then m else max m (supps i)) 0

/-- Specification of "not closed" in the claim's words: there is a gap index
`g < n` and an item occurring in gap `g` of every one of the occurrences. -/
def NotClosedSpec (occs : List PatOcc) (oxs : List OccExt) (n : Nat) : Prop :=
  ∃ g < n, ∃ it, ∀ x ∈ oxs, it ∈ gapOf (occAt occs x.occ) g

/-- Weighted version of `NotClosedSpec`. -/
def WNotClosedSpec (occs : List WPatOcc) (oxs : List WOccExt) (n : Nat) : Prop :=
  ∃ g < n, ∃ it, ∀ x ∈ oxs, it ∈ wgapOf (woccAt occs x.occ) g

/-- The canonical occurrence-extension list of the pattern `P ++ [t]`: one entry
per transaction embedding it, anchored at the (unique, for duplicate-free
transactions) position of `t`, in transaction order. -/
def canonOxs (bag : List Trans) (P : List Nat) (t : Nat) : List OccExt :=
  bag.enum.filterMap (fun jt =>
    if (P ++ [t]).Sublist jt.2.items then some ⟨jt.2.items.indexOf t, jt.1⟩ else none)

/-- The canonical pattern extension of `P` by item `t`. -/
def canonExt (bag : List Trans) (P : List Nat) (t : Nat) : PatExt :=
  ⟨support bag (P ++ [t]), canonOxs bag P t⟩

/-- The engine state's occurrence records agree with the bag (their `ips` arrays
are unconstrained). -/
def OccsMatch (st : MState) (bag : List Trans) : Prop :=
  st.occs.length = bag.length ∧
  ∀ jt ∈ bag.enum,
    (occAt st.occs jt.1).items = jt.2.items ∧ (occAt st.occs jt.1).wgt = jt.2.wgt

/-- Support of a pattern over a weighted bag (embedding into the item ids). -/
def wsupport (bag : List WTrans) (p : List Nat) : Int :=
  ((bag.filter (fun t => decide (p.Sublist (idsOf t.items)))).map WTrans.wgt).sum

/-- Canonical weighted occurrence-extension list. -/
def wcanonOxs (bag : List WTrans) (P : List Nat) (t : Nat) : List WOccExt :=
  bag.enum.filterMap (fun jt =>
    if (P ++ [t]).Sublist (idsOf jt.2.items) then
      some ⟨(idsOf jt.2.items).indexOf t, jt.1⟩
    else none)

/-- Canonical weighted pattern extension. -/
def wcanonExt (bag : List WTrans) (P : List Nat) (t : Nat) : WPatExt :=
  ⟨wsupport bag (P ++ [t]), wcanonOxs bag P t⟩

/-- The weighted engine state's occurrence records agree with the bag. -/
def WOccsMatch (st : WMState) (bag : List WTrans) : Prop :=
  st.occs.length = bag.length ∧
  ∀ jt ∈ bag.enum,
    (woccAt st.occs jt.1).items = jt.2.items ∧ (woccAt st.occs jt.1).wgt = jt.2.wgt

/-- Input sanity for the weighted miner. -/
def ValidWBag (bag : List WTrans) (cnt : Nat) : Prop :=
  ∀ t ∈ bag, (idsOf t.items).Nodup ∧ (∀ w ∈ t.items, w.item < cnt) ∧ 1 ≤ t.wgt

/-- The weight carried by item `it` in transaction `tr` (0 when absent). -/
def wItemWgt (tr : WTrans) (it : Nat) : Rat :=
  match tr.items.find? (fun w => w.item == it) with
  | some w => w.wgt
  | none => 0

/-- Specification of the weighted sum reported for pattern position `j`: over all
transactions embedding the pattern, transaction weight times the weight of the
item at pattern position `j`. -/
def wSum (bag : List WTrans) (p : List Nat) (j : Nat) : Rat :=
  ((bag.filter (fun t => decide (p.Sublist (idsOf t.items)))).map
    (fun t => (t.wgt : Rat) * wItemWgt t (p.getD j 0))).sum

/-! ## Claim C1 -/

/-- C1: the program run with target CLOSED does **not** emit only closed sequences:
`main` passes the literal mode `0` to the engine, so the `rd->mode & ISR_CLOSED`
guard never fires.  On the bag `{(a,b,c),(a,c),(a,b)}` with `smin = 2` the run as
invoked by `main` (target `c`, mode `0`) also emits `(b)` and `(c)`, each of which
has a proper super-sequence of equal support; the claimed output set
`{(a) 3, (a,b) 2, (a,c) 2}` is exactly what the engine produces only when the
closed flag is actually passed in `mode`. -/
theorem c1_driver_mode_zero_eval :
    ((sequoiaFn bagS2 true 2 false 3 1 4 noFail junkIps).2.rep.out
      = [([0, 1], 2), ([0, 2], 2), ([0], 3), ([1], 2), ([2], 2)])
    ∧ ((sequoiaFn bagS2 true 2 true 3 1 4 noFail junkIps).2.rep.out
      = [([0, 1], 2), ([0, 2], 2), ([0], 3)]) := by
  constructor <;> decide

/-! ## Claim C4 -/

/-- C4: in closed mode the reporting gate compares `e.supp` against the *stale*
variable `s` when the conditional-extension block was allocated but empty
(`cond ≠ NULL`, `z = 0`): `s` then still holds the maximum support returned by the
recursive call of a *previous* extension item, not `0`.  On the bag
`{(a,c) wgt 3, (b) wgt 1}` with `smin = 1`, `zmax = 2`, closed mode, the closed
pattern `(b)` (support 1, no super-sequence) is wrongly suppressed: after sibling
`a` the stale `s = 3 ≥ 1` blocks its report, so the output is only `(a,c)`. -/
theorem c4_stale_child_supp_eval :
    ((sequoiaFn bagC4 true 1 true 3 1 2 noFail junkIps).2.rep.out = [([0, 2], 3)])
    ∧ support bagC4 [1] = 1 := by
  constructor <;> decide

/-! ## Claim C3 counterexample -/

/-- C3 counterexample: `rec_iw` returns the negative sentinel `-1` (the reporter
fails on its first call), yet `sequoia_iw` returns `0`: the final empty-sequence
report is attempted unconditionally (line 577 tests only `r < W` or ALL mode) and
its success status overwrites the error. -/
theorem c3_error_swallowed_cex :
    ((sequoiaIwFn wbagC3 false 1 false 1 1 1 failFirst junkIps).1 = 0)
    ∧ ((recIw 2 (rootWExts wbagC3) (wextent wbagC3) 0 rdC3
        (initWState wbagC3 junkIps)).1 = -1) := by
  constructor <;> decide

/-! ## Claim C7 counterexample -/

/-- C7 counterexample: in ALL mode `recurse` never writes the occurrence anchors:
the writes happen only inside `closed()`, which is not called when
`rd->mode & ISR_CLOSED` is off.  On the bag `{(a)}` with junk initial `ips`
contents `99`, the observation taken just before the projection loop shows
`ips[depth] = 99 ≠ 0 = x.item` for the processed extension. -/
theorem c7_all_mode_no_anchor_cex :
    ((sequoiaFn bagC7 false 1 false 1 1 1 noFail junkIps).2.ghost = [[(99, 0)]])
    ∧ (99 : Nat) ≠ 0 := by
  constructor <;> decide

/-! ## Claim C3 (amended) -/

/-- C3 (amended): when `rec_iw` returns a negative error sentinel, `sequoia_iw`
still attempts the final empty-sequence report unconditionally (the guard at line
577 tests only `r < W` or ALL mode, and a negative `r` is always `< W` there); the
returned status is then that of this final report: `-1` if it fails, `0` if it
succeeds — the recursion error is converted into success whenever the final report
call succeeds. -/
theorem c3_amended (bag : List WTrans) (target : Bool) (smin : Int)
    (modeClosed : Bool) (cnt zmin zmax : Nat) (failAt : Nat → Bool)
    (ips0 : Nat → Nat → Nat)
    (hW : ¬ wtotalWgt bag < (if 0 < smin then smin else 1))
    (hcnt : ¬ cnt = 0)
    (hneg : (recIw (zmax + 1) (rootWExts bag) (wextent bag) 0
        ⟨target, modeClosed, cnt, zmax, (if 0 < smin then smin else 1), zmin,
          wtotalWgt bag, failAt⟩ (initWState bag ips0)).1 < 0) :
    (sequoiaIwFn bag target smin modeClosed cnt zmin zmax failAt ips0).1
      = (if failAt (recIw (zmax + 1) (rootWExts bag) (wextent bag) 0
            ⟨target, modeClosed, cnt, zmax, (if 0 < smin then smin else 1), zmin,
              wtotalWgt bag, failAt⟩ (initWState bag ips0)).2.rep.calls
         then -1 else 0) := by
  have hsmin : (1 : Int) ≤ (if 0 < smin then smin else 1) := by split <;> omega
  have hWpos : (1 : Int) ≤ wtotalWgt bag := le_trans hsmin (not_lt.mp hW)
  simp only [sequoiaIwFn]
  rw [if_neg hW, if_neg hcnt, if_pos (Or.inl (lt_of_lt_of_le hneg (by omega)))]
  by_cases hf : failAt (recIw (zmax + 1) (rootWExts bag) (wextent bag) 0
      ⟨target, modeClosed, cnt, zmax, (if 0 < smin then smin else 1), zmin,
        wtotalWgt bag, failAt⟩ (initWState bag ips0)).2.rep.calls <;>
    simp [isrIsetx, hf]

/-- Witness for C3 (amended) at the counterexample input: the hypotheses hold and
the final report (call 1) succeeds, so `sequoia_iw` returns `0`. -/
theorem c3_amended_witness :
    (sequoiaIwFn wbagC3 false 1 false 1 1 1 failFirst junkIps).1
      = (if failFirst (recIw 2 (rootWExts wbagC3) (wextent wbagC3) 0
            ⟨false, false, 1, 1, (if (0:Int) < 1 then 1 else 1), 1,
              wtotalWgt wbagC3, failFirst⟩ (initWState wbagC3 junkIps)).2.rep.calls
         then -1 else 0) :=
  c3_amended wbagC3 false 1 false 1 1 1 failFirst junkIps
    (by decide) (by decide) (by decide)

/-! ## Claim C8: the gap scans restore the counter array -/

/-- Touch-list invariant through one gap scan: every nonzero counter is recorded on
the touch list, and the touch list only grows. -/
lemma gapStep_fold_touch (i : Nat) (L : List Nat) :
    ∀ (f : Nat → Nat) (b : List Nat) (k : Nat),
      (∀ s, f s ≠ 0 → s ∈ b) →
      (∀ s, (L.foldl (gapStep i) (f, b, k)).1 s ≠ 0 →
          s ∈ (L.foldl (gapStep i) (f, b, k)).2.1)
      ∧ (∀ s ∈ b, s ∈ (L.foldl (gapStep i) (f, b, k)).2.1) := by
  induction L with
  | nil => exact fun f b k h => ⟨h, fun s hs => hs⟩
  | cons a L ih =>
    intro f b k h
    simp only [List.foldl_cons]
    have hb' : ∀ s ∈ b, s ∈ (gapStep i (f, b, k) a).2.1 := by
      intro s hs
      simp only [gapStep]
      split
      · exact List.mem_cons_of_mem a hs
      · exact hs
    have h' : ∀ s, (gapStep i (f, b, k) a).1 s ≠ 0 → s ∈ (gapStep i (f, b, k) a).2.1 := by
      intro s hs
      by_cases hsa : s = a
      · subst hsa
        by_cases hz : f s = 0
        · simp only [gapStep, hz]
          exact List.mem_cons_self s b
        · exact hb' s (h s hz)
      · simp only [gapStep, Function.update_noteq hsa] at hs
        exact hb' s (h s hs)
    exact ⟨(ih (gapStep i (f, b, k) a).1 (gapStep i (f, b, k) a).2.1
              (gapStep i (f, b, k) a).2.2 h').1,
           fun s hs => (ih (gapStep i (f, b, k) a).1 (gapStep i (f, b, k) a).2.1
              (gapStep i (f, b, k) a).2.2 h').2 s (hb' s hs)⟩

/-- Touch-list invariant through the occurrence loop. -/
lemma scanOccs_touch :
    ∀ (gs : List (List Nat)) (i : Nat) (f : Nat → Nat) (b : List Nat),
      (∀ s, f s ≠ 0 → s ∈ b) →
      ∀ s, (scanOccs i gs f b).1 s ≠ 0 → s ∈ (scanOccs i gs f b).2.1 := by
  intro gs
  induction gs with
  | nil => intro i f b h; simpa [scanOccs] using h
  | cons L rest ih =>
    intro i f b h
    cases rest with
    | nil => simpa [scanOccs, scanGap] using (gapStep_fold_touch i L f b 0 h).1
    | cons L' rest' =>
      simp only [scanOccs, scanGap]
      split
      · exact (gapStep_fold_touch i L f b 0 h).1
      · exact ih (i + 1) _ _ (gapStep_fold_touch i L f b 0 h).1

/-- Clearing every touched counter restores the all-zero state. -/
lemma clearBuf_zero :
    ∀ (b : List Nat) (f : Nat → Nat),
      (∀ s, f s ≠ 0 → s ∈ b) → ∀ s, clearBuf b f s = 0 := by
  intro b
  induction b with
  | nil =>
    intro f h s
    simp only [clearBuf, List.foldl_nil]
    by_contra hz
    exact absurd (h s hz) (List.not_mem_nil s)
  | cons a b ih =>
    intro f h s
    simp only [clearBuf, List.foldl_cons] at *
    refine ih (Function.update f a 0) ?_ s
    intro s' hs'
    by_cases hsa : s' = a
    · subst hsa; simp at hs'
    · rw [Function.update_noteq hsa] at hs'
      exact (List.mem_cons.mp (h s' hs')).resolve_left hsa

/-- The gap loop keeps the counter array all-zero (each gap's touched counters are
cleared before moving on or returning). -/
lemma gapLoop_zero (gls : Nat → List (List Nat)) :
    ∀ (gs : List Nat) (f : Nat → Nat),
      (∀ s, f s = 0) → ∀ s, (gapLoop gls gs f).2 s = 0 := by
  intro gs
  induction gs with
  | nil => intro f hf s; simpa [gapLoop] using hf s
  | cons g gs ih =>
    intro f hf s
    have hinv : ∀ s, f s ≠ 0 → s ∈ ([] : List Nat) := fun s hs => absurd (hf s) hs
    have htouch := scanOccs_touch (gls g) 0 f [] hinv
    have hz := clearBuf_zero _ _ htouch
    simp only [gapLoop]
    split
    · exact hz s
    · exact ih _ hz s

/-- C8: `closed` and `closed_iw` leave the shared counter array `rd->frqs` entirely
zero on return whenever it was entirely zero on entry: within each gap scan every
incremented counter is recorded on the touch list and the clearing loop zeroes
exactly the recorded entries. -/
theorem c8_frqs_cleared :
    (∀ (ext : PatExt) (n : Nat) (rd : RecData) (st : MState),
      (∀ j, st.frqs j = 0) → ∀ j, (closedFn ext n rd st).2.frqs j = 0)
    ∧ (∀ (ext : WPatExt) (n : Nat) (rd : RecData) (st : WMState),
      (∀ j, st.frqs j = 0) → ∀ j, (closediwFn ext n rd st).2.frqs j = 0) := by
  constructor
  · intro ext n rd st hz j
    exact gapLoop_zero _ _ _ hz j
  · intro ext n rd st hz j
    exact gapLoop_zero _ _ _ hz j

/-- Witness for C8 at a concrete input: a two-occurrence extension over the
scenario-2 occurrences with `n = 2`, starting from the all-zero array. -/
theorem c8_frqs_cleared_witness :
    ∀ j, (closedFn ⟨2, [⟨1, 0⟩, ⟨1, 2⟩]⟩ 2 rdC3
        (initState bagS2 junkIps)).2.frqs j = 0 :=
  c8_frqs_cleared.1 ⟨2, [⟨1, 0⟩, ⟨1, 2⟩]⟩ 2 rdC3 (initState bagS2 junkIps)
    (fun _ => rfl)

/-! ## Claim C6: the return value of `recurse` / `rec_iw` -/

/-- `reportPhase` either keeps `(s, max)` or breaks with `-1`. -/
lemma reportPhase_shape (rd : RecData) (e : PatExt) (s mx : Int) (st : MState) :
    (∃ st', reportPhase rd e s mx st = Sum.inl (s, mx, st'))
    ∨ (∃ st', reportPhase rd e s mx st = Sum.inr (-1, st')) := by
  simp only [reportPhase]
  split
  · split
    · exact Or.inr ⟨_, rfl⟩
    · exact Or.inl ⟨_, rfl⟩
  · exact Or.inl ⟨_, rfl⟩

/-- `extendPhase` either ends in `Sum.inl` with the given maximum and a
nonnegative `s`, or breaks with a negative error value. -/
lemma extendPhase_shape (recur : (Nat → PatExt) → Nat → MState → Int × MState)
    (rd : RecData) (e : PatExt) (hc : Bool) (s mx : Int) (st : MState)
    (hs : 0 ≤ s) :
    (∃ s₂ st₂, extendPhase recur rd e hc s mx st = Sum.inl (s₂, mx, st₂) ∧ 0 ≤ s₂)
    ∨ (∃ p : Int × MState, extendPhase recur rd e hc s mx st = Sum.inr p ∧ p.1 < 0) := by
  simp only [extendPhase]
  split
  · split
    · split
      · exact Or.inr ⟨_, rfl, by assumption⟩
      · rcases reportPhase_shape rd e _ mx _ with ⟨st', h⟩ | ⟨st', h⟩
        · exact Or.inl ⟨_, st', h, le_of_not_lt (by assumption)⟩
        · exact Or.inr ⟨_, h, by norm_num⟩
    · rcases reportPhase_shape rd e s mx st with ⟨st', h⟩ | ⟨st', h⟩
      · exact Or.inl ⟨s, st', h, hs⟩
      · exact Or.inr ⟨_, h, by norm_num⟩
  · rcases reportPhase_shape rd e 0 mx st with ⟨st', h⟩ | ⟨st', h⟩
    · exact Or.inl ⟨0, st', h, le_refl 0⟩
    · exact Or.inr ⟨_, h, by norm_num⟩

/-- One iteration of the extension loop keeps a nonnegative `s` and updates the
maximum exactly when the extension item is frequent, or breaks with a negative
error value. -/
lemma itemStep_inl_cases (recur : (Nat → PatExt) → Nat → MState → Int × MState)
    (rd : RecData) (exts : Nat → PatExt) (len' : Nat) (hc : Bool)
    (s mx : Int) (st : MState) (i : Nat) (hs : 0 ≤ s) :
    (∃ s₂ st₂, itemStep recur rd exts len' hc (Sum.inl (s, mx, st)) i
        = Sum.inl (s₂, (if (exts i).supp < rd.smin then mx else max mx (exts i).supp), st₂)
      ∧ 0 ≤ s₂)
    ∨ (∃ p : Int × MState, itemStep recur rd exts len' hc (Sum.inl (s, mx, st)) i
        = Sum.inr p ∧ p.1 < 0) := by
  simp only [itemStep]
  by_cases h1 : (exts i).supp < rd.smin
  · rw [if_pos h1, if_pos h1]
    exact Or.inl ⟨s, st, rfl, hs⟩
  · rw [if_neg h1, if_neg h1]
    have hmx : (if mx < (exts i).supp then (exts i).supp else mx)
        = max mx (exts i).supp := by
      rcases le_or_lt (exts i).supp mx with h | h
      · rw [if_neg (not_lt.mpr h), max_eq_left h]
      · rw [if_pos h, max_eq_right h.le]
    rw [hmx]
    split
    · split
      · exact Or.inl ⟨s, _, rfl, hs⟩
      · exact extendPhase_shape recur rd (exts i) hc s (max mx (exts i).supp) _ hs
    · rename_i hmc
      split
      · rename_i h2
        exact absurd h2.1 hmc
      · exact extendPhase_shape recur rd (exts i) hc s (max mx (exts i).supp) _ hs

/-- A `break` propagates through the rest of the extension loop. -/
lemma foldl_itemStep_inr (recur : (Nat → PatExt) → Nat → MState → Int × MState)
    (rd : RecData) (exts : Nat → PatExt) (len' : Nat) (hc : Bool) :
    ∀ (is : List Nat) (p : Int × MState),
      List.foldl (itemStep recur rd exts len' hc) (Sum.inr p) is = Sum.inr p := by
  intro is
  induction is with
  | nil => intro p; rfl
  | cons i is ih => intro p; simpa [itemStep] using ih p

/-- The extension loop either breaks with a negative value or ends with the
frequent-extension maximum folded into the accumulator. -/
lemma itemStep_fold_max (recur : (Nat → PatExt) → Nat → MState → Int × MState)
    (rd : RecData) (exts : Nat → PatExt) (len' : Nat) (hc : Bool) :
    ∀ (is : List Nat) (s mx : Int) (st : MState), 0 ≤ s →
      (∃ p : Int × MState,
        List.foldl (itemStep recur rd exts len' hc) (Sum.inl (s, mx, st)) is
          = Sum.inr p ∧ p.1 < 0)
      ∨ (∃ s' st',
        List.foldl (itemStep recur rd exts len' hc) (Sum.inl (s, mx, st)) is
          = Sum.inl (s', is.foldl
              (fun m i => if (exts i).supp < rd.smin then m else max m ((exts i).supp)) mx,
            st')
          ∧ 0 ≤ s') := by
  intro is
  induction is with
  | nil => intro s mx st hs; exact Or.inr ⟨s, st, rfl, hs⟩
  | cons i is ih =>
    intro s mx st hs
    simp only [List.foldl_cons]
    rcases itemStep_inl_cases recur rd exts len' hc s mx st i hs with
      ⟨s₂, st₂, heq, hs₂⟩ | ⟨p, heq, hneg⟩
    · rw [heq]
      exact ih s₂ _ st₂ hs₂
    · rw [heq, foldl_itemStep_inr]
      exact Or.inl ⟨p, rfl, hneg⟩

/-- `recurse` (with nonzero fuel) returns a negative error value or the maximum
support among frequent extension items. -/
lemma recurse_result (fuel : Nat) (exts : Nat → PatExt) (z len : Nat)
    (rd : RecData) (st : MState) :
    (recurse (fuel + 1) exts z len rd st).1 < 0
    ∨ (recurse (fuel + 1) exts z len rd st).1 = maxFreq rd (fun i => (exts i).supp) := by
  simp only [recurse]
  rcases itemStep_fold_max (fun c zc st' => recurse fuel c zc (len + 1) rd st')
      rd exts (len + 1) (decide (len + 1 ≤ rd.zmax)) (List.range rd.cnt) 0 0 st
      (le_refl 0) with ⟨p, heq, hneg⟩ | ⟨s', st', heq, hs'⟩
  · rw [heq]
    exact Or.inl hneg
  · rw [heq]
    simp only [if_neg (not_lt.mpr hs')]
    exact Or.inr rfl

/-- `wreportPhase` either keeps `(s, max)` or breaks with `-1`. -/
lemma wreportPhase_shape (rd : RecData) (e : WPatExt) (len' : Nat) (s mx : Int)
    (st : WMState) :
    (∃ st', wreportPhase rd e len' s mx st = Sum.inl (s, mx, st'))
    ∨ (∃ st', wreportPhase rd e len' s mx st = Sum.inr (-1, st')) := by
  simp only [wreportPhase]
  split
  · exact Or.inl ⟨_, rfl⟩
  · split
    · exact Or.inr ⟨_, rfl⟩
    · exact Or.inl ⟨_, rfl⟩

/-- `wextendPhase` either ends in `Sum.inl` with the given maximum and a
nonnegative `s`, or breaks with a negative error value. -/
lemma wextendPhase_shape (recur : (Nat → WPatExt) → Nat → WMState → Int × WMState)
    (rd : RecData) (e : WPatExt) (len' : Nat) (hc : Bool) (s mx : Int)
    (st : WMState) (hs : 0 ≤ s) :
    (∃ s₂ st₂, wextendPhase recur rd e len' hc s mx st = Sum.inl (s₂, mx, st₂) ∧ 0 ≤ s₂)
    ∨ (∃ p : Int × WMState,
        wextendPhase recur rd e len' hc s mx st = Sum.inr p ∧ p.1 < 0) := by
  simp only [wextendPhase]
  split
  · split
    · split
      · exact Or.inr ⟨_, rfl, by assumption⟩
      · rcases wreportPhase_shape rd e len' _ mx _ with ⟨st', h⟩ | ⟨st', h⟩
        · exact Or.inl ⟨_, st', h, le_of_not_lt (by assumption)⟩
        · exact Or.inr ⟨_, h, by norm_num⟩
    · rcases wreportPhase_shape rd e len' s mx st with ⟨st', h⟩ | ⟨st', h⟩
      · exact Or.inl ⟨s, st', h, hs⟩
      · exact Or.inr ⟨_, h, by norm_num⟩
  · rcases wreportPhase_shape rd e len' 0 mx st with ⟨st', h⟩ | ⟨st', h⟩
    · exact Or.inl ⟨0, st', h, le_refl 0⟩
    · exact Or.inr ⟨_, h, by norm_num⟩

/-- Weighted analogue of `itemStep_inl_cases`. -/
lemma witemStep_inl_cases (recur : (Nat → WPatExt) → Nat → WMState → Int × WMState)
    (rd : RecData) (exts : Nat → WPatExt) (len' : Nat) (hc : Bool)
    (s mx : Int) (st : WMState) (i : Nat) (hs : 0 ≤ s) :
    (∃ s₂ st₂, witemStep recur rd exts len' hc (Sum.inl (s, mx, st)) i
        = Sum.inl (s₂, (if (exts i).supp < rd.smin then mx else max mx (exts i).supp), st₂)
      ∧ 0 ≤ s₂)
    ∨ (∃ p : Int × WMState, witemStep recur rd exts len' hc (Sum.inl (s, mx, st)) i
        = Sum.inr p ∧ p.1 < 0) := by
  simp only [witemStep]
  by_cases h1 : (exts i).supp < rd.smin
  · rw [if_pos h1, if_pos h1]
    exact Or.inl ⟨s, st, rfl, hs⟩
  · rw [if_neg h1, if_neg h1]
    have hmx : (if mx < (exts i).supp then (exts i).supp else mx)
        = max mx (exts i).supp := by
      rcases le_or_lt (exts i).supp mx with h | h
      · rw [if_neg (not_lt.mpr h), max_eq_left h]
      · rw [if_pos h, max_eq_right h.le]
    rw [hmx]
    split
    · split
      · exact Or.inl ⟨s, _, rfl, hs⟩
      · exact wextendPhase_shape recur rd (exts i) len' hc s (max mx (exts i).supp) _ hs
    · rename_i hmc
      split
      · rename_i h2
        exact absurd h2.1 hmc
      · exact wextendPhase_shape recur rd (exts i) len' hc s (max mx (exts i).supp) _ hs

/-- A `break` propagates through the rest of the weighted extension loop. -/
lemma foldl_witemStep_inr (recur : (Nat → WPatExt) → Nat → WMState → Int × WMState)
    (rd : RecData) (exts : Nat → WPatExt) (len' : Nat) (hc : Bool) :
    ∀ (is : List Nat) (p : Int × WMState),
      List.foldl (witemStep recur rd exts len' hc) (Sum.inr p) is = Sum.inr p := by
  intro is
  induction is with
  | nil => intro p; rfl
  | cons i is ih => intro p; simpa [witemStep] using ih p

/-- Weighted analogue of `itemStep_fold_max`. -/
lemma witemStep_fold_max (recur : (Nat → WPatExt) → Nat → WMState → Int × WMState)
    (rd : RecData) (exts : Nat → WPatExt) (len' : Nat) (hc : Bool) :
    ∀ (is : List Nat) (s mx : Int) (st : WMState), 0 ≤ s →
      (∃ p : Int × WMState,
        List.foldl (witemStep recur rd exts len' hc) (Sum.inl (s, mx, st)) is
          = Sum.inr p ∧ p.1 < 0)
      ∨ (∃ s' st',
        List.foldl (witemStep recur rd exts len' hc) (Sum.inl (s, mx, st)) is
          = Sum.inl (s', is.foldl
              (fun m i => if (exts i).supp < rd.smin then m else max m ((exts i).supp)) mx,
            st')
          ∧ 0 ≤ s') := by
  intro is
  induction is with
  | nil => intro s mx st hs; exact Or.inr ⟨s, st, rfl, hs⟩
  | cons i is ih =>
    intro s mx st hs
    simp only [List.foldl_cons]
    rcases witemStep_inl_cases recur rd exts len' hc s mx st i hs with
      ⟨s₂, st₂, heq, hs₂⟩ | ⟨p, heq, hneg⟩
    · rw [heq]
      exact ih s₂ _ st₂ hs₂
    · rw [heq, foldl_witemStep_inr]
      exact Or.inl ⟨p, rfl, hneg⟩

/-- `rec_iw` (with nonzero fuel) returns a negative error value or the maximum
support among frequent extension items. -/
lemma recIw_result (fuel : Nat) (exts : Nat → WPatExt) (z len : Nat)
    (rd : RecData) (st : WMState) :
    (recIw (fuel + 1) exts z len rd st).1 < 0
    ∨ (recIw (fuel + 1) exts z len rd st).1 = maxFreq rd (fun i => (exts i).supp) := by
  simp only [recIw]
  rcases witemStep_fold_max (fun c zc st' => recIw fuel c zc (len + 1) rd st')
      rd exts (len + 1) (decide (len + 1 ≤ rd.zmax)) (List.range rd.cnt) 0 0 st
      (le_refl 0) with ⟨p, heq, hneg⟩ | ⟨s', st', heq, hs'⟩
  · rw [heq]
    exact Or.inl hneg
  · rw [heq]
    simp only [if_neg (not_lt.mpr hs')]
    exact Or.inr rfl

/-- C6: `recurse` (and likewise `rec_iw`) returns either a negative error marker
(allocation cannot fail in the model; the reporter can) or the maximum of
`exts[i].supp` over the extension items `i` with `supp ≥ smin` — `0` when there is
none — including items skipped by the closedness filter (the maximum is updated
before the filter runs). -/
theorem c6_returns_max_support :
    (∀ (fuel : Nat) (exts : Nat → PatExt) (z len : Nat) (rd : RecData) (st : MState),
      (recurse (fuel + 1) exts z len rd st).1 < 0
      ∨ (recurse (fuel + 1) exts z len rd st).1 = maxFreq rd (fun i => (exts i).supp))
    ∧ (∀ (fuel : Nat) (exts : Nat → WPatExt) (z len : Nat) (rd : RecData) (st : WMState),
      (recIw (fuel + 1) exts z len rd st).1 < 0
      ∨ (recIw (fuel + 1) exts z len rd st).1 = maxFreq rd (fun i => (exts i).supp)) :=
  ⟨fun fuel exts z len rd st => recurse_result fuel exts z len rd st,
   fun fuel exts z len rd st => recIw_result fuel exts z len rd st⟩

/-! ## Claim C10: fuel sufficiency (termination with depth bound `zmax`) -/

/-- `itemStep` depends on the recursive callee only when conditional extensions
exist. -/
lemma itemStep_congr (recur₁ recur₂ : (Nat → PatExt) → Nat → MState → Int × MState)
    (rd : RecData) (exts : Nat → PatExt) (len' : Nat) (hc : Bool)
    (h : hc = true → ∀ c zc st', recur₁ c zc st' = recur₂ c zc st') :
    ∀ acc i, itemStep recur₁ rd exts len' hc acc i
      = itemStep recur₂ rd exts len' hc acc i := by
  intro acc i
  cases acc with
  | inr r => rfl
  | inl t =>
    obtain ⟨s, mx, st⟩ := t
    have hext : ∀ (s₀ mx₀ : Int) (st₀ : MState),
        extendPhase recur₁ rd (exts i) hc s₀ mx₀ st₀
          = extendPhase recur₂ rd (exts i) hc s₀ mx₀ st₀ := by
      intro s₀ mx₀ st₀
      cases hc with
      | false => rfl
      | true => simp only [extendPhase, h rfl]
    simp only [itemStep, hext]

/-- Weighted analogue of `itemStep_congr`. -/
lemma witemStep_congr (recur₁ recur₂ : (Nat → WPatExt) → Nat → WMState → Int × WMState)
    (rd : RecData) (exts : Nat → WPatExt) (len' : Nat) (hc : Bool)
    (h : hc = true → ∀ c zc st', recur₁ c zc st' = recur₂ c zc st') :
    ∀ acc i, witemStep recur₁ rd exts len' hc acc i
      = witemStep recur₂ rd exts len' hc acc i := by
  intro acc i
  cases acc with
  | inr r => rfl
  | inl t =>
    obtain ⟨s, mx, st⟩ := t
    have hext : ∀ (s₀ mx₀ : Int) (st₀ : WMState),
        wextendPhase recur₁ rd (exts i) len' hc s₀ mx₀ st₀
          = wextendPhase recur₂ rd (exts i) len' hc s₀ mx₀ st₀ := by
      intro s₀ mx₀ st₀
      cases hc with
      | false => rfl
      | true => simp only [wextendPhase, h rfl]
    simp only [witemStep, hext]

/-- Any fuel of at least `zmax + 1 - len` gives the same result for `recurse`:
the recursion depth is bounded by `zmax`. -/
lemma recurse_fuel :
    ∀ (f g len : Nat) (rd : RecData), len ≤ rd.zmax →
      rd.zmax + 1 - len ≤ f → rd.zmax + 1 - len ≤ g →
      ∀ (exts : Nat → PatExt) (z : Nat) (st : MState),
        recurse f exts z len rd st = recurse g exts z len rd st := by
  intro f
  induction f with
  | zero => intro g len rd hlen hf; omega
  | succ f ih =>
    intro g len rd hlen hf hg
    cases g with
    | zero => omega
    | succ g =>
      intro exts z st
      simp only [recurse]
      have hfold : List.foldl
          (itemStep (fun c zc st' => recurse f c zc (len + 1) rd st')
            rd exts (len + 1) (decide (len + 1 ≤ rd.zmax)))
          (Sum.inl (0, 0, st)) (List.range rd.cnt)
        = List.foldl
          (itemStep (fun c zc st' => recurse g c zc (len + 1) rd st')
            rd exts (len + 1) (decide (len + 1 ≤ rd.zmax)))
          (Sum.inl (0, 0, st)) (List.range rd.cnt) := by
        apply List.foldl_ext
        intro acc i hi
        refine itemStep_congr _ _ rd exts (len + 1) _ ?_ acc i
        intro hct c zc st'
        have hlt : len + 1 ≤ rd.zmax := of_decide_eq_true hct
        exact ih g (len + 1) rd hlt (by omega) (by omega) c zc st'
      rw [hfold]

/-- Any fuel of at least `zmax + 1 - len` gives the same result for `rec_iw`. -/
lemma recIw_fuel :
    ∀ (f g len : Nat) (rd : RecData), len ≤ rd.zmax →
      rd.zmax + 1 - len ≤ f → rd.zmax + 1 - len ≤ g →
      ∀ (exts : Nat → WPatExt) (z : Nat) (st : WMState),
        recIw f exts z len rd st = recIw g exts z len rd st := by
  intro f
  induction f with
  | zero => intro g len rd hlen hf; omega
  | succ f ih =>
    intro g len rd hlen hf hg
    cases g with
    | zero => omega
    | succ g =>
      intro exts z st
      simp only [recIw]
      have hfold : List.foldl
          (witemStep (fun c zc st' => recIw f c zc (len + 1) rd st')
            rd exts (len + 1) (decide (len + 1 ≤ rd.zmax)))
          (Sum.inl (0, 0, st)) (List.range rd.cnt)
        = List.foldl
          (witemStep (fun c zc st' => recIw g c zc (len + 1) rd st')
            rd exts (len + 1) (decide (len + 1 ≤ rd.zmax)))
          (Sum.inl (0, 0, st)) (List.range rd.cnt) := by
        apply List.foldl_ext
        intro acc i hi
        refine witemStep_congr _ _ rd exts (len + 1) _ ?_ acc i
        intro hct c zc st'
        have hlt : len + 1 ≤ rd.zmax := of_decide_eq_true hct
        exact ih g (len + 1) rd hlt (by omega) (by omega) c zc st'
      rw [hfold]

/-- C10: `recurse` and `rec_iw` terminate on every input: a recursive call is made
only under `len + 1 ≤ zmax`, so the recursion depth never exceeds `zmax`; formally,
any two fuels of at least `zmax + 1 - len` (the bound the drivers use) give
identical results, so the fuelled definitions are fuel-independent in the reachable
range. -/
theorem c10_fuel_sufficiency (f g len : Nat) (rd : RecData)
    (hlen : len ≤ rd.zmax) (hf : rd.zmax + 1 - len ≤ f) (hg : rd.zmax + 1 - len ≤ g) :
    (∀ (exts : Nat → PatExt) (z : Nat) (st : MState),
      recurse f exts z len rd st = recurse g exts z len rd st)
    ∧ (∀ (exts : Nat → WPatExt) (z : Nat) (st : WMState),
      recIw f exts z len rd st = recIw g exts z len rd st) :=
  ⟨recurse_fuel f g len rd hlen hf hg, recIw_fuel f g len rd hlen hf hg⟩

/-- Witness for C10 at concrete fuels 2 and 5 (`zmax = 1`, `len = 0`): the results
agree. -/
theorem c10_fuel_sufficiency_witness :
    recurse 2 (rootExts bagC7) 1 0 rdC3 (initState bagC7 junkIps)
      = recurse 5 (rootExts bagC7) 1 0 rdC3 (initState bagC7 junkIps) :=
  (c10_fuel_sufficiency 2 5 0 rdC3 (by decide) (by decide) (by decide)).1
    (rootExts bagC7) 1 (initState bagC7 junkIps)

/-! ## Claim C5: characterisation of the closedness test -/

/-- Counting behaviour of one gap scan over a duplicate-free gap: each counter of a
gap item goes up by one, and the survivor count `k` counts the gap items whose
counter had already reached the occurrence number `i`. -/
lemma gapStep_fold_spec (i : Nat) :
    ∀ (L : List Nat) (f : Nat → Nat) (b : List Nat) (k : Nat), L.Nodup →
      (∀ s, (L.foldl (gapStep i) (f, b, k)).1 s = f s + (if s ∈ L then 1 else 0))
      ∧ (L.foldl (gapStep i) (f, b, k)).2.2
          = k + L.countP (fun s => decide (i ≤ f s)) := by
  intro L
  induction L with
  | nil =>
    intro f b k _
    exact ⟨fun s => by simp, by simp⟩
  | cons a L ih =>
    intro f b k hnd
    have ha : a ∉ L := (List.nodup_cons.mp hnd).1
    have hL : L.Nodup := (List.nodup_cons.mp hnd).2
    simp only [List.foldl_cons]
    have hstep : L.foldl (gapStep i) (gapStep i (f, b, k) a)
        = L.foldl (gapStep i) ((gapStep i (f, b, k) a).1,
            (gapStep i (f, b, k) a).2.1, (gapStep i (f, b, k) a).2.2) := rfl
    have ihh := ih (gapStep i (f, b, k) a).1 (gapStep i (f, b, k) a).2.1
        (gapStep i (f, b, k) a).2.2 hL
    rw [hstep]
    constructor
    · intro s
      rw [ihh.1 s]
      by_cases hsa : s = a
      · subst hsa
        have h1 : (gapStep i (f, b, k) s).1 s = f s + 1 := by
          simp [gapStep]
        rw [h1, if_neg ha, if_pos (List.mem_cons_self s L)]
      · have h1 : (gapStep i (f, b, k) a).1 s = f s := by
          simp [gapStep, Function.update_noteq hsa]
        rw [h1]
        by_cases hsL : s ∈ L
        · rw [if_pos hsL, if_pos (List.mem_cons_of_mem a hsL)]
        · rw [if_neg hsL, if_neg (by
            intro h
            exact hsL ((List.mem_cons.mp h).resolve_left hsa))]
    · rw [ihh.2]
      have hcnt : L.countP (fun s => decide (i ≤ (gapStep i (f, b, k) a).1 s))
          = L.countP (fun s => decide (i ≤ f s)) := by
        apply List.countP_congr
        intro s hs
        have hne : s ≠ a := fun h => ha (h ▸ hs)
        simp [gapStep, Function.update_noteq hne]
      rw [hcnt, List.countP_cons]
      have hk2 : (gapStep i (f, b, k) a).2.2 = if i < f a + 1 then k + 1 else k := rfl
      rw [hk2]
      by_cases hlt : i ≤ f a
      · rw [if_pos (Nat.lt_succ_of_le hlt)]
        simp [hlt]
        omega
      · rw [if_neg (by omega)]
        simp [hlt]

/-- Correctness of the occurrence loop of the gap scan: assuming the counters
record, for each item, in how many of the already-scanned gaps (`done`) it occurs,
the final survivor count is positive iff some item occurs in every gap (scanned and
remaining); early exit is sound because an item missing from one gap cannot be
common to all. -/
lemma scanOccs_spec :
    ∀ (rem done : List (List Nat)) (f : Nat → Nat) (b : List Nat),
      rem ≠ [] → (∀ L ∈ rem, L.Nodup) →
      (∀ s, f s = done.countP (fun M => decide (s ∈ M))) →
      (0 < (scanOccs done.length rem f b).2.2 ↔
        ∃ it, (∀ M ∈ done, it ∈ M) ∧ (∀ L ∈ rem, it ∈ L)) := by
  intro rem
  induction rem with
  | nil => intro done f b h; exact absurd rfl h
  | cons L rest ih =>
    intro done f b _ hnd hf
    have hLnd : L.Nodup := hnd L (List.mem_cons_self _ _)
    have hfeq : ∀ s, (done.length ≤ f s ↔ ∀ M ∈ done, s ∈ M) := by
      intro s
      rw [hf s]
      constructor
      · intro h M hM
        have hlen : done.countP (fun M => decide (s ∈ M)) = done.length :=
          le_antisymm (List.countP_le_length _) h
        exact of_decide_eq_true (List.countP_eq_length.mp hlen M hM)
      · intro h
        rw [List.countP_eq_length.mpr (fun M hM => decide_eq_true (h M hM))]
    have hkpos : (0 < (scanGap done.length L f b).2.2 ↔
        ∃ it, (∀ M ∈ done, it ∈ M) ∧ it ∈ L) := by
      rw [show scanGap done.length L f b = L.foldl (gapStep done.length) (f, b, 0)
            from rfl,
          (gapStep_fold_spec done.length L f b 0 hLnd).2]
      simp only [Nat.zero_add]
      rw [List.countP_pos_iff]
      constructor
      · rintro ⟨it, hitL, hdec⟩
        exact ⟨it, (hfeq it).mp (of_decide_eq_true hdec), hitL⟩
      · rintro ⟨it, hdone, hitL⟩
        exact ⟨it, hitL, decide_eq_true ((hfeq it).mpr hdone)⟩
    cases rest with
    | nil =>
      show 0 < (scanGap done.length L f b).2.2 ↔ _
      rw [hkpos]
      constructor
      · rintro ⟨it, hdone, hitL⟩
        refine ⟨it, hdone, ?_⟩
        intro M hM
        obtain rfl := List.mem_singleton.mp hM
        exact hitL
      · rintro ⟨it, hdone, hrem⟩
        exact ⟨it, hdone, hrem L (List.mem_cons_self _ _)⟩
    | cons L' rest' =>
      simp only [scanOccs]
      by_cases hk0 : (scanGap done.length L f b).2.2 = 0
      · rw [if_pos hk0, hk0]
        constructor
        · intro h
          exact absurd h (lt_irrefl 0)
        · rintro ⟨it, hdone, hrem⟩
          have : 0 < (scanGap done.length L f b).2.2 :=
            hkpos.mpr ⟨it, hdone, hrem L (List.mem_cons_self _ _)⟩
          omega
      · rw [if_neg hk0]
        have hf' : ∀ s, (scanGap done.length L f b).1 s
            = (done ++ [L]).countP (fun M => decide (s ∈ M)) := by
          intro s
          have h1 := (gapStep_fold_spec done.length L f b 0 hLnd).1 s
          rw [show scanGap done.length L f b = L.foldl (gapStep done.length) (f, b, 0)
                from rfl, h1, List.countP_append, hf s]
          simp [List.countP_cons]
        have ihh := ih (done ++ [L]) (scanGap done.length L f b).1
            (scanGap done.length L f b).2.1 (by simp)
            (fun M hM => hnd M (List.mem_cons_of_mem _ hM)) hf'
        rw [List.length_append, List.length_singleton] at ihh
        rw [ihh]
        constructor
        · rintro ⟨it, hdone', hrem'⟩
          refine ⟨it, fun M hM => hdone' M (List.mem_append_left _ hM), ?_⟩
          intro M hM
          rcases List.mem_cons.mp hM with rfl | hM'
          · exact hdone' M (List.mem_append_right _ (List.mem_singleton.mpr rfl))
          · exact hrem' M hM'
        · rintro ⟨it, hdone, hrem⟩
          refine ⟨it, ?_, fun M hM => hrem M (List.mem_cons_of_mem _ hM)⟩
          intro M hM
          rcases List.mem_append.mp hM with h | h
          · exact hdone M h
          · obtain rfl := List.mem_singleton.mp h
            exact hrem M (List.mem_cons_self _ _)

/-- Correctness of the gap loop: starting from all-zero counters, it returns `0`
iff some gap in the list has an item common to all its per-occurrence contents,
and `-1` otherwise. -/
lemma gapLoop_spec (gls : Nat → List (List Nat)) :
    ∀ (gs : List Nat) (f : Nat → Nat), (∀ s, f s = 0) →
      (∀ g ∈ gs, gls g ≠ [] ∧ ∀ L ∈ gls g, L.Nodup) →
      (((gapLoop gls gs f).1 = 0 ↔ ∃ g ∈ gs, ∃ it, ∀ L ∈ gls g, it ∈ L)
       ∧ ((gapLoop gls gs f).1 = 0 ∨ (gapLoop gls gs f).1 = -1)) := by
  intro gs
  induction gs with
  | nil =>
    intro f hf _
    refine ⟨?_, Or.inr rfl⟩
    constructor
    · intro h
      rw [show (gapLoop gls [] f).1 = -1 from rfl] at h
      exact absurd h (by decide)
    · rintro ⟨g, hg, _⟩
      exact absurd hg (List.not_mem_nil g)
  | cons g gs ih =>
    intro f hf hgl
    have hg := hgl g (List.mem_cons_self _ _)
    have hspec := scanOccs_spec (gls g) [] f [] hg.1 hg.2
        (by intro s; simpa using hf s)
    simp only [List.length_nil, List.not_mem_nil, false_implies, implies_true,
      true_and] at hspec
    have htouch := scanOccs_touch (gls g) 0 f [] (fun s hs => absurd (hf s) hs)
    have hclear := clearBuf_zero _ _ htouch
    simp only [gapLoop]
    by_cases hkpos : 0 < (scanOccs 0 (gls g) f []).2.2
    · rw [if_pos hkpos]
      refine ⟨⟨fun _ => ⟨g, List.mem_cons_self _ _, hspec.mp hkpos⟩, fun _ => rfl⟩,
        Or.inl rfl⟩
    · rw [if_neg hkpos]
      have ihh := ih _ hclear (fun g' hg' => hgl g' (List.mem_cons_of_mem _ hg'))
      refine ⟨?_, ihh.2⟩
      rw [ihh.1]
      constructor
      · rintro ⟨g', hg', hit⟩
        exact ⟨g', List.mem_cons_of_mem _ hg', hit⟩
      · rintro ⟨g', hg', it, hit⟩
        rcases List.mem_cons.mp hg' with rfl | hg''
        · exact absurd (hspec.mpr ⟨it, hit⟩) hkpos
        · exact ⟨g', hg'', it, hit⟩

/-- A gap is a duplicate-free list whenever the transaction's items are. -/
lemma gapOf_nodup (o : PatOcc) (g : Nat) (h : o.items.Nodup) : (gapOf o g).Nodup := by
  unfold gapOf
  exact ((List.drop_sublist _ _).trans (List.take_sublist _ _)).nodup h

/-- A weighted gap's item ids are duplicate-free whenever the transaction's are. -/
lemma wgapOf_nodup (o : WPatOcc) (g : Nat) (h : (idsOf o.items).Nodup) :
    (wgapOf o g).Nodup := by
  unfold wgapOf idsOf
  exact (List.Sublist.map WItem.item
    ((List.drop_sublist _ _).trans (List.take_sublist _ _))).nodup h

/-- C5 (helper): characterisation of `closed`. -/
lemma closedFn_spec (ext : PatExt) (n : Nat) (rd : RecData) (st : MState)
    (hne : ext.oxs ≠ []) (hz : ∀ j, st.frqs j = 0)
    (hnodup : ∀ x ∈ ext.oxs,
      (occAt (writeAnchors st.occs ext.oxs (n - 1)) x.occ).items.Nodup) :
    ((closedFn ext n rd st).1 = 0 ↔
      NotClosedSpec (writeAnchors st.occs ext.oxs (n - 1)) ext.oxs n)
    ∧ ((closedFn ext n rd st).1 = 0 ∨ (closedFn ext n rd st).1 = -1) := by
  have hgl : ∀ g ∈ (List.range n).reverse,
      (ext.oxs.map
        (fun x => gapOf (occAt (writeAnchors st.occs ext.oxs (n - 1)) x.occ) g)) ≠ []
      ∧ ∀ L ∈ ext.oxs.map
          (fun x => gapOf (occAt (writeAnchors st.occs ext.oxs (n - 1)) x.occ) g),
          L.Nodup := by
    intro g hg
    constructor
    · simpa using hne
    · intro L hL
      rcases List.mem_map.mp hL with ⟨x, hx, rfl⟩
      exact gapOf_nodup _ _ (hnodup x hx)
  have h := gapLoop_spec
      (fun g => ext.oxs.map
        (fun x => gapOf (occAt (writeAnchors st.occs ext.oxs (n - 1)) x.occ) g))
      (List.range n).reverse st.frqs hz hgl
  have hres : (closedFn ext n rd st).1
      = (gapLoop
          (fun g => ext.oxs.map
            (fun x => gapOf (occAt (writeAnchors st.occs ext.oxs (n - 1)) x.occ) g))
          (List.range n).reverse st.frqs).1 := rfl
  refine ⟨?_, by rw [hres]; exact h.2⟩
  rw [hres, h.1]
  unfold NotClosedSpec
  constructor
  · rintro ⟨g, hg, it, hit⟩
    refine ⟨g, by simpa using hg, it, ?_⟩
    intro x hx
    exact hit _ (List.mem_map_of_mem _ hx)
  · rintro ⟨g, hg, it, hit⟩
    refine ⟨g, by simpa using hg, it, ?_⟩
    intro L hL
    rcases List.mem_map.mp hL with ⟨x, hx, rfl⟩
    exact hit x hx

/-- C5 (helper): characterisation of `closed_iw`. -/
lemma closediwFn_spec (ext : WPatExt) (n : Nat) (rd : RecData) (st : WMState)
    (hne : ext.oxs ≠ []) (hz : ∀ j, st.frqs j = 0)
    (hnodup : ∀ x ∈ ext.oxs, (idsOf (woccAt st.occs x.occ).items).Nodup) :
    ((closediwFn ext n rd st).1 = 0 ↔ WNotClosedSpec st.occs ext.oxs n)
    ∧ ((closediwFn ext n rd st).1 = 0 ∨ (closediwFn ext n rd st).1 = -1) := by
  have hgl : ∀ g ∈ (List.range n).reverse,
      (ext.oxs.map (fun x => wgapOf (woccAt st.occs x.occ) g)) ≠ []
      ∧ ∀ L ∈ ext.oxs.map (fun x => wgapOf (woccAt st.occs x.occ) g), L.Nodup := by
    intro g hg
    constructor
    · simpa using hne
    · intro L hL
      rcases List.mem_map.mp hL with ⟨x, hx, rfl⟩
      exact wgapOf_nodup _ _ (hnodup x hx)
  have h := gapLoop_spec
      (fun g => ext.oxs.map (fun x => wgapOf (woccAt st.occs x.occ) g))
      (List.range n).reverse st.frqs hz hgl
  have hres : (closediwFn ext n rd st).1
      = (gapLoop (fun g => ext.oxs.map (fun x => wgapOf (woccAt st.occs x.occ) g))
          (List.range n).reverse st.frqs).1 := rfl
  refine ⟨?_, by rw [hres]; exact h.2⟩
  rw [hres, h.1]
  unfold WNotClosedSpec
  constructor
  · rintro ⟨g, hg, it, hit⟩
    refine ⟨g, by simpa using hg, it, ?_⟩
    intro x hx
    exact hit _ (List.mem_map_of_mem _ hx)
  · rintro ⟨g, hg, it, hit⟩
    refine ⟨g, by simpa using hg, it, ?_⟩
    intro L hL
    rcases List.mem_map.mp hL with ⟨x, hx, rfl⟩
    exact hit x hx

/-- C5: for an extension with at least one occurrence and pattern length `n > 0`
(over duplicate-free transactions, with the shared counters all zero as the
invariant guarantees), `closed` — and likewise `closed_iw` — returns `0` (not
closed) iff some gap index `g < n` admits an item occurring in gap `g` of every
one of the occurrences, where gap `0` is the transaction prefix before `ips[0]`
and gap `j` the items strictly between `ips[j-1]` and `ips[j]` (for `closed`,
after its own anchor writes); otherwise it returns `-1` (closed). -/
theorem c5_closed_iff :
    (∀ (ext : PatExt) (n : Nat) (rd : RecData) (st : MState),
      ext.oxs ≠ [] → 0 < n → (∀ j, st.frqs j = 0) →
      (∀ x ∈ ext.oxs,
        (occAt (writeAnchors st.occs ext.oxs (n - 1)) x.occ).items.Nodup) →
      (((closedFn ext n rd st).1 = 0 ↔
          NotClosedSpec (writeAnchors st.occs ext.oxs (n - 1)) ext.oxs n)
        ∧ ((closedFn ext n rd st).1 = 0 ∨ (closedFn ext n rd st).1 = -1)))
    ∧ (∀ (ext : WPatExt) (n : Nat) (rd : RecData) (st : WMState),
      ext.oxs ≠ [] → 0 < n → (∀ j, st.frqs j = 0) →
      (∀ x ∈ ext.oxs, (idsOf (woccAt st.occs x.occ).items).Nodup) →
      (((closediwFn ext n rd st).1 = 0 ↔ WNotClosedSpec st.occs ext.oxs n)
        ∧ ((closediwFn ext n rd st).1 = 0 ∨ (closediwFn ext n rd st).1 = -1))) :=
  ⟨fun ext n rd st hne _ hz hnodup => closedFn_spec ext n rd st hne hz hnodup,
   fun ext n rd st hne _ hz hnodup => closediwFn_spec ext n rd st hne hz hnodup⟩

/-- Witness for C5: the root extension of item `b` over the scenario-2 bag
(occurrences in transactions 0 and 2, `n = 1`). -/
theorem c5_closed_iff_witness :
    ((closedFn ⟨2, [⟨1, 0⟩, ⟨1, 2⟩]⟩ 1 rdC3 (initState bagS2 junkIps)).1 = 0 ↔
      NotClosedSpec
        (writeAnchors (initState bagS2 junkIps).occs [⟨1, 0⟩, ⟨1, 2⟩] 0)
        [⟨1, 0⟩, ⟨1, 2⟩] 1)
    ∧ ((closedFn ⟨2, [⟨1, 0⟩, ⟨1, 2⟩]⟩ 1 rdC3 (initState bagS2 junkIps)).1 = 0
      ∨ (closedFn ⟨2, [⟨1, 0⟩, ⟨1, 2⟩]⟩ 1 rdC3 (initState bagS2 junkIps)).1 = -1) :=
  c5_closed_iff.1 ⟨2, [⟨1, 0⟩, ⟨1, 2⟩]⟩ 1 rdC3 (initState bagS2 junkIps)
    (by decide) (by decide) (fun _ => rfl) (by decide)

/-! ## Subsequences of duplicate-free lists -/

/-- Forward half of the position characterisation: a sublist of a duplicate-free
list has strictly increasing item positions. -/
lemma sublist_pairwise_indexOf :
    ∀ {Q L : List Nat}, L.Nodup → Q.Sublist L →
      (Q.map (fun a => L.indexOf a)).Pairwise (· < ·) := by
  intro Q L hnd h
  induction h with
  | slnil => simp
  | @cons Q L₂ b h ih =>
    have hb : b ∉ L₂ := (List.nodup_cons.mp hnd).1
    have hnd₂ : L₂.Nodup := (List.nodup_cons.mp hnd).2
    have hmap : Q.map (fun a => (b :: L₂).indexOf a)
        = Q.map (fun a => L₂.indexOf a + 1) := by
      apply List.map_congr_left
      intro a ha
      have haL : a ∈ L₂ := h.subset ha
      exact List.indexOf_cons_ne _ (fun hba => hb (by rw [hba]; exact haL))
    rw [hmap]
    have := (ih hnd₂)
    have hmap2 : Q.map (fun a => L₂.indexOf a + 1)
        = (Q.map (fun a => L₂.indexOf a)).map (· + 1) := by
      rw [List.map_map]
      rfl
    rw [hmap2]
    exact this.map _ (fun a b hab => by omega)
  | @cons₂ Q L₂ b h ih =>
    have hb : b ∉ L₂ := (List.nodup_cons.mp hnd).1
    have hnd₂ : L₂.Nodup := (List.nodup_cons.mp hnd).2
    simp only [List.map_cons]
    rw [List.pairwise_cons]
    constructor
    · intro y hy
      rcases List.mem_map.mp hy with ⟨a, ha, rfl⟩
      have haL : a ∈ L₂ := h.subset ha
      rw [List.indexOf_cons_self, List.indexOf_cons_ne _ (fun hba => hb (by rw [hba]; exact haL))]
      omega
    · have hmap : Q.map (fun a => (b :: L₂).indexOf a)
          = (Q.map (fun a => L₂.indexOf a)).map (· + 1) := by
        rw [List.map_map]
        apply List.map_congr_left
        intro a ha
        have haL : a ∈ L₂ := h.subset ha
        exact List.indexOf_cons_ne _ (fun hba => hb (by rw [hba]; exact haL))
      rw [hmap]
      exact (ih hnd₂).map _ (fun a b hab => by omega)

/-- Backward half: membership plus strictly increasing positions give a sublist. -/
lemma sublist_of_mem_pairwise :
    ∀ (L : List Nat), L.Nodup → ∀ (Q : List Nat), (∀ a ∈ Q, a ∈ L) →
      (Q.map (fun a => L.indexOf a)).Pairwise (· < ·) → Q.Sublist L := by
  intro L
  induction L with
  | nil =>
    intro _ Q hmem _
    cases Q with
    | nil => exact List.nil_sublist _
    | cons a Q' => exact absurd (hmem a (List.mem_cons_self _ _)) (List.not_mem_nil a)
  | cons b L ih =>
    intro hnd Q hmem hpw
    have hb : b ∉ L := (List.nodup_cons.mp hnd).1
    have hndL : L.Nodup := (List.nodup_cons.mp hnd).2
    cases Q with
    | nil => exact List.nil_sublist _
    | cons a Q' =>
      have hpwc := hpw
      rw [List.map_cons, List.pairwise_cons] at hpwc
      by_cases hab : a = b
      · subst hab
        have hq' : ∀ q ∈ Q', q ∈ L ∧ q ≠ a := by
          intro q hq
          have h0 : (a :: L).indexOf a < (a :: L).indexOf q :=
            hpwc.1 _ (List.mem_map_of_mem _ hq)
          rw [List.indexOf_cons_self] at h0
          have hqa : q ≠ a := by
            intro hqa
            rw [hqa, List.indexOf_cons_self] at h0
            omega
          exact ⟨(List.mem_cons.mp (hmem q (List.mem_cons_of_mem _ hq))).resolve_left hqa,
            hqa⟩
        have hmap : Q'.map (fun q => (a :: L).indexOf q)
            = (Q'.map (fun q => L.indexOf q)).map (· + 1) := by
          rw [List.map_map]
          apply List.map_congr_left
          intro q hq
          exact List.indexOf_cons_ne _ (Ne.symm (hq' q hq).2)
        have hpw' : (Q'.map (fun q => L.indexOf q)).Pairwise (· < ·) := by
          have h2 := hpwc.2
          rw [hmap] at h2
          exact (List.pairwise_map.mp h2).imp (fun h => by omega)
        exact (ih hndL Q' (fun q hq => (hq' q hq).1) hpw').cons₂ a
      · have haL : a ∈ L :=
          (List.mem_cons.mp (hmem a (List.mem_cons_self _ _))).resolve_left hab
        have hidxa : (b :: L).indexOf a = L.indexOf a + 1 :=
          List.indexOf_cons_ne _ (fun h => hab h.symm)
        have hq' : ∀ q ∈ Q', q ∈ L ∧ q ≠ b := by
          intro q hq
          have h0 : (b :: L).indexOf a < (b :: L).indexOf q :=
            hpwc.1 _ (List.mem_map_of_mem _ hq)
          have hqb : q ≠ b := by
            intro hqb
            rw [hqb, List.indexOf_cons_self] at h0
            omega
          exact ⟨(List.mem_cons.mp (hmem q (List.mem_cons_of_mem _ hq))).resolve_left hqb,
            hqb⟩
        have hmemall : ∀ q ∈ (a :: Q'), q ∈ L := by
          intro q hq
          rcases List.mem_cons.mp hq with rfl | hq2
          · exact haL
          · exact (hq' q hq2).1
        have hmap : (a :: Q').map (fun q => (b :: L).indexOf q)
            = ((a :: Q').map (fun q => L.indexOf q)).map (· + 1) := by
          rw [List.map_map]
          apply List.map_congr_left
          intro q hq
          rcases List.mem_cons.mp hq with rfl | hq2
          · exact hidxa
          · exact List.indexOf_cons_ne _ (Ne.symm (hq' q hq2).2)
        have hpw' : ((a :: Q').map (fun q => L.indexOf q)).Pairwise (· < ·) := by
          have h2 := hpw
          rw [hmap] at h2
          exact (List.pairwise_map.mp h2).imp (fun h => by omega)
        exact (ih hndL (a :: Q') hmemall hpw').cons b

/-- A list is a sublist of a duplicate-free list iff its members occur there with
strictly increasing positions. -/
lemma sublist_iff_mem_pairwise (L : List Nat) (hnd : L.Nodup) (Q : List Nat) :
    Q.Sublist L ↔
      (∀ a ∈ Q, a ∈ L) ∧ (Q.map (fun a => L.indexOf a)).Pairwise (· < ·) :=
  ⟨fun h => ⟨fun a ha => h.subset ha, sublist_pairwise_indexOf hnd h⟩,
   fun h => sublist_of_mem_pairwise L hnd Q h.1 h.2⟩

/-- In a duplicate-free list, a position holds item `t` iff it is `t`'s
(unique) index. -/
lemma getD_eq_iff_indexOf (L : List Nat) (hnd : L.Nodup) (p : Nat)
    (hp : p < L.length) (t : Nat) :
    L.getD p 0 = t ↔ t ∈ L ∧ p = L.indexOf t := by
  rw [List.getD_eq_getElem L 0 hp]
  constructor
  · intro h
    subst h
    exact ⟨List.getElem_mem hp, (List.indexOf_getElem hnd p hp).symm⟩
  · rintro ⟨htL, rfl⟩
    exact List.getElem_indexOf (List.indexOf_lt_length.mpr htL)

/-- Extending an embedded pattern by one more item: over a duplicate-free host, a
one-item extension embeds iff the new item occurs after the anchor of the last
pattern item. -/
lemma sublist_snoc_iff (L : List Nat) (hnd : L.Nodup) (Q : List Nat) (i t : Nat)
    (hsub : (Q ++ [i]).Sublist L) :
    (Q ++ [i] ++ [t]).Sublist L ↔ t ∈ L ∧ L.indexOf i < L.indexOf t := by
  have hQ := (sublist_iff_mem_pairwise L hnd _).mp hsub
  constructor
  · intro h
    have h' := (sublist_iff_mem_pairwise L hnd _).mp h
    refine ⟨h'.1 t (by simp), ?_⟩
    have hpw := h'.2
    rw [List.map_append, List.pairwise_append] at hpw
    refine hpw.2.2 _ ?_ _ (by simp)
    rw [List.map_append]
    exact List.mem_append_right _ (by simp)
  · rintro ⟨htL, hlt⟩
    apply (sublist_iff_mem_pairwise L hnd _).mpr
    constructor
    · intro a ha
      rcases List.mem_append.mp ha with ha' | ha'
      · exact hQ.1 a ha'
      · obtain rfl := List.mem_singleton.mp ha'
        exact htL
    · rw [List.map_append, List.pairwise_append]
      refine ⟨hQ.2, by simp, ?_⟩
      intro x hx y hy
      obtain rfl : y = L.indexOf t := by simpa using hy
      rcases List.mem_map.mp hx with ⟨a, ha, rfl⟩
      rcases List.mem_append.mp ha with haQ | hai
      · have hp := hQ.2
        rw [List.map_append, List.pairwise_append] at hp
        have := hp.2.2 _ (List.mem_map_of_mem _ haQ) (L.indexOf i) (by simp)
        omega
      · obtain rfl := List.mem_singleton.mp hai
        exact hlt

/-! ## Support lemmas -/

/-- Unfolding `support` over a cons. -/
lemma support_cons (tr : Trans) (bag : List Trans) (p : List Nat) :
    support (tr :: bag) p
      = (if p.Sublist tr.items then tr.wgt else 0) + support bag p := by
  simp only [support, List.filter_cons]
  split
  · rename_i h
    rw [if_pos (of_decide_eq_true h)]
    simp
  · rename_i h
    rw [if_neg (fun hp => h (decide_eq_true hp))]
    simp

/-- Support is antitone in the pattern (for nonnegative weights). -/
lemma support_mono (bag : List Trans) (hw : ∀ t ∈ bag, 0 ≤ t.wgt) :
    ∀ {Q R : List Nat}, Q.Sublist R → support bag R ≤ support bag Q := by
  induction bag with
  | nil => intro Q R h; simp [support]
  | cons tr bag ih =>
    intro Q R h
    rw [support_cons, support_cons]
    have ihh := ih (fun t ht => hw t (List.mem_cons_of_mem _ ht)) h
    have hwtr := hw tr (List.mem_cons_self _ _)
    by_cases hR : R.Sublist tr.items
    · rw [if_pos hR, if_pos (h.trans hR)]
      omega
    · rw [if_neg hR]
      split
      · omega
      · omega

/-- The empty pattern's support is the total weight. -/
lemma support_nil_eq (bag : List Trans) : support bag [] = totalWgt bag := by
  unfold support totalWgt
  rw [List.filter_eq_self.mpr (fun t _ => decide_eq_true (List.nil_sublist _))]

/-- A pattern embedded in no transaction has support `0`. -/
lemma support_zero_of_no_embed (bag : List Trans) (p : List Nat)
    (h : ∀ t ∈ bag, ¬ p.Sublist t.items) : support bag p = 0 := by
  unfold support
  rw [List.filter_eq_nil_iff.mpr (fun t ht => by simpa using h t ht)]
  rfl

/-- Positive support exhibits an embedding transaction. -/
lemma exists_embed_of_support_pos (bag : List Trans) (p : List Nat)
    (h : 0 < support bag p) : ∃ t ∈ bag, p.Sublist t.items := by
  by_contra hc
  push_neg at hc
  rw [support_zero_of_no_embed bag p hc] at h
  exact absurd h (lt_irrefl 0)

/-! ## Canonical shape of the root and conditional extensions -/

/-- Membership in a position range `[a, L)`. -/
lemma mem_range'_sub (a L p : Nat) : p ∈ List.range' a (L - a) ↔ a ≤ p ∧ p < L := by
  rw [List.mem_range']
  constructor
  · rintro ⟨i, hi, rfl⟩
    omega
  · intro h
    exact ⟨p - a, by omega, by omega⟩

/-- Effect of one transaction's position walk on one item slot (root
construction). -/
lemma posStep_fold (j : Nat) (tr : Trans) :
    ∀ (ps : List Nat) (ex : Nat → PatExt) (t : Nat),
      ((ps.foldl (posStep j tr) ex) t).supp
        = (ex t).supp
          + tr.wgt * ((ps.filter (fun p => decide (tr.items.getD p 0 = t))).length : Int)
      ∧ ((ps.foldl (posStep j tr) ex) t).oxs
        = (ex t).oxs
          ++ (ps.filter (fun p => decide (tr.items.getD p 0 = t))).map
              (fun p => (⟨p, j⟩ : OccExt)) := by
  intro ps
  induction ps with
  | nil => intro ex t; simp
  | cons p ps ih =>
    intro ex t
    simp only [List.foldl_cons, List.filter_cons]
    by_cases ht : tr.items.getD p 0 = t
    · rw [if_pos (decide_eq_true ht)]
      have hstep : (posStep j tr ex p) t
          = ⟨(ex t).supp + tr.wgt, (ex t).oxs ++ [⟨p, j⟩]⟩ := by
        simp only [posStep]
        rw [ht, Function.update_same]
      rcases ih (posStep j tr ex p) t with ⟨h1, h2⟩
      rw [h1, h2, hstep]
      constructor
      · simp only [List.length_cons]
        push_cast
        ring
      · simp
    · rw [if_neg (fun hd => ht (of_decide_eq_true hd))]
      have hstep : (posStep j tr ex p) t = ex t := by
        simp only [posStep]
        rw [Function.update_noteq (fun h => ht h.symm)]
      rcases ih (posStep j tr ex p) t with ⟨h1, h2⟩
      rw [h1, h2, hstep]
      exact ⟨rfl, rfl⟩

/-- Effect of one occurrence's tail walk on one item slot (projection loop). -/
lemma tailStep_fold (o : PatOcc) (j : Nat) :
    ∀ (ps : List Nat) (cz : (Nat → PatExt) × Nat) (t : Nat),
      ((ps.foldl (tailStep o j) cz).1 t).supp
        = (cz.1 t).supp
          + o.wgt * ((ps.filter (fun p => decide (o.items.getD p 0 = t))).length : Int)
      ∧ ((ps.foldl (tailStep o j) cz).1 t).oxs
        = (cz.1 t).oxs
          ++ (ps.filter (fun p => decide (o.items.getD p 0 = t))).map
              (fun p => (⟨p, j⟩ : OccExt))
      ∧ (ps.foldl (tailStep o j) cz).2 = cz.2 + ps.length := by
  intro ps
  induction ps with
  | nil => intro cz t; simp
  | cons p ps ih =>
    intro cz t
    simp only [List.foldl_cons, List.filter_cons]
    have hz : (tailStep o j cz p).2 = cz.2 + 1 := rfl
    by_cases ht : o.items.getD p 0 = t
    · rw [if_pos (decide_eq_true ht)]
      have hstep : (tailStep o j cz p).1 t
          = ⟨(cz.1 t).supp + o.wgt, (cz.1 t).oxs ++ [⟨p, j⟩]⟩ := by
        simp only [tailStep]
        rw [ht, Function.update_same]
      rcases ih (tailStep o j cz p) t with ⟨h1, h2, h3⟩
      rw [h1, h2, h3, hstep, hz]
      refine ⟨?_, by simp, by simp [Nat.add_assoc, Nat.add_comm 1 ps.length]⟩
      simp only [List.length_cons]
      push_cast
      ring
    · rw [if_neg (fun hd => ht (of_decide_eq_true hd))]
      have hstep : (tailStep o j cz p).1 t = cz.1 t := by
        simp only [tailStep]
        rw [Function.update_noteq (fun h => ht h.symm)]
      rcases ih (tailStep o j cz p) t with ⟨h1, h2, h3⟩
      rw [h1, h2, h3, hstep, hz]
      exact ⟨rfl, rfl, by simp [Nat.add_assoc, Nat.add_comm 1 ps.length]⟩

/-- Positions of item `t` within the full position range of a duplicate-free
list: exactly its index, when present. -/
lemma filter_range_positions (l : List Nat) (hnd : l.Nodup) (t : Nat) :
    (List.range l.length).filter (fun p => decide (l.getD p 0 = t))
      = if t ∈ l then [l.indexOf t] else [] := by
  by_cases htl : t ∈ l
  · rw [if_pos htl]
    have hidx : l.indexOf t < l.length := List.indexOf_lt_length.mpr htl
    have hcongr : (List.range l.length).filter (fun p => decide (l.getD p 0 = t))
        = (List.range l.length).filter (fun p => decide (p = l.indexOf t)) := by
      apply List.filter_congr
      intro p hp
      have hpl : p < l.length := List.mem_range.mp hp
      apply decide_eq_decide.mpr
      constructor
      · intro h
        exact ((getD_eq_iff_indexOf l hnd p hpl t).mp h).2
      · intro h
        exact (getD_eq_iff_indexOf l hnd p hpl t).mpr ⟨htl, h⟩
    rw [hcongr, List.filter_eq,
      List.count_eq_one_of_mem (List.nodup_range _) (List.mem_range.mpr hidx),
      List.replicate_one]
  · rw [if_neg htl]
    rw [List.filter_eq_nil_iff]
    intro p hp
    simp only [decide_eq_true_eq]
    intro h
    exact htl ((getD_eq_iff_indexOf l hnd p (List.mem_range.mp hp) t).mp h).1

/-- Positions of item `t` strictly after position `q` of a duplicate-free list:
exactly its index, when present there. -/
lemma filter_tail_positions (l : List Nat) (hnd : l.Nodup) (q t : Nat) :
    (List.range' (q + 1) (l.length - (q + 1))).filter
        (fun p => decide (l.getD p 0 = t))
      = if t ∈ l ∧ q < l.indexOf t then [l.indexOf t] else [] := by
  by_cases hc : t ∈ l ∧ q < l.indexOf t
  · rw [if_pos hc]
    have hidx : l.indexOf t < l.length := List.indexOf_lt_length.mpr hc.1
    have hcongr : (List.range' (q + 1) (l.length - (q + 1))).filter
          (fun p => decide (l.getD p 0 = t))
        = (List.range' (q + 1) (l.length - (q + 1))).filter
          (fun p => decide (p = l.indexOf t)) := by
      apply List.filter_congr
      intro p hp
      have hpl := (mem_range'_sub (q + 1) l.length p).mp hp
      apply decide_eq_decide.mpr
      constructor
      · intro h
        exact ((getD_eq_iff_indexOf l hnd p hpl.2 t).mp h).2
      · intro h
        exact (getD_eq_iff_indexOf l hnd p hpl.2 t).mpr ⟨hc.1, h⟩
    rw [hcongr, List.filter_eq,
      List.count_eq_one_of_mem (List.nodup_range' _ _)
        ((mem_range'_sub (q + 1) l.length _).mpr ⟨by omega, hidx⟩),
      List.replicate_one]
  · rw [if_neg hc]
    rw [List.filter_eq_nil_iff]
    intro p hp
    simp only [decide_eq_true_eq]
    intro h
    have hpl := (mem_range'_sub (q + 1) l.length p).mp hp
    have h2 := (getD_eq_iff_indexOf l hnd p hpl.2 t).mp h
    exact hc ⟨h2.1, by omega⟩

/-- The second component of an `enum` entry is a member. -/
lemma snd_mem_of_mem_enum {α : Type} {l : List α} {jt : Nat × α} (h : jt ∈ l.enum) :
    jt.2 ∈ l := by
  have : jt.2 ∈ l.enum.map Prod.snd := List.mem_map_of_mem _ h
  rwa [show l.enum.map Prod.snd = l from List.enumFrom_map_snd 0 l] at this

/-- Filtering and projecting `enum` entries by their payload. -/
lemma enum_filter_map_snd {α : Type} (bag : List Trans) (p : Trans → Bool)
    (f : Trans → α) :
    (bag.enum.filter (fun jt => p jt.2)).map (fun jt => f jt.2)
      = (bag.filter p).map f := by
  conv_rhs => rw [show bag = bag.enum.map Prod.snd from (List.enumFrom_map_snd 0 bag).symm]
  rw [List.filter_map, List.map_map]
  rfl

/-- Canonical shape of the root construction, one transaction at a time. -/
lemma rootFold_canon :
    ∀ (el : List (Nat × Trans)) (ex : Nat → PatExt) (t : Nat),
      (∀ jt ∈ el, jt.2.items.Nodup) →
      ((el.foldl rootStep ex) t).supp
        = (ex t).supp
          + ((el.filter (fun jt => decide ([t].Sublist jt.2.items))).map
              (fun jt => jt.2.wgt)).sum
      ∧ ((el.foldl rootStep ex) t).oxs
        = (ex t).oxs ++ el.filterMap (fun jt =>
            if [t].Sublist jt.2.items then some ⟨jt.2.items.indexOf t, jt.1⟩ else none) := by
  intro el
  induction el with
  | nil => intro ex t _; simp
  | cons jt el ih =>
    intro ex t hnd
    have hndj := hnd jt (List.mem_cons_self _ _)
    simp only [List.foldl_cons, List.filter_cons, List.filterMap_cons]
    have hr := posStep_fold jt.1 jt.2 (List.range jt.2.items.length) ex t
    rw [filter_range_positions jt.2.items hndj t] at hr
    have hstep : rootStep ex jt
        = (List.range jt.2.items.length).foldl (posStep jt.1 jt.2) ex := rfl
    rcases ih (rootStep ex jt) t (fun x hx => hnd x (List.mem_cons_of_mem _ hx)) with
      ⟨ih1, ih2⟩
    rw [ih1, ih2, hstep]
    rcases hr with ⟨hr1, hr2⟩
    rw [hr1, hr2]
    by_cases htl : t ∈ jt.2.items
    · rw [if_pos htl,
        if_pos (decide_eq_true (List.singleton_sublist.mpr htl)),
        if_pos (List.singleton_sublist.mpr htl)]
      constructor
      · simp only [List.length_singleton, List.map_cons, List.sum_cons]
        push_cast
        ring
      · simp
    · rw [if_neg htl,
        if_neg (fun hd => htl (List.singleton_sublist.mp (of_decide_eq_true hd))),
        if_neg (fun hd => htl (List.singleton_sublist.mp hd))]
      constructor
      · simp
      · simp

/-- The root extensions are canonical for the empty pattern. -/
lemma rootExts_canon (bag : List Trans) (hbag : ∀ tr ∈ bag, tr.items.Nodup) :
    ∀ t, rootExts bag t = canonExt bag [] t := by
  intro t
  have h := rootFold_canon bag.enum (fun _ => ⟨0, []⟩) t
    (fun jt hjt => hbag jt.2 (snd_mem_of_mem_enum hjt))
  have heta : rootExts bag t
      = ⟨(bag.enum.foldl rootStep (fun _ => ⟨0, []⟩) t).supp,
         (bag.enum.foldl rootStep (fun _ => ⟨0, []⟩) t).oxs⟩ := rfl
  rw [heta, h.1, h.2]
  unfold canonExt canonOxs support
  have : ((bag.enum.filter (fun jt => decide ([t].Sublist jt.2.items))).map
        (fun jt => jt.2.wgt)).sum
      = ((bag.filter (fun tr => decide ([t].Sublist tr.items))).map Trans.wgt).sum := by
    rw [enum_filter_map_snd bag (fun tr => decide ([t].Sublist tr.items)) Trans.wgt]
  rw [this]
  simp

/-- Canonical shape of the projection loop, one occurrence extension (i.e. one
embedding transaction) at a time: folding `condStep` over the canonical
occurrence list of `P ++ [i]` yields the canonical extensions of `P ++ [i]` and
counts all tail instances. -/
lemma condFold_canon (st : MState) (P : List Nat) (i : Nat) :
    ∀ (el : List (Nat × Trans)) (cz : (Nat → PatExt) × Nat),
      (∀ jt ∈ el, jt.2.items.Nodup ∧ (occAt st.occs jt.1).items = jt.2.items
        ∧ (occAt st.occs jt.1).wgt = jt.2.wgt) →
      ∀ t,
      (((el.filterMap (fun jt => if (P ++ [i]).Sublist jt.2.items
            then some (⟨jt.2.items.indexOf i, jt.1⟩ : OccExt) else none)).foldl
          (condStep st) cz).1 t).supp
        = (cz.1 t).supp + ((el.filter (fun jt =>
            decide ((P ++ [i] ++ [t]).Sublist jt.2.items))).map (fun jt => jt.2.wgt)).sum
      ∧ (((el.filterMap (fun jt => if (P ++ [i]).Sublist jt.2.items
            then some (⟨jt.2.items.indexOf i, jt.1⟩ : OccExt) else none)).foldl
          (condStep st) cz).1 t).oxs
        = (cz.1 t).oxs ++ el.filterMap (fun jt =>
            if (P ++ [i] ++ [t]).Sublist jt.2.items
            then some (⟨jt.2.items.indexOf t, jt.1⟩ : OccExt) else none)
      ∧ ((el.filterMap (fun jt => if (P ++ [i]).Sublist jt.2.items
            then some (⟨jt.2.items.indexOf i, jt.1⟩ : OccExt) else none)).foldl
          (condStep st) cz).2
        = cz.2 + (el.map (fun jt => if (P ++ [i]).Sublist jt.2.items
            then jt.2.items.length - (jt.2.items.indexOf i + 1) else 0)).sum := by
  intro el
  induction el with
  | nil => intro cz _ t; simp
  | cons jt el ih =>
    intro cz hprops t
    obtain ⟨hndj, hitems, hwgt⟩ := hprops jt (List.mem_cons_self _ _)
    simp only [List.filterMap_cons, List.filter_cons, List.map_cons]
    by_cases hsub : (P ++ [i]).Sublist jt.2.items
    · rw [if_pos hsub, if_pos hsub]
      simp only [List.foldl_cons]
      have htail : tailPositions (occAt st.occs jt.1) (jt.2.items.indexOf i)
          = List.range' (jt.2.items.indexOf i + 1)
              (jt.2.items.length - (jt.2.items.indexOf i + 1)) := by
        unfold tailPositions
        rw [hitems]
      have hcstep : condStep st cz ⟨jt.2.items.indexOf i, jt.1⟩
          = (List.range' (jt.2.items.indexOf i + 1)
              (jt.2.items.length - (jt.2.items.indexOf i + 1))).foldl
              (tailStep (occAt st.occs jt.1) jt.1) cz := by
        unfold condStep
        rw [htail]
      have ht := tailStep_fold (occAt st.occs jt.1) jt.1
          (List.range' (jt.2.items.indexOf i + 1)
            (jt.2.items.length - (jt.2.items.indexOf i + 1))) cz t
      rw [hitems, hwgt] at ht
      rw [filter_tail_positions jt.2.items hndj (jt.2.items.indexOf i) t] at ht
      have hcond : (t ∈ jt.2.items ∧ jt.2.items.indexOf i < jt.2.items.indexOf t)
          ↔ (P ++ [i] ++ [t]).Sublist jt.2.items :=
        (sublist_snoc_iff jt.2.items hndj P i t hsub).symm
      rcases ht with ⟨ht1, ht2, ht3⟩
      rcases ih (condStep st cz ⟨jt.2.items.indexOf i, jt.1⟩)
          (fun x hx => hprops x (List.mem_cons_of_mem _ hx)) t with ⟨ih1, ih2, ih3⟩
      rw [ih1, ih2, ih3, hcstep, ht1, ht2, ht3]
      rw [List.length_range']
      by_cases hext : (P ++ [i] ++ [t]).Sublist jt.2.items
      · rw [if_pos (hcond.mpr hext), if_pos (decide_eq_true hext), if_pos hext]
        refine ⟨?_, by simp, by rw [List.sum_cons]; omega⟩
        simp only [List.length_singleton, List.map_cons, List.sum_cons]
        push_cast
        ring
      · rw [if_neg (fun hc => hext (hcond.mp hc)),
          if_neg (fun hd => hext (of_decide_eq_true hd)), if_neg hext]
        exact ⟨by simp, by simp, by rw [List.sum_cons]; omega⟩
    · rw [if_neg hsub, if_neg hsub]
      have hnot : ¬ (P ++ [i] ++ [t]).Sublist jt.2.items :=
        fun h => hsub ((List.sublist_append_left _ _).trans h)
      rw [if_neg (fun hd => hnot (of_decide_eq_true hd)), if_neg hnot]
      rcases ih cz (fun x hx => hprops x (List.mem_cons_of_mem _ hx)) t with
        ⟨ih1, ih2, ih3⟩
      exact ⟨ih1, ih2, by rw [ih3, List.sum_cons]; omega⟩

/-- A map over the enumeration that only reads the transaction equals the map
over the bag. -/
lemma enum_map_snd_fn {α : Type} (bag : List Trans) (f : Trans → α) :
    bag.enum.map (fun jt => f jt.2) = bag.map f := by
  conv_rhs => rw [show bag = bag.enum.map Prod.snd from (List.enumFrom_map_snd 0 bag).symm]
  rw [List.map_map]
  rfl

/-- The projection loop on the canonical extension of `P` by `i` builds exactly
the canonical extensions of `P ++ [i]`, and the conditional-extension count is
the total tail length over the embedding transactions. -/
lemma buildCond_canon (bag : List Trans) (st : MState) (P : List Nat) (i : Nat)
    (hvb : ∀ tr ∈ bag, tr.items.Nodup) (hocc : OccsMatch st bag) :
    (∀ t, (buildCond st (canonExt bag P i)).1 t = canonExt bag (P ++ [i]) t)
    ∧ (buildCond st (canonExt bag P i)).2
        = (bag.map (fun tr => if (P ++ [i]).Sublist tr.items
            then tr.items.length - (tr.items.indexOf i + 1) else 0)).sum := by
  have hprops : ∀ jt ∈ bag.enum, jt.2.items.Nodup
      ∧ (occAt st.occs jt.1).items = jt.2.items
      ∧ (occAt st.occs jt.1).wgt = jt.2.wgt := by
    intro jt hjt
    exact ⟨hvb jt.2 (snd_mem_of_mem_enum hjt), hocc.2 jt hjt⟩
  have h := condFold_canon st P i bag.enum ((fun _ => ⟨0, []⟩), 0) hprops
  have hbc : buildCond st (canonExt bag P i)
      = (bag.enum.filterMap (fun jt => if (P ++ [i]).Sublist jt.2.items
          then some (⟨jt.2.items.indexOf i, jt.1⟩ : OccExt) else none)).foldl
          (condStep st) ((fun _ => ⟨0, []⟩), 0) := rfl
  constructor
  · intro t
    rcases h t with ⟨h1, h2, _⟩
    have heta : (buildCond st (canonExt bag P i)).1 t
        = ⟨((buildCond st (canonExt bag P i)).1 t).supp,
           ((buildCond st (canonExt bag P i)).1 t).oxs⟩ := rfl
    rw [heta, hbc, h1, h2]
    have hsupp : ((bag.enum.filter (fun jt =>
          decide ((P ++ [i] ++ [t]).Sublist jt.2.items))).map (fun jt => jt.2.wgt)).sum
        = support bag (P ++ [i] ++ [t]) := by
      rw [enum_filter_map_snd bag (fun tr => decide ((P ++ [i] ++ [t]).Sublist tr.items))
        (fun tr => tr.wgt)]
      rfl
    rw [show ((fun (_ : Nat) => (⟨0, []⟩ : PatExt)) t).supp = 0 from rfl,
      show ((fun (_ : Nat) => (⟨0, []⟩ : PatExt)) t).oxs = [] from rfl]
    rw [hsupp]
    simp only [zero_add, List.nil_append]
    rfl
  · rcases h 0 with ⟨_, _, h3⟩
    rw [hbc, h3]
    rw [enum_map_snd_fn bag (fun tr => if (P ++ [i]).Sublist tr.items
      then tr.items.length - (tr.items.indexOf i + 1) else 0)]
    simp

/-- If the conditional-extension count is zero, no one-item extension of
`P ++ [i]` embeds anywhere: every embedding transaction has `i` as its last
item. -/
lemma no_tail_of_zc_zero (bag : List Trans) (P : List Nat) (i : Nat)
    (hvb : ∀ tr ∈ bag, tr.items.Nodup)
    (hz : (bag.map (fun tr => if (P ++ [i]).Sublist tr.items
            then tr.items.length - (tr.items.indexOf i + 1) else 0)).sum = 0) :
    ∀ t, support bag (P ++ [i] ++ [t]) = 0 := by
  intro t
  apply support_zero_of_no_embed
  intro tr htr hsub
  have hsub' : (P ++ [i]).Sublist tr.items :=
    (List.sublist_append_left _ _).trans hsub
  have hterm : (if (P ++ [i]).Sublist tr.items
      then tr.items.length - (tr.items.indexOf i + 1) else 0) = 0 := by
    have := List.sum_eq_zero_iff.mp hz
    exact this _ (List.mem_map_of_mem _ htr)
  rw [if_pos hsub'] at hterm
  have hti := (sublist_snoc_iff tr.items (hvb tr htr) P i t hsub').mp hsub
  have hlt : tr.items.indexOf t < tr.items.length := List.indexOf_lt_length.mpr hti.1
  omega

/-- Support never exceeds the total transaction weight. -/
lemma support_le_total (bag : List Trans) (hw : ∀ t ∈ bag, 0 ≤ t.wgt)
    (p : List Nat) : support bag p ≤ totalWgt bag := by
  have h := support_mono bag hw (List.nil_sublist p)
  rwa [support_nil_eq] at h

/-- The occurrence-record invariant only reads the occurrence list. -/
lemma occsMatch_of_eq {st st' : MState} {bag : List Trans}
    (h : st'.occs = st.occs) (hm : OccsMatch st bag) : OccsMatch st' bag := by
  unfold OccsMatch at hm ⊢
  rw [h]
  exact hm

/-- `isr_report` under a non-failing oracle: status `0`, the pattern appended
when its size is in range. -/
lemma isrReport_noFail (rd : RecData) (st : MState)
    (hf : rd.failAt st.rep.calls = false) :
    isrReport rd st = (0, { st with rep := {
        stack := st.rep.stack,
        out := if rd.zmin ≤ st.rep.stack.length ∧ st.rep.stack.length ≤ rd.zmax
          then st.rep.out ++ [(st.rep.stack.map Prod.fst,
            match st.rep.stack.getLast? with
            | some pr => pr.2
            | none => rd.totalWgt)]
          else st.rep.out,
        calls := st.rep.calls + 1 } }) := by
  simp only [isrReport, hf, Bool.false_eq_true, if_false, List.length_map]

/-- `reportPhase` in ALL mode under a non-failing oracle: always report, pop the
stack, keep `s` and `mx`. -/
lemma reportPhase_all (rd : RecData) (e : PatExt) (s mx : Int) (st : MState)
    (hmode : rd.modeClosed = false) (hf : rd.failAt st.rep.calls = false) :
    reportPhase rd e s mx st = Sum.inl (s, mx,
      { st with rep := {
          stack := st.rep.stack.dropLast,
          out := if rd.zmin ≤ st.rep.stack.length ∧ st.rep.stack.length ≤ rd.zmax
            then st.rep.out ++ [(st.rep.stack.map Prod.fst,
              match st.rep.stack.getLast? with
              | some pr => pr.2
              | none => rd.totalWgt)]
            else st.rep.out,
          calls := st.rep.calls + 1 } }) := by
  simp only [reportPhase, hmode, Bool.false_eq_true, not_false_eq_true, true_or, if_true]
  rw [isrReport_noFail rd st hf]
  norm_num
  rfl

/-- One iteration of the extension loop in ALL mode with canonical extensions:
the accumulator stays `Sum.inl`, the occurrence records and the reporter stack
are restored, and the output grows by exactly the frequent patterns starting
with `P ++ [i]` whose size is in range. -/
lemma itemStep_all_one (bag : List Trans) (rd : RecData)
    (hmode : rd.modeClosed = false) (hfail : ∀ k, rd.failAt k = false)
    (hsmin : 1 ≤ rd.smin) (hvb : ValidBag bag rd.cnt)
    (P : List Nat) (exts : Nat → PatExt) (hexts : ∀ t, exts t = canonExt bag P t)
    (recur : (Nat → PatExt) → Nat → MState → Int × MState) (i : Nat)
    (hrec : ∀ (c : Nat → PatExt) (zc : Nat) (st' : MState),
        (∀ t, c t = canonExt bag (P ++ [i]) t) →
        OccsMatch st' bag →
        st'.rep.stack.map Prod.fst = P ++ [i] →
        P.length + 1 ≤ rd.zmax →
        0 ≤ (recur c zc st').1 ∧ (recur c zc st').2.occs = st'.occs ∧
        (recur c zc st').2.rep.stack = st'.rep.stack ∧
        ∃ Δ, (recur c zc st').2.rep.out = st'.rep.out ++ Δ ∧
          (∀ q sv, (q, sv) ∈ Δ ↔ ((∃ j S, q = (P ++ [i]) ++ j :: S)
            ∧ sv = support bag q ∧ rd.smin ≤ sv
            ∧ rd.zmin ≤ q.length ∧ q.length ≤ rd.zmax))
          ∧ (Δ.map Prod.fst).Nodup)
    (s mx : Int) (st : MState) (hs : 0 ≤ s) (hmx : 0 ≤ mx) (hocc : OccsMatch st bag)
    (hstk : st.rep.stack.map Prod.fst = P) :
    ∃ s₁ mx₁ st₁,
      itemStep recur rd exts (P.length + 1) (decide (P.length + 1 ≤ rd.zmax))
          (Sum.inl (s, mx, st)) i = Sum.inl (s₁, mx₁, st₁)
      ∧ 0 ≤ s₁ ∧ 0 ≤ mx₁ ∧ st₁.occs = st.occs ∧ st₁.rep.stack = st.rep.stack
      ∧ ∃ Δ, st₁.rep.out = st.rep.out ++ Δ
        ∧ (∀ q sv, (q, sv) ∈ Δ ↔ ((∃ S, q = P ++ i :: S) ∧ sv = support bag q
            ∧ rd.smin ≤ sv ∧ rd.zmin ≤ q.length ∧ q.length ≤ rd.zmax))
        ∧ (Δ.map Prod.fst).Nodup := by
  have hw : ∀ t ∈ bag, 0 ≤ t.wgt := fun t ht => le_trans (by norm_num) ((hvb t ht).2.2)
  have hnd : ∀ tr ∈ bag, tr.items.Nodup := fun tr htr => (hvb tr htr).1
  have hsupp_i : (exts i).supp = support bag (P ++ [i]) := by
    rw [hexts i]
    rfl
  have hPlen : st.rep.stack.length = P.length := by
    rw [← hstk, List.length_map]
  by_cases h1 : support bag (P ++ [i]) < rd.smin
  · have hstep : itemStep recur rd exts (P.length + 1)
        (decide (P.length + 1 ≤ rd.zmax)) (Sum.inl (s, mx, st)) i
        = Sum.inl (s, mx, st) := by
      simp only [itemStep]
      rw [if_pos (by rw [hsupp_i]; exact h1)]
    refine ⟨s, mx, st, hstep, hs, hmx, rfl, rfl, [], by simp, ?_, by simp⟩
    intro q sv
    simp only [List.not_mem_nil, false_iff]
    rintro ⟨⟨S, rfl⟩, rfl, hsm, _, _⟩
    have hsub : (P ++ [i]).Sublist (P ++ i :: S) :=
      (List.cons_sublist_cons.mpr (List.nil_sublist S)).append_left P
    have hmono := support_mono bag hw hsub
    omega
  · have hstep : itemStep recur rd exts (P.length + 1)
        (decide (P.length + 1 ≤ rd.zmax)) (Sum.inl (s, mx, st)) i
        = extendPhase recur rd (exts i) (decide (P.length + 1 ≤ rd.zmax)) s
            (if mx < (exts i).supp then (exts i).supp else mx)
            (isrAdd (pushGhost st (exts i) (P.length + 1)) i (exts i).supp) := by
      simp only [itemStep, hmode, Bool.false_eq_true, if_false, false_and]
      rw [if_neg (by rw [hsupp_i]; exact h1)]
    set mx₁ := if mx < (exts i).supp then (exts i).supp else mx with hmx₁
    have hmx₁0 : 0 ≤ mx₁ := by
      rw [hmx₁]
      split
      · omega
      · exact hmx
    set st₂ := isrAdd (pushGhost st (exts i) (P.length + 1)) i (exts i).supp with hst₂def
    have hst₂occ : st₂.occs = st.occs := rfl
    have hst₂stk : st₂.rep.stack = st.rep.stack ++ [(i, (exts i).supp)] := rfl
    have hst₂out : st₂.rep.out = st.rep.out := rfl
    have hst₂fst : st₂.rep.stack.map Prod.fst = P ++ [i] := by
      rw [hst₂stk, List.map_append, hstk]
      rfl
    have hst₂len : st₂.rep.stack.length = P.length + 1 := by
      rw [hst₂stk, List.length_append, hPlen]
      rfl
    have hst₂occM : OccsMatch st₂ bag := occsMatch_of_eq hst₂occ hocc
    have hst₂last : st₂.rep.stack.getLast? = some (i, (exts i).supp) := by
      rw [hst₂stk]
      exact List.getLast?_concat _
    have hst₂drop : st₂.rep.stack.dropLast = st.rep.stack := by
      rw [hst₂stk]
      exact List.dropLast_concat
    have hfreq : rd.smin ≤ support bag (P ++ [i]) := not_lt.mp h1
    have hqlen : ∀ (S : List Nat), (P ++ i :: S).length = P.length + 1 + S.length := by
      intro S
      simp [List.length_append]
      omega
    by_cases hcnd : P.length + 1 ≤ rd.zmax
    · rw [decide_eq_true hcnd] at hstep ⊢
      simp only [extendPhase, if_true] at hstep
      obtain ⟨hcz1, hcz2⟩ := buildCond_canon bag st₂ P i hnd hst₂occM
      rw [← hexts i] at hcz1 hcz2
      by_cases hz : 0 < (buildCond st₂ (exts i)).2
      · rw [if_pos hz] at hstep
        obtain ⟨hr0, hrocc, hrstk, Δr, hrout, hriff, hrnd⟩ :=
          hrec (buildCond st₂ (exts i)).1 (buildCond st₂ (exts i)).2 st₂
            hcz1 hst₂occM hst₂fst hcnd
        rw [if_neg (not_lt.mpr hr0)] at hstep
        rw [reportPhase_all rd (exts i) _ _ _ hmode (hfail _)] at hstep
        have hA : (recur (buildCond st₂ (exts i)).1 (buildCond st₂ (exts i)).2
            st₂).2.rep.stack.length = P.length + 1 := by rw [hrstk]; exact hst₂len
        have hB : (recur (buildCond st₂ (exts i)).1 (buildCond st₂ (exts i)).2
            st₂).2.rep.stack.map Prod.fst = P ++ [i] := by rw [hrstk]; exact hst₂fst
        have hC : (recur (buildCond st₂ (exts i)).1 (buildCond st₂ (exts i)).2
            st₂).2.rep.stack.getLast? = some (i, (exts i).supp) := by
          rw [hrstk]; exact hst₂last
        have hD : (recur (buildCond st₂ (exts i)).1 (buildCond st₂ (exts i)).2
            st₂).2.rep.stack.dropLast = st.rep.stack := by
          rw [hrstk]; exact hst₂drop
        rw [hA, hB, hC, hD, hrout, hst₂out] at hstep
        refine ⟨_, mx₁, _, hstep, hr0, hmx₁0, hrocc.trans hst₂occ, rfl,
          Δr ++ (if rd.zmin ≤ P.length + 1 ∧ P.length + 1 ≤ rd.zmax
            then [(P ++ [i], (exts i).supp)] else []), ?_, ?_, ?_⟩
        · by_cases hE : rd.zmin ≤ P.length + 1 ∧ P.length + 1 ≤ rd.zmax
          · rw [if_pos hE, if_pos hE]
            simp [List.append_assoc]
          · rw [if_neg hE, if_neg hE]
            simp
        · intro q sv
          rw [List.mem_append]
          constructor
          · rintro (hm | hm)
            · obtain ⟨⟨j, S, rfl⟩, hsv, hsm, hz1, hz2⟩ := (hriff q sv).mp hm
              exact ⟨⟨j :: S, by simp⟩, hsv, hsm, hz1, hz2⟩
            · by_cases hE : rd.zmin ≤ P.length + 1 ∧ P.length + 1 ≤ rd.zmax
              · rw [if_pos hE] at hm
                simp only [List.mem_singleton, Prod.mk.injEq] at hm
                obtain ⟨rfl, rfl⟩ := hm
                exact ⟨⟨[], rfl⟩, hsupp_i, by rw [hsupp_i]; exact hfreq,
                  by simpa [hqlen []] using hE.1, by simpa [hqlen []] using hE.2⟩
              · rw [if_neg hE] at hm
                exact absurd hm (List.not_mem_nil _)
          · rintro ⟨⟨S, rfl⟩, rfl, hsm, hz1, hz2⟩
            cases S with
            | nil =>
              refine Or.inr ?_
              have hE : rd.zmin ≤ P.length + 1 ∧ P.length + 1 ≤ rd.zmax := by
                constructor
                · simpa [hqlen []] using hz1
                · simpa [hqlen []] using hz2
              rw [if_pos hE]
              simp only [List.mem_singleton, Prod.mk.injEq]
              exact ⟨trivial, hsupp_i.symm⟩
            | cons j S =>
              refine Or.inl ((hriff _ _).mpr ⟨⟨j, S, by simp⟩, rfl, hsm, hz1, hz2⟩)
        · rw [List.map_append]
          refine List.Nodup.append hrnd ?_ ?_
          · by_cases hE : rd.zmin ≤ P.length + 1 ∧ P.length + 1 ≤ rd.zmax
            · rw [if_pos hE]; simp
            · rw [if_neg hE]; simp
          · intro q hq hq2
            obtain ⟨pr, hpr, rfl⟩ := List.mem_map.mp hq
            obtain ⟨⟨j, S, hshape⟩, _, _, _, _⟩ := (hriff pr.1 pr.2).mp hpr
            by_cases hE : rd.zmin ≤ P.length + 1 ∧ P.length + 1 ≤ rd.zmax
            · rw [if_pos hE] at hq2
              simp only [List.map_cons, List.map_nil, List.mem_singleton] at hq2
              have hl1 : pr.1.length = P.length + 1 := by rw [hq2]; simp [hqlen []]
              have hl2 : pr.1.length = P.length + 2 + S.length := by
                rw [hshape]
                simp [List.length_append]
                omega
              omega
            · rw [if_neg hE] at hq2
              exact absurd hq2 (List.not_mem_nil _)
      · rw [if_neg hz] at hstep
        rw [reportPhase_all rd (exts i) _ _ _ hmode (hfail _)] at hstep
        rw [hst₂len, hst₂fst, hst₂last, hst₂drop, hst₂out] at hstep
        have hzero : (bag.map (fun tr => if (P ++ [i]).Sublist tr.items
            then tr.items.length - (tr.items.indexOf i + 1) else 0)).sum = 0 := by
          omega
        have hnot := no_tail_of_zc_zero bag P i hnd hzero
        refine ⟨s, mx₁, _, hstep, hs, hmx₁0, rfl, rfl,
          (if rd.zmin ≤ P.length + 1 ∧ P.length + 1 ≤ rd.zmax
            then [(P ++ [i], (exts i).supp)] else []), ?_, ?_, ?_⟩
        · by_cases hE : rd.zmin ≤ P.length + 1 ∧ P.length + 1 ≤ rd.zmax
          · rw [if_pos hE, if_pos hE]
          · rw [if_neg hE, if_neg hE]
            simp
        · intro q sv
          constructor
          · intro hm
            by_cases hE : rd.zmin ≤ P.length + 1 ∧ P.length + 1 ≤ rd.zmax
            · rw [if_pos hE] at hm
              simp only [List.mem_singleton, Prod.mk.injEq] at hm
              obtain ⟨rfl, rfl⟩ := hm
              exact ⟨⟨[], rfl⟩, hsupp_i, by rw [hsupp_i]; exact hfreq,
                by simpa [hqlen []] using hE.1, by simpa [hqlen []] using hE.2⟩
            · rw [if_neg hE] at hm
              exact absurd hm (List.not_mem_nil _)
          · rintro ⟨⟨S, rfl⟩, rfl, hsm, hz1, hz2⟩
            cases S with
            | nil =>
              have hE : rd.zmin ≤ P.length + 1 ∧ P.length + 1 ≤ rd.zmax := by
                constructor
                · simpa [hqlen []] using hz1
                · simpa [hqlen []] using hz2
              rw [if_pos hE]
              simp only [List.mem_singleton, Prod.mk.injEq]
              exact ⟨trivial, hsupp_i.symm⟩
            | cons j S =>
              exfalso
              have hsub : (P ++ [i] ++ [j]).Sublist (P ++ i :: j :: S) := by
                have hshape : P ++ [i] ++ [j] = P ++ i :: j :: ([] : List Nat) := by simp
                rw [hshape]
                exact ((List.cons_sublist_cons.mpr
                  (List.cons_sublist_cons.mpr (List.nil_sublist S))).append_left P)
              have hmono := support_mono bag hw hsub
              rw [hnot j] at hmono
              omega
        · by_cases hE : rd.zmin ≤ P.length + 1 ∧ P.length + 1 ≤ rd.zmax
          · rw [if_pos hE]; simp
          · rw [if_neg hE]; simp
    · rw [decide_eq_false hcnd] at hstep ⊢
      simp only [extendPhase, Bool.false_eq_true, if_false] at hstep
      rw [reportPhase_all rd (exts i) _ _ _ hmode (hfail _)] at hstep
      rw [hst₂len, hst₂fst, hst₂last, hst₂drop, hst₂out] at hstep
      rw [if_neg (fun hE => hcnd hE.2)] at hstep
      refine ⟨0, mx₁, _, hstep, le_refl 0, hmx₁0, rfl, rfl, [], by simp, ?_, by simp⟩
      intro q sv
      simp only [List.not_mem_nil, false_iff]
      rintro ⟨⟨S, rfl⟩, rfl, hsm, hz1, hz2⟩
      rw [hqlen S] at hz2
      omega

/-- The extension loop in ALL mode over a duplicate-free item list: state
restored, output extended by exactly the frequent in-range patterns starting
with `P ++ [i]` for any processed `i`. -/
lemma itemFold_all_spec (bag : List Trans) (rd : RecData)
    (hmode : rd.modeClosed = false) (hfail : ∀ k, rd.failAt k = false)
    (hsmin : 1 ≤ rd.smin) (hvb : ValidBag bag rd.cnt)
    (P : List Nat) (exts : Nat → PatExt) (hexts : ∀ t, exts t = canonExt bag P t)
    (recur : (Nat → PatExt) → Nat → MState → Int × MState)
    (hrec : ∀ (i : Nat) (c : Nat → PatExt) (zc : Nat) (st' : MState),
        (∀ t, c t = canonExt bag (P ++ [i]) t) →
        OccsMatch st' bag →
        st'.rep.stack.map Prod.fst = P ++ [i] →
        P.length + 1 ≤ rd.zmax →
        0 ≤ (recur c zc st').1 ∧ (recur c zc st').2.occs = st'.occs ∧
        (recur c zc st').2.rep.stack = st'.rep.stack ∧
        ∃ Δ, (recur c zc st').2.rep.out = st'.rep.out ++ Δ ∧
          (∀ q sv, (q, sv) ∈ Δ ↔ ((∃ j S, q = (P ++ [i]) ++ j :: S)
            ∧ sv = support bag q ∧ rd.smin ≤ sv
            ∧ rd.zmin ≤ q.length ∧ q.length ≤ rd.zmax))
          ∧ (Δ.map Prod.fst).Nodup) :
    ∀ (is : List Nat), is.Nodup →
      ∀ (s mx : Int) (st : MState), 0 ≤ s → 0 ≤ mx → OccsMatch st bag →
        st.rep.stack.map Prod.fst = P →
        ∃ s₁ mx₁ st₁,
          is.foldl (itemStep recur rd exts (P.length + 1)
              (decide (P.length + 1 ≤ rd.zmax))) (Sum.inl (s, mx, st))
            = Sum.inl (s₁, mx₁, st₁)
          ∧ 0 ≤ s₁ ∧ 0 ≤ mx₁ ∧ st₁.occs = st.occs ∧ st₁.rep.stack = st.rep.stack
          ∧ ∃ Δ, st₁.rep.out = st.rep.out ++ Δ
            ∧ (∀ q sv, (q, sv) ∈ Δ ↔ ((∃ i ∈ is, ∃ S, q = P ++ i :: S)
                ∧ sv = support bag q ∧ rd.smin ≤ sv
                ∧ rd.zmin ≤ q.length ∧ q.length ≤ rd.zmax))
            ∧ (Δ.map Prod.fst).Nodup := by
  intro is
  induction is with
  | nil =>
    intro _ s mx st hs hmx hocc hstk
    refine ⟨s, mx, st, rfl, hs, hmx, rfl, rfl, [], by simp, ?_, by simp⟩
    intro q sv
    simp
  | cons i is ih =>
    intro hndis s mx st hs hmx hocc hstk
    obtain ⟨s₁, mx₁, st₁, hstep, hs₁, hmxx₁, hocc₁, hstk₁, Δ₁, hout₁, hiff₁, hnd₁⟩ :=
      itemStep_all_one bag rd hmode hfail hsmin hvb P exts hexts recur i (hrec i)
        s mx st hs hmx hocc hstk
    rw [List.foldl_cons, hstep]
    obtain ⟨s₂, mx₂, st₂, hfold, hs₂, hmxx₂, hocc₂, hstk₂, Δ₂, hout₂, hiff₂, hnd₂⟩ :=
      ih (List.Nodup.of_cons hndis) s₁ mx₁ st₁ hs₁ hmxx₁
        (occsMatch_of_eq hocc₁ hocc) (by rw [hstk₁]; exact hstk)
    refine ⟨s₂, mx₂, st₂, hfold, hs₂, hmxx₂, hocc₂.trans hocc₁, hstk₂.trans hstk₁,
      Δ₁ ++ Δ₂, by rw [hout₂, hout₁, List.append_assoc], ?_, ?_⟩
    · intro q sv
      rw [List.mem_append, hiff₁ q sv, hiff₂ q sv]
      constructor
      · rintro (⟨⟨S, rfl⟩, h⟩ | ⟨⟨i', hi', S, rfl⟩, h⟩)
        · exact ⟨⟨i, List.mem_cons_self _ _, S, rfl⟩, h⟩
        · exact ⟨⟨i', List.mem_cons_of_mem _ hi', S, rfl⟩, h⟩
      · rintro ⟨⟨i', hi', S, rfl⟩, h⟩
        rcases List.mem_cons.mp hi' with heq | hi''
        · exact Or.inl ⟨⟨S, by rw [heq]⟩, h⟩
        · exact Or.inr ⟨⟨i', hi'', S, rfl⟩, h⟩
    · rw [List.map_append]
      refine List.Nodup.append hnd₁ hnd₂ ?_
      intro q hq1 hq2
      obtain ⟨pr, hpr, rfl⟩ := List.mem_map.mp hq1
      obtain ⟨pr', hpr', hpr'eq⟩ := List.mem_map.mp hq2
      obtain ⟨⟨S, hSe⟩, _⟩ := (hiff₁ pr.1 pr.2).mp hpr
      obtain ⟨⟨i', hi', S', hS'e⟩, _⟩ := (hiff₂ pr'.1 pr'.2).mp hpr'
      have heq : P ++ i :: S = P ++ i' :: S' := by
        rw [← hSe, ← hpr'eq, hS'e]
      have hceq := List.append_cancel_left heq
      injection hceq with h1 _
      exact (List.nodup_cons.mp hndis).1 (by rw [h1]; exact hi')

/-- C `recurse` in ALL mode under a non-failing reporter, with canonical
extensions and enough fuel: it returns a nonnegative value, restores the
occurrence records and the reporter stack, and appends to the output exactly
the proper frequent extensions of `P` whose size lies in `[zmin, zmax]`, each
once with its support. -/
lemma recurse_all_spec (bag : List Trans) (rd : RecData)
    (hmode : rd.modeClosed = false) (hfail : ∀ k, rd.failAt k = false)
    (hsmin : 1 ≤ rd.smin) (hvb : ValidBag bag rd.cnt) :
    ∀ (fuel : Nat) (P : List Nat) (exts : Nat → PatExt) (z : Nat) (st : MState),
      rd.zmax + 1 - P.length ≤ fuel →
      (∀ t, exts t = canonExt bag P t) →
      OccsMatch st bag →
      st.rep.stack.map Prod.fst = P →
      0 ≤ (recurse fuel exts z P.length rd st).1
      ∧ (recurse fuel exts z P.length rd st).2.occs = st.occs
      ∧ (recurse fuel exts z P.length rd st).2.rep.stack = st.rep.stack
      ∧ ∃ Δ, (recurse fuel exts z P.length rd st).2.rep.out = st.rep.out ++ Δ
        ∧ (∀ q sv, (q, sv) ∈ Δ ↔ ((∃ i S, q = P ++ i :: S) ∧ sv = support bag q
            ∧ rd.smin ≤ sv ∧ rd.zmin ≤ q.length ∧ q.length ≤ rd.zmax))
        ∧ (Δ.map Prod.fst).Nodup := by
  intro fuel
  induction fuel with
  | zero =>
    intro P exts z st hf hexts hocc hstk
    refine ⟨le_refl 0, rfl, rfl, [], by simp [recurse], ?_, by simp⟩
    intro q sv
    simp only [List.not_mem_nil, false_iff]
    rintro ⟨⟨i, S, rfl⟩, _, _, _, hz2⟩
    have hql : (P ++ i :: S).length = P.length + 1 + S.length := by
      simp [List.length_append]
      omega
    omega
  | succ fuel ih =>
    intro P exts z st hf hexts hocc hstk
    have hrec : ∀ (i : Nat) (c : Nat → PatExt) (zc : Nat) (st' : MState),
        (∀ t, c t = canonExt bag (P ++ [i]) t) →
        OccsMatch st' bag →
        st'.rep.stack.map Prod.fst = P ++ [i] →
        P.length + 1 ≤ rd.zmax →
        0 ≤ (recurse fuel c zc (P.length + 1) rd st').1
        ∧ (recurse fuel c zc (P.length + 1) rd st').2.occs = st'.occs
        ∧ (recurse fuel c zc (P.length + 1) rd st').2.rep.stack = st'.rep.stack
        ∧ ∃ Δ, (recurse fuel c zc (P.length + 1) rd st').2.rep.out
              = st'.rep.out ++ Δ
          ∧ (∀ q sv, (q, sv) ∈ Δ ↔ ((∃ j S, q = (P ++ [i]) ++ j :: S)
              ∧ sv = support bag q ∧ rd.smin ≤ sv
              ∧ rd.zmin ≤ q.length ∧ q.length ≤ rd.zmax))
          ∧ (Δ.map Prod.fst).Nodup := by
      intro i c zc st' hc hocc' hstk' hlen
      have hlp : (P ++ [i]).length = P.length + 1 := by simp
      have h := ih (P ++ [i]) c zc st' (by rw [hlp]; omega) hc hocc' hstk'
      rw [hlp] at h
      exact h
    obtain ⟨s₁, mx₁, st₁, hfold, hs₁, hmx₁, hocc₁, hstk₁, Δ, hout, hiff, hnd⟩ :=
      itemFold_all_spec bag rd hmode hfail hsmin hvb P exts hexts
        (fun c zc st' => recurse fuel c zc (P.length + 1) rd st') hrec
        (List.range rd.cnt) (List.nodup_range rd.cnt) 0 0 st
        (le_refl 0) (le_refl 0) hocc hstk
    have hred : recurse (fuel + 1) exts z P.length rd st
        = ((if s₁ < 0 then s₁ else mx₁), st₁) := by
      simp only [recurse]
      rw [hfold]
    rw [hred, if_neg (not_lt.mpr hs₁)]
    refine ⟨hmx₁, hocc₁, hstk₁, Δ, hout, ?_, hnd⟩
    intro q sv
    rw [hiff q sv]
    constructor
    · rintro ⟨⟨i, _, S, rfl⟩, h⟩
      exact ⟨⟨i, S, rfl⟩, h⟩
    · rintro ⟨⟨i, S, rfl⟩, hsv, hsm, hz1, hz2⟩
      refine ⟨⟨i, ?_, S, rfl⟩, hsv, hsm, hz1, hz2⟩
      rw [List.mem_range]
      by_contra hge
      have hpos : (0 : Int) < support bag (P ++ i :: S) := by omega
      obtain ⟨tr, htr, hsub⟩ := exists_embed_of_support_pos bag _ hpos
      have hi : i ∈ tr.items := hsub.subset (by simp)
      exact hge ((hvb tr htr).2.1 i hi)

/-- The initial engine state's occurrence records agree with the bag. -/
lemma initState_occsMatch (bag : List Trans) (ips0 : Nat → Nat → Nat) :
    OccsMatch (initState bag ips0) bag := by
  constructor
  · show (mkOccs bag ips0).length = bag.length
    simp [mkOccs, List.enum_length]
  · intro jt hjt
    have hm := List.mk_mem_enum_iff_getElem?.mp
      (show (jt.1, jt.2) ∈ bag.enum from hjt)
    obtain ⟨hlt, he⟩ := List.getElem?_eq_some.mp hm
    have hlt' : jt.1 < (mkOccs bag ips0).length := by
      simpa [mkOccs, List.enum_length] using hlt
    have hocc : occAt (initState bag ips0).occs jt.1
        = ⟨jt.2.wgt, jt.2.items, ips0 jt.1⟩ := by
      show (mkOccs bag ips0).getD jt.1 dummyOcc = _
      rw [List.getD_eq_getElem _ _ hlt']
      simp [mkOccs, List.getElem_enum, he]
    exact ⟨by rw [hocc], by rw [hocc]⟩

/-- C2: in ALL mode, on a bag with duplicate-free transactions, positive
weights, in-range item ids and a positive minimum support, the engine plus
its (non-failing) reporter emit exactly the sequences whose support reaches
`smin` and whose length lies in `[zmin, zmax]`, each once and with its
support. -/
theorem c2_all_mode_exact (bag : List Trans) (smin : Int) (cnt zmin zmax : Nat)
    (target : Bool) (ips0 : Nat → Nat → Nat)
    (hvb : ValidBag bag cnt) (hsmin : 1 ≤ smin) :
    (∀ q s, (q, s) ∈ (sequoiaFn bag target smin false cnt zmin zmax noFail
        ips0).2.rep.out
      ↔ (s = support bag q ∧ smin ≤ support bag q
          ∧ zmin ≤ q.length ∧ q.length ≤ zmax))
    ∧ ((sequoiaFn bag target smin false cnt zmin zmax noFail ips0).2.rep.out.map
        Prod.fst).Nodup := by
  have hw : ∀ t ∈ bag, 0 ≤ t.wgt := fun t ht => le_trans (by norm_num) ((hvb t ht).2.2)
  have hnd : ∀ tr ∈ bag, tr.items.Nodup := fun tr htr => (hvb tr htr).1
  have hsmin' : (if 0 < smin then smin else 1) = smin := if_pos (by omega)
  by_cases hW : totalWgt bag < smin
  · have hres : sequoiaFn bag target smin false cnt zmin zmax noFail ips0
        = (0, initState bag ips0) := by
      simp only [sequoiaFn, hsmin']
      rw [if_pos hW]
    rw [hres]
    refine ⟨?_, by simp [initState]⟩
    intro q s
    simp only [initState, List.not_mem_nil, false_iff]
    rintro ⟨rfl, hsm, _, _⟩
    have := support_le_total bag hw q
    omega
  · by_cases hcnt : cnt = 0
    · have hres : sequoiaFn bag target smin false cnt zmin zmax noFail ips0
          = isrReport ⟨target, false, cnt, zmax, smin, zmin, totalWgt bag, noFail⟩
              (initState bag ips0) := by
        simp only [sequoiaFn, hsmin']
        rw [if_neg hW, if_pos hcnt]
      have houtFinal : (sequoiaFn bag target smin false cnt zmin zmax noFail
          ips0).2.rep.out
          = if zmin ≤ (0 : Nat) ∧ (0 : Nat) ≤ zmax
            then [(([] : List Nat), totalWgt bag)] else [] := by
        rw [hres, isrReport_noFail _ _ rfl]
        rfl
      rw [houtFinal]
      constructor
      · intro q s
        by_cases hC0 : zmin = 0
        · rw [if_pos ⟨by omega, Nat.zero_le _⟩]
          constructor
          · intro hm
            simp only [List.mem_singleton, Prod.mk.injEq] at hm
            obtain ⟨rfl, rfl⟩ := hm
            refine ⟨(support_nil_eq bag).symm, ?_, by simp [hC0], by simp⟩
            rw [support_nil_eq]
            omega
          · rintro ⟨rfl, hsm, hz1, hz2⟩
            cases q with
            | nil =>
              simp only [List.mem_singleton, Prod.mk.injEq]
              exact ⟨trivial, support_nil_eq bag⟩
            | cons t q2 =>
              exfalso
              have hpos : (0 : Int) < support bag (t :: q2) := by omega
              obtain ⟨tr, htr, hsub⟩ := exists_embed_of_support_pos bag _ hpos
              have hti : t ∈ tr.items := hsub.subset (by simp)
              have := (hvb tr htr).2.1 t hti
              omega
        · rw [if_neg (fun h => hC0 (Nat.le_zero.mp h.1))]
          simp only [List.not_mem_nil, false_iff]
          rintro ⟨rfl, hsm, hz1, hz2⟩
          cases q with
          | nil =>
            simp only [List.length_nil] at hz1
            exact hC0 (Nat.le_zero.mp hz1)
          | cons t q2 =>
            have hpos : (0 : Int) < support bag (t :: q2) := by omega
            obtain ⟨tr, htr, hsub⟩ := exists_embed_of_support_pos bag _ hpos
            have hti : t ∈ tr.items := hsub.subset (by simp)
            have := (hvb tr htr).2.1 t hti
            omega
      · by_cases hC0 : zmin = 0
        · rw [if_pos ⟨by omega, Nat.zero_le _⟩]
          simp
        · rw [if_neg (fun h => hC0 (Nat.le_zero.mp h.1))]
          simp
    · have hmain := recurse_all_spec bag
        ⟨target, false, cnt, zmax, smin, zmin, totalWgt bag, noFail⟩
        rfl (fun _ => rfl) hsmin hvb (zmax + 1) [] (rootExts bag) (extent bag)
        (initState bag ips0) (by simp) (rootExts_canon bag hnd)
        (initState_occsMatch bag ips0) rfl
      simp only [List.length_nil] at hmain
      obtain ⟨hr0, hrocc, hrstk, Δ, hrout, hriff, hrnd⟩ := hmain
      have hres : sequoiaFn bag target smin false cnt zmin zmax noFail ips0
          = ((if (isrReport ⟨target, false, cnt, zmax, smin, zmin, totalWgt bag,
                noFail⟩ (recurse (zmax + 1) (rootExts bag) (extent bag) 0
                ⟨target, false, cnt, zmax, smin, zmin, totalWgt bag, noFail⟩
                (initState bag ips0)).2).1 < 0
              then (isrReport ⟨target, false, cnt, zmax, smin, zmin, totalWgt bag,
                noFail⟩ (recurse (zmax + 1) (rootExts bag) (extent bag) 0
                ⟨target, false, cnt, zmax, smin, zmin, totalWgt bag, noFail⟩
                (initState bag ips0)).2).1 else 0),
             (isrReport ⟨target, false, cnt, zmax, smin, zmin, totalWgt bag,
                noFail⟩ (recurse (zmax + 1) (rootExts bag) (extent bag) 0
                ⟨target, false, cnt, zmax, smin, zmin, totalWgt bag, noFail⟩
                (initState bag ips0)).2).2) := by
        simp only [sequoiaFn, hsmin']
        rw [if_neg hW, if_neg hcnt, if_pos ⟨hr0, Or.inr (by simp)⟩]
      have houtFinal : (sequoiaFn bag target smin false cnt zmin zmax noFail
          ips0).2.rep.out
          = if zmin ≤ (0 : Nat) ∧ (0 : Nat) ≤ zmax
            then Δ ++ [(([] : List Nat), totalWgt bag)] else Δ := by
        rw [hres]
        show (isrReport ⟨target, false, cnt, zmax, smin, zmin, totalWgt bag,
            noFail⟩ (recurse (zmax + 1) (rootExts bag) (extent bag) 0
            ⟨target, false, cnt, zmax, smin, zmin, totalWgt bag, noFail⟩
            (initState bag ips0)).2).2.rep.out = _
        rw [isrReport_noFail _ _ rfl, hrstk, hrout]
        rfl
      rw [houtFinal]
      constructor
      · intro q s
        by_cases hC0 : zmin = 0
        · rw [if_pos ⟨by omega, Nat.zero_le _⟩]
          rw [List.mem_append]
          constructor
          · rintro (hm | hm)
            · obtain ⟨⟨i, S, rfl⟩, rfl, hsm, hz1, hz2⟩ := (hriff q s).mp hm
              exact ⟨rfl, hsm, hz1, hz2⟩
            · simp only [List.mem_singleton, Prod.mk.injEq] at hm
              obtain ⟨rfl, rfl⟩ := hm
              refine ⟨(support_nil_eq bag).symm, ?_, by simp [hC0], by simp⟩
              rw [support_nil_eq]
              omega
          · rintro ⟨rfl, hsm, hz1, hz2⟩
            cases q with
            | nil =>
              refine Or.inr ?_
              simp only [List.mem_singleton, Prod.mk.injEq]
              exact ⟨trivial, support_nil_eq bag⟩
            | cons t q2 =>
              exact Or.inl ((hriff _ _).mpr ⟨⟨t, q2, rfl⟩, rfl, hsm, hz1, hz2⟩)
        · rw [if_neg (fun h => hC0 (Nat.le_zero.mp h.1))]
          constructor
          · intro hm
            obtain ⟨⟨i, S, rfl⟩, rfl, hsm, hz1, hz2⟩ := (hriff q s).mp hm
            exact ⟨rfl, hsm, hz1, hz2⟩
          · rintro ⟨rfl, hsm, hz1, hz2⟩
            cases q with
            | nil =>
              simp only [List.length_nil] at hz1
              exact absurd (Nat.le_zero.mp hz1) hC0
            | cons t q2 =>
              exact (hriff _ _).mpr ⟨⟨t, q2, rfl⟩, rfl, hsm, hz1, hz2⟩
      · by_cases hC0 : zmin = 0
        · rw [if_pos ⟨by omega, Nat.zero_le _⟩]
          rw [List.map_append]
          refine List.Nodup.append hrnd (by simp) ?_
          intro q hq1 hq2
          simp only [List.map_cons, List.map_nil, List.mem_singleton] at hq2
          obtain ⟨pr, hpr, rfl⟩ := List.mem_map.mp hq1
          obtain ⟨⟨i, S, hshape⟩, _⟩ := (hriff pr.1 pr.2).mp hpr
          rw [hq2] at hshape
          simp at hshape
        · rw [if_neg (fun h => hC0 (Nat.le_zero.mp h.1))]
          exact hrnd

/-- Witness for `c2_all_mode_exact` on the first scenario bag: the hypotheses
hold and the conclusion is obtained by the theorem itself. -/
theorem c2_all_mode_exact_witness :
    ValidBag bagS2 3 ∧ (1 : Int) ≤ 2 ∧
    ((∀ q s, (q, s) ∈ (sequoiaFn bagS2 false 2 false 3 1 4 noFail
        junkIps).2.rep.out
      ↔ (s = support bagS2 q ∧ 2 ≤ support bagS2 q
          ∧ 1 ≤ q.length ∧ q.length ≤ 4))
    ∧ ((sequoiaFn bagS2 false 2 false 3 1 4 noFail junkIps).2.rep.out.map
        Prod.fst).Nodup) :=
  ⟨by decide, by decide,
    c2_all_mode_exact bagS2 2 3 1 4 false junkIps (by decide) (by decide)⟩

/-- `isr_report` never touches the occurrence records. -/
lemma isrReport_occs (rd : RecData) (st : MState) :
    (isrReport rd st).2.occs = st.occs := by
  simp only [isrReport]
  split <;> rfl

/-- `reportPhase` never touches the occurrence records, in either outcome. -/
lemma reportPhase_occs (rd : RecData) (e : PatExt) (s mx : Int) (st : MState) :
    Sum.elim (fun t : Int × Int × MState => t.2.2.occs)
      (fun p : Int × MState => p.2.occs) (reportPhase rd e s mx st) = st.occs := by
  simp only [reportPhase]
  split
  · split
    · simp only [Sum.elim_inr]
      exact isrReport_occs rd st
    · simp only [Sum.elim_inl]
      exact isrReport_occs rd st
  · simp only [Sum.elim_inl]
    rfl

/-- `extendPhase` never touches the occurrence records when the recursive call
does not. -/
lemma extendPhase_occs (recur : (Nat → PatExt) → Nat → MState → Int × MState)
    (rd : RecData) (e : PatExt) (hc : Bool) (s mx : Int) (st : MState)
    (hrec : ∀ c zc st', (recur c zc st').2.occs = st'.occs) :
    Sum.elim (fun t : Int × Int × MState => t.2.2.occs)
      (fun p : Int × MState => p.2.occs) (extendPhase recur rd e hc s mx st)
      = st.occs := by
  simp only [extendPhase]
  split
  · split
    · split
      · simp only [Sum.elim_inr]
        exact hrec _ _ _
      · exact (reportPhase_occs rd e _ mx _).trans (hrec _ _ _)
    · exact reportPhase_occs rd e s mx st
  · exact reportPhase_occs rd e 0 mx st

/-- One extension-loop step in ALL mode never touches the occurrence records. -/
lemma itemStep_occs (recur : (Nat → PatExt) → Nat → MState → Int × MState)
    (rd : RecData) (exts : Nat → PatExt) (len' : Nat) (hc : Bool)
    (hmode : rd.modeClosed = false)
    (hrec : ∀ c zc st', (recur c zc st').2.occs = st'.occs) :
    ∀ (acc : RAcc) (i : Nat),
      Sum.elim (fun t : Int × Int × MState => t.2.2.occs)
        (fun p : Int × MState => p.2.occs) (itemStep recur rd exts len' hc acc i)
      = Sum.elim (fun t : Int × Int × MState => t.2.2.occs)
        (fun p : Int × MState => p.2.occs) acc := by
  intro acc i
  cases acc with
  | inr r => rfl
  | inl t =>
    obtain ⟨s, mx, st⟩ := t
    simp only [itemStep, hmode, Bool.false_eq_true, if_false, false_and]
    by_cases h1 : (exts i).supp < rd.smin
    · rw [if_pos h1]
    · rw [if_neg h1]
      exact extendPhase_occs recur rd (exts i) hc s _ _ hrec

/-- Preservation of a `Sum.elim` observation along a fold. -/
lemma foldl_elim_pres {β : Type} (F : Int × Int × MState → β) (G : Int × MState → β)
    (f : RAcc → Nat → RAcc)
    (hstep : ∀ acc i, Sum.elim F G (f acc i) = Sum.elim F G acc) :
    ∀ (l : List Nat) (acc : RAcc), Sum.elim F G (l.foldl f acc) = Sum.elim F G acc := by
  intro l
  induction l with
  | nil => intro acc; rfl
  | cons i l ih =>
    intro acc
    rw [List.foldl_cons, ih (f acc i), hstep acc i]

/-- In ALL mode `recurse` never modifies the occurrence records (anchors
included): no `ips` write is reachable when the closedness test is skipped. -/
lemma recurse_occs (rd : RecData) (hmode : rd.modeClosed = false) :
    ∀ (fuel : Nat) (exts : Nat → PatExt) (z len : Nat) (st : MState),
      (recurse fuel exts z len rd st).2.occs = st.occs := by
  intro fuel
  induction fuel with
  | zero => intro exts z len st; rfl
  | succ fuel ih =>
    intro exts z len st
    have hfold := foldl_elim_pres (fun t : Int × Int × MState => t.2.2.occs)
      (fun p : Int × MState => p.2.occs)
      (itemStep (fun c zc st' => recurse fuel c zc (len + 1) rd st') rd exts
        (len + 1) (decide (len + 1 ≤ rd.zmax)))
      (itemStep_occs _ rd exts (len + 1) _ hmode (fun c zc st' => ih c zc _ st'))
      (List.range rd.cnt) (Sum.inl (0, 0, st))
    simp only [recurse]
    rcases hd : (List.range rd.cnt).foldl
        (itemStep (fun c zc st' => recurse fuel c zc (len + 1) rd st') rd exts
          (len + 1) (decide (len + 1 ≤ rd.zmax))) (Sum.inl (0, 0, st)) with t | p
    · obtain ⟨s, mx, st'⟩ := t
      rw [hd] at hfold
      exact hfold
    · rw [hd] at hfold
      exact hfold

/-- Reading a rewritten occurrence list somewhere else. -/
lemma occAt_set_ne (occs : List PatOcc) (k : Nat) (v : PatOcc) (j : Nat)
    (h : k ≠ j) : occAt (occs.set k v) j = occAt occs j := by
  unfold occAt
  rw [List.getD_eq_getElem?_getD (occs.set k v) j dummyOcc,
    List.getElem?_set_ne h, ← List.getD_eq_getElem?_getD]

/-- Reading a rewritten occurrence list at the written index. -/
lemma occAt_set_self (occs : List PatOcc) (k : Nat) (v : PatOcc)
    (h : k < occs.length) : occAt (occs.set k v) k = v := by
  unfold occAt
  rw [List.getD_eq_getElem?_getD,
    List.getElem?_set_self ((occs.length_set k v) ▸ h)]
  rfl

/-- `writeAnchors` leaves occurrence records outside the written set untouched. -/
lemma writeAnchors_other (idx : Nat) :
    ∀ (oxs : List OccExt) (occs : List PatOcc) (j : Nat),
      j ∉ oxs.map OccExt.occ →
      occAt (writeAnchors occs oxs idx) j = occAt occs j := by
  intro oxs
  induction oxs with
  | nil => intro occs j _; rfl
  | cons y oxs ih =>
    intro occs j hj
    have hjy : y.occ ≠ j := fun h => hj (by simp [← h])
    have h2 := ih (occs.set y.occ
        { occAt occs y.occ with
          ips := Function.update (occAt occs y.occ).ips idx y.item }) j
        (fun h => hj (List.mem_cons_of_mem _ h))
    have h3 := occAt_set_ne occs y.occ
        { occAt occs y.occ with
          ips := Function.update (occAt occs y.occ).ips idx y.item } j hjy
    exact h2.trans h3

/-- After `writeAnchors`, every written occurrence extension has its anchor at
`idx` set to its item position (occurrence indices pairwise distinct and in
bounds). -/
lemma writeAnchors_get (idx : Nat) :
    ∀ (oxs : List OccExt) (occs : List PatOcc),
      (oxs.map OccExt.occ).Nodup →
      (∀ x ∈ oxs, x.occ < occs.length) →
      ∀ x ∈ oxs, (occAt (writeAnchors occs oxs idx) x.occ).ips idx = x.item := by
  intro oxs
  induction oxs with
  | nil => intro occs _ _ x hx; exact absurd hx (List.not_mem_nil x)
  | cons y oxs ih =>
    intro occs hnd hbnd x hx
    rcases List.mem_cons.mp hx with rfl | hx2
    · have hnotin : x.occ ∉ oxs.map OccExt.occ := (List.nodup_cons.mp hnd).1
      have h2 := writeAnchors_other idx oxs (occs.set x.occ
          { occAt occs x.occ with
            ips := Function.update (occAt occs x.occ).ips idx x.item }) x.occ hnotin
      have h3 := occAt_set_self occs x.occ
          { occAt occs x.occ with
            ips := Function.update (occAt occs x.occ).ips idx x.item }
          (hbnd x (List.mem_cons_self _ _))
      have h4 := congrArg (fun o : PatOcc => o.ips idx) (h2.trans h3)
      exact h4.trans (by simp)
    · have hbnd2 : ∀ w ∈ oxs, w.occ < (occs.set y.occ
          { occAt occs y.occ with
            ips := Function.update (occAt occs y.occ).ips idx y.item }).length := by
        intro w hw
        rw [List.length_set]
        exact hbnd w (List.mem_cons_of_mem _ hw)
      exact ih _ (List.nodup_cons.mp hnd).2 hbnd2 x hx2

/-- C7 (amended): the anchor writes `x.occ->ips[depth] = x.item` are performed
by `closed` itself, hence only in closed mode — after they run (and before the
gap scan reads them and before the projection loop runs on the resulting
state), every occurrence extension of the processed item is anchored; in ALL
mode `recurse` performs no `ips` write at all, leaving the occurrence records
exactly as they were. -/
theorem c7_anchor_writes (e : PatExt) (n : Nat) (rd : RecData) (st : MState)
    (hnd : (e.oxs.map OccExt.occ).Nodup)
    (hbnd : ∀ x ∈ e.oxs, x.occ < st.occs.length)
    (rd' : RecData) (hmode : rd'.modeClosed = false)
    (fuel : Nat) (exts : Nat → PatExt) (z len : Nat) (st' : MState) :
    (∀ x ∈ e.oxs,
      (occAt (closedFn e n rd st).2.occs x.occ).ips (n - 1) = x.item)
    ∧ (recurse fuel exts z len rd' st').2.occs = st'.occs := by
  constructor
  · intro x hx
    show (occAt (writeAnchors st.occs e.oxs (n - 1)) x.occ).ips (n - 1) = x.item
    exact writeAnchors_get (n - 1) e.oxs st.occs hnd hbnd x hx
  · exact recurse_occs rd' hmode fuel exts z len st'

/-- Witness for `c7_anchor_writes`: the two-occurrence extension of the first
scenario bag gets both anchors written by `closed`, and an ALL-mode `recurse`
run returns the occurrence records untouched. -/
theorem c7_anchor_writes_witness :
    ((([⟨1, 0⟩, ⟨0, 1⟩] : List OccExt).map OccExt.occ).Nodup
     ∧ (∀ x ∈ ([⟨1, 0⟩, ⟨0, 1⟩] : List OccExt),
          x.occ < (initState bagS2 junkIps).occs.length)
     ∧ (⟨false, false, 3, 4, 2, 1, 6, noFail⟩ : RecData).modeClosed = false)
    ∧ ((∀ x ∈ ([⟨1, 0⟩, ⟨0, 1⟩] : List OccExt),
        (occAt (closedFn ⟨2, [⟨1, 0⟩, ⟨0, 1⟩]⟩ 1
          ⟨false, true, 3, 4, 2, 1, 6, noFail⟩
          (initState bagS2 junkIps)).2.occs x.occ).ips 0 = x.item)
      ∧ (recurse 2 (rootExts bagS2) 3 0
          ⟨false, false, 3, 4, 2, 1, 6, noFail⟩
          (initState bagS2 junkIps)).2.occs = (initState bagS2 junkIps).occs) :=
  ⟨⟨by decide, by decide, rfl⟩,
   c7_anchor_writes ⟨2, [⟨1, 0⟩, ⟨0, 1⟩]⟩ 1 ⟨false, true, 3, 4, 2, 1, 6, noFail⟩
     (initState bagS2 junkIps) (by decide) (by decide)
     ⟨false, false, 3, 4, 2, 1, 6, noFail⟩ rfl 2 (rootExts bagS2) 3 0
     (initState bagS2 junkIps)⟩

/-! ## Canonical shape of the weighted extensions (claim C9) -/

/-- The item id at a position, read through `witemAt`, equals the id list read
with default `0`. -/
lemma idsOf_getD (l : List WItem) (p : Nat) :
    (l.getD p wdummyItem).item = (idsOf l).getD p 0 := by
  rw [List.getD_eq_getElem?_getD, List.getD_eq_getElem?_getD]
  unfold idsOf
  rw [List.getElem?_map]
  cases l[p]? <;> rfl

/-- Filtering and projecting `enum` entries by their payload (generic version). -/
lemma enum_filter_map_snd_any {α β : Type} (l : List α) (p : α → Bool)
    (f : α → β) :
    (l.enum.filter (fun jt => p jt.2)).map (fun jt => f jt.2)
      = (l.filter p).map f := by
  conv_rhs => rw [show l = l.enum.map Prod.snd from (List.enumFrom_map_snd 0 l).symm]
  rw [List.filter_map, List.map_map]
  rfl

/-- Effect of one weighted transaction's position walk on one item slot. -/
lemma wposStep_fold (j : Nat) (tr : WTrans) :
    ∀ (ps : List Nat) (ex : Nat → WPatExt) (t : Nat),
      ((ps.foldl (wposStep j tr) ex) t).supp
        = (ex t).supp
          + tr.wgt * ((ps.filter
              (fun p => decide ((idsOf tr.items).getD p 0 = t))).length : Int)
      ∧ ((ps.foldl (wposStep j tr) ex) t).oxs
        = (ex t).oxs
          ++ (ps.filter (fun p => decide ((idsOf tr.items).getD p 0 = t))).map
              (fun p => (⟨p, j⟩ : WOccExt)) := by
  intro ps
  induction ps with
  | nil => intro ex t; simp
  | cons p ps ih =>
    intro ex t
    simp only [List.foldl_cons, List.filter_cons]
    by_cases ht : (idsOf tr.items).getD p 0 = t
    · rw [if_pos (decide_eq_true ht)]
      have hstep : (wposStep j tr ex p) t
          = ⟨(ex t).supp + tr.wgt, (ex t).oxs ++ [⟨p, j⟩]⟩ := by
        simp only [wposStep]
        rw [show (tr.items.getD p wdummyItem).item = t from
          (idsOf_getD tr.items p).trans ht, Function.update_same]
      rcases ih (wposStep j tr ex p) t with ⟨h1, h2⟩
      rw [h1, h2, hstep]
      constructor
      · simp only [List.length_cons]
        push_cast
        ring
      · simp
    · rw [if_neg (fun hd => ht (of_decide_eq_true hd))]
      have hstep : (wposStep j tr ex p) t = ex t := by
        simp only [wposStep]
        rw [idsOf_getD tr.items p]
        rw [Function.update_noteq (fun h => ht h.symm)]
      rcases ih (wposStep j tr ex p) t with ⟨h1, h2⟩
      rw [h1, h2, hstep]
      exact ⟨rfl, rfl⟩

/-- Effect of one weighted occurrence's tail walk on one item slot. -/
lemma wtailStep_fold (o : WPatOcc) (j : Nat) :
    ∀ (ps : List Nat) (cz : (Nat → WPatExt) × Nat) (t : Nat),
      ((ps.foldl (wtailStep o j) cz).1 t).supp
        = (cz.1 t).supp
          + o.wgt * ((ps.filter
              (fun p => decide ((idsOf o.items).getD p 0 = t))).length : Int)
      ∧ ((ps.foldl (wtailStep o j) cz).1 t).oxs
        = (cz.1 t).oxs
          ++ (ps.filter (fun p => decide ((idsOf o.items).getD p 0 = t))).map
              (fun p => (⟨p, j⟩ : WOccExt)) := by
  intro ps
  induction ps with
  | nil => intro cz t; simp
  | cons p ps ih =>
    intro cz t
    simp only [List.foldl_cons, List.filter_cons]
    by_cases ht : (idsOf o.items).getD p 0 = t
    · rw [if_pos (decide_eq_true ht)]
      have hstep : (wtailStep o j cz p).1 t
          = ⟨(cz.1 t).supp + o.wgt, (cz.1 t).oxs ++ [⟨p, j⟩]⟩ := by
        simp only [wtailStep]
        rw [show (witemAt o p).item = t from
          (idsOf_getD o.items p).trans ht, Function.update_same]
      rcases ih (wtailStep o j cz p) t with ⟨h1, h2⟩
      rw [h1, h2, hstep]
      constructor
      · simp only [List.length_cons]
        push_cast
        ring
      · simp
    · rw [if_neg (fun hd => ht (of_decide_eq_true hd))]
      have hstep : (wtailStep o j cz p).1 t = cz.1 t := by
        simp only [wtailStep]
        rw [show witemAt o p = o.items.getD p wdummyItem from rfl,
          idsOf_getD o.items p]
        rw [Function.update_noteq (fun h => ht h.symm)]
      rcases ih (wtailStep o j cz p) t with ⟨h1, h2⟩
      rw [h1, h2, hstep]
      exact ⟨rfl, rfl⟩

/-- Canonical shape of the weighted root construction. -/
lemma wrootFold_canon :
    ∀ (el : List (Nat × WTrans)) (ex : Nat → WPatExt) (t : Nat),
      (∀ jt ∈ el, (idsOf jt.2.items).Nodup) →
      ((el.foldl wrootStep ex) t).supp
        = (ex t).supp
          + ((el.filter (fun jt => decide ([t].Sublist (idsOf jt.2.items)))).map
              (fun jt => jt.2.wgt)).sum
      ∧ ((el.foldl wrootStep ex) t).oxs
        = (ex t).oxs ++ el.filterMap (fun jt =>
            if [t].Sublist (idsOf jt.2.items)
            then some ⟨(idsOf jt.2.items).indexOf t, jt.1⟩ else none) := by
  intro el
  induction el with
  | nil => intro ex t _; simp
  | cons jt el ih =>
    intro ex t hnd
    have hndj := hnd jt (List.mem_cons_self _ _)
    simp only [List.foldl_cons, List.filter_cons, List.filterMap_cons]
    have hr := wposStep_fold jt.1 jt.2 (List.range jt.2.items.length) ex t
    have hlen : jt.2.items.length = (idsOf jt.2.items).length :=
      (List.length_map _ _).symm
    rw [hlen] at hr
    rw [filter_range_positions (idsOf jt.2.items) hndj t] at hr
    have hstep : wrootStep ex jt
        = (List.range jt.2.items.length).foldl (wposStep jt.1 jt.2) ex := rfl
    rcases ih (wrootStep ex jt) t (fun x hx => hnd x (List.mem_cons_of_mem _ hx)) with
      ⟨ih1, ih2⟩
    rw [ih1, ih2, hstep, hlen]
    rcases hr with ⟨hr1, hr2⟩
    rw [hr1, hr2]
    by_cases htl : t ∈ idsOf jt.2.items
    · rw [if_pos htl,
        if_pos (decide_eq_true (List.singleton_sublist.mpr htl)),
        if_pos (List.singleton_sublist.mpr htl)]
      constructor
      · simp only [List.length_singleton, List.map_cons, List.sum_cons]
        push_cast
        ring
      · simp
    · rw [if_neg htl,
        if_neg (fun hd => htl (List.singleton_sublist.mp (of_decide_eq_true hd))),
        if_neg (fun hd => htl (List.singleton_sublist.mp hd))]
      constructor
      · simp
      · simp

/-- The weighted root extensions are canonical for the empty pattern. -/
lemma rootWExts_canon (bag : List WTrans)
    (hbag : ∀ tr ∈ bag, (idsOf tr.items).Nodup) :
    ∀ t, rootWExts bag t = wcanonExt bag [] t := by
  intro t
  have h := wrootFold_canon bag.enum (fun _ => ⟨0, []⟩) t
    (fun jt hjt => hbag jt.2 (snd_mem_of_mem_enum hjt))
  have heta : rootWExts bag t
      = ⟨(bag.enum.foldl wrootStep (fun _ => ⟨0, []⟩) t).supp,
         (bag.enum.foldl wrootStep (fun _ => ⟨0, []⟩) t).oxs⟩ := rfl
  rw [heta, h.1, h.2]
  unfold wcanonExt wcanonOxs wsupport
  have hb : ((bag.enum.filter (fun jt => decide ([t].Sublist (idsOf jt.2.items)))).map
        (fun jt => jt.2.wgt)).sum
      = ((bag.filter (fun tr => decide ([t].Sublist (idsOf tr.items)))).map
          WTrans.wgt).sum := by
    rw [enum_filter_map_snd_any bag
      (fun tr => decide ([t].Sublist (idsOf tr.items))) WTrans.wgt]
  rw [hb]
  simp

/-- Canonical shape of the weighted projection loop, one embedding transaction
at a time. -/
lemma wcondFold_canon (st : WMState) (P : List Nat) (i : Nat) :
    ∀ (el : List (Nat × WTrans)) (cz : (Nat → WPatExt) × Nat),
      (∀ jt ∈ el, (idsOf jt.2.items).Nodup
        ∧ (woccAt st.occs jt.1).items = jt.2.items
        ∧ (woccAt st.occs jt.1).wgt = jt.2.wgt) →
      ∀ t,
      (((el.filterMap (fun jt => if (P ++ [i]).Sublist (idsOf jt.2.items)
            then some (⟨(idsOf jt.2.items).indexOf i, jt.1⟩ : WOccExt)
            else none)).foldl (wcondStep st) cz).1 t).supp
        = (cz.1 t).supp + ((el.filter (fun jt =>
            decide ((P ++ [i] ++ [t]).Sublist (idsOf jt.2.items)))).map
            (fun jt => jt.2.wgt)).sum
      ∧ (((el.filterMap (fun jt => if (P ++ [i]).Sublist (idsOf jt.2.items)
            then some (⟨(idsOf jt.2.items).indexOf i, jt.1⟩ : WOccExt)
            else none)).foldl (wcondStep st) cz).1 t).oxs
        = (cz.1 t).oxs ++ el.filterMap (fun jt =>
            if (P ++ [i] ++ [t]).Sublist (idsOf jt.2.items)
            then some (⟨(idsOf jt.2.items).indexOf t, jt.1⟩ : WOccExt)
            else none) := by
  intro el
  induction el with
  | nil => intro cz _ t; simp
  | cons jt el ih =>
    intro cz hprops t
    obtain ⟨hndj, hitems, hwgt⟩ := hprops jt (List.mem_cons_self _ _)
    simp only [List.filterMap_cons, List.filter_cons]
    by_cases hsub : (P ++ [i]).Sublist (idsOf jt.2.items)
    · rw [if_pos hsub]
      simp only [List.foldl_cons]
      have htail : wtailPositions (woccAt st.occs jt.1)
            ((idsOf jt.2.items).indexOf i)
          = List.range' ((idsOf jt.2.items).indexOf i + 1)
              ((idsOf jt.2.items).length - ((idsOf jt.2.items).indexOf i + 1)) := by
        unfold wtailPositions
        rw [hitems, show jt.2.items.length = (idsOf jt.2.items).length from
          (List.length_map _ _).symm]
      have hcstep : wcondStep st cz ⟨(idsOf jt.2.items).indexOf i, jt.1⟩
          = (List.range' ((idsOf jt.2.items).indexOf i + 1)
              ((idsOf jt.2.items).length
                - ((idsOf jt.2.items).indexOf i + 1))).foldl
              (wtailStep (woccAt st.occs jt.1) jt.1) cz := by
        unfold wcondStep
        rw [htail]
      have ht := wtailStep_fold (woccAt st.occs jt.1) jt.1
          (List.range' ((idsOf jt.2.items).indexOf i + 1)
            ((idsOf jt.2.items).length - ((idsOf jt.2.items).indexOf i + 1))) cz t
      rw [hitems, hwgt] at ht
      rw [filter_tail_positions (idsOf jt.2.items) hndj
        ((idsOf jt.2.items).indexOf i) t] at ht
      have hcond : (t ∈ idsOf jt.2.items
            ∧ (idsOf jt.2.items).indexOf i < (idsOf jt.2.items).indexOf t)
          ↔ (P ++ [i] ++ [t]).Sublist (idsOf jt.2.items) :=
        (sublist_snoc_iff (idsOf jt.2.items) hndj P i t hsub).symm
      rcases ht with ⟨ht1, ht2⟩
      rcases ih (wcondStep st cz ⟨(idsOf jt.2.items).indexOf i, jt.1⟩)
          (fun x hx => hprops x (List.mem_cons_of_mem _ hx)) t with ⟨ih1, ih2⟩
      rw [ih1, ih2, hcstep, ht1, ht2]
      by_cases hext : (P ++ [i] ++ [t]).Sublist (idsOf jt.2.items)
      · rw [if_pos (hcond.mpr hext), if_pos (decide_eq_true hext), if_pos hext]
        refine ⟨?_, by simp⟩
        simp only [List.length_singleton, List.map_cons, List.sum_cons]
        push_cast
        ring
      · rw [if_neg (fun hc => hext (hcond.mp hc)),
          if_neg (fun hd => hext (of_decide_eq_true hd)), if_neg hext]
        exact ⟨by simp, by simp⟩
    · rw [if_neg hsub]
      have hnot : ¬ (P ++ [i] ++ [t]).Sublist (idsOf jt.2.items) :=
        fun h => hsub ((List.sublist_append_left _ _).trans h)
      rw [if_neg (fun hd => hnot (of_decide_eq_true hd)), if_neg hnot]
      rcases ih cz (fun x hx => hprops x (List.mem_cons_of_mem _ hx)) t with
        ⟨ih1, ih2⟩
      exact ⟨ih1, ih2⟩

/-- The weighted projection loop on the canonical extension of `P` by `i`
builds exactly the canonical extensions of `P ++ [i]`. -/
lemma buildWCond_canon (bag : List WTrans) (st : WMState) (P : List Nat) (i : Nat)
    (hvb : ∀ tr ∈ bag, (idsOf tr.items).Nodup) (hocc : WOccsMatch st bag) :
    ∀ t, (buildWCond st (wcanonExt bag P i)).1 t = wcanonExt bag (P ++ [i]) t := by
  have hprops : ∀ jt ∈ bag.enum, (idsOf jt.2.items).Nodup
      ∧ (woccAt st.occs jt.1).items = jt.2.items
      ∧ (woccAt st.occs jt.1).wgt = jt.2.wgt := by
    intro jt hjt
    exact ⟨hvb jt.2 (snd_mem_of_mem_enum hjt), hocc.2 jt hjt⟩
  have h := wcondFold_canon st P i bag.enum ((fun _ => ⟨0, []⟩), 0) hprops
  have hbc : buildWCond st (wcanonExt bag P i)
      = (bag.enum.filterMap (fun jt => if (P ++ [i]).Sublist (idsOf jt.2.items)
          then some (⟨(idsOf jt.2.items).indexOf i, jt.1⟩ : WOccExt)
          else none)).foldl (wcondStep st) ((fun _ => ⟨0, []⟩), 0) := rfl
  intro t
  rcases h t with ⟨h1, h2⟩
  have heta : (buildWCond st (wcanonExt bag P i)).1 t
      = ⟨((buildWCond st (wcanonExt bag P i)).1 t).supp,
         ((buildWCond st (wcanonExt bag P i)).1 t).oxs⟩ := rfl
  rw [heta, hbc, h1, h2]
  have hsupp : ((bag.enum.filter (fun jt =>
        decide ((P ++ [i] ++ [t]).Sublist (idsOf jt.2.items)))).map
        (fun jt => jt.2.wgt)).sum
      = wsupport bag (P ++ [i] ++ [t]) := by
    rw [enum_filter_map_snd_any bag
      (fun tr => decide ((P ++ [i] ++ [t]).Sublist (idsOf tr.items)))
      (fun tr => tr.wgt)]
    rfl
  rw [show ((fun (_ : Nat) => (⟨0, []⟩ : WPatExt)) t).supp = 0 from rfl,
    show ((fun (_ : Nat) => (⟨0, []⟩ : WPatExt)) t).oxs = [] from rfl]
  rw [hsupp]
  simp only [zero_add, List.nil_append]
  rfl

/-- Reading a rewritten weighted occurrence list somewhere else. -/
lemma woccAt_set_ne (occs : List WPatOcc) (k : Nat) (v : WPatOcc) (j : Nat)
    (h : k ≠ j) : woccAt (occs.set k v) j = woccAt occs j := by
  unfold woccAt
  rw [List.getD_eq_getElem?_getD (occs.set k v) j wdummyOcc,
    List.getElem?_set_ne h, ← List.getD_eq_getElem?_getD]

/-- Reading a rewritten weighted occurrence list at the written index. -/
lemma woccAt_set_self (occs : List WPatOcc) (k : Nat) (v : WPatOcc)
    (h : k < occs.length) : woccAt (occs.set k v) k = v := by
  unfold woccAt
  rw [List.getD_eq_getElem?_getD,
    List.getElem?_set_self ((occs.length_set k v) ▸ h)]
  rfl

/-- The weighted anchor writes preserve the list length. -/
lemma wwriteAnchors_length (idx : Nat) :
    ∀ (oxs : List WOccExt) (occs : List WPatOcc),
      (wwriteAnchors occs oxs idx).length = occs.length := by
  intro oxs
  induction oxs with
  | nil => intro occs; rfl
  | cons y oxs ih =>
    intro occs
    calc (wwriteAnchors occs (y :: oxs) idx).length
        = (wwriteAnchors (occs.set y.occ
            { woccAt occs y.occ with
              ips := Function.update (woccAt occs y.occ).ips idx y.item })
            oxs idx).length := rfl
      _ = (occs.set y.occ
            { woccAt occs y.occ with
              ips := Function.update (woccAt occs y.occ).ips idx y.item }).length := ih _
      _ = occs.length := List.length_set _ _ _

/-- The weighted anchor writes keep every record's transaction data and every
anchor at a different pattern index. -/
lemma wwriteAnchors_fields (idx : Nat) :
    ∀ (oxs : List WOccExt) (occs : List WPatOcc) (j : Nat),
      (woccAt (wwriteAnchors occs oxs idx) j).items = (woccAt occs j).items
      ∧ (woccAt (wwriteAnchors occs oxs idx) j).wgt = (woccAt occs j).wgt
      ∧ ∀ m, m ≠ idx →
          (woccAt (wwriteAnchors occs oxs idx) j).ips m = (woccAt occs j).ips m := by
  intro oxs
  induction oxs with
  | nil => intro occs j; exact ⟨rfl, rfl, fun _ _ => rfl⟩
  | cons y oxs ih =>
    intro occs j
    have hstep : (woccAt (occs.set y.occ
          { woccAt occs y.occ with
            ips := Function.update (woccAt occs y.occ).ips idx y.item }) j).items
          = (woccAt occs j).items
        ∧ (woccAt (occs.set y.occ
          { woccAt occs y.occ with
            ips := Function.update (woccAt occs y.occ).ips idx y.item }) j).wgt
          = (woccAt occs j).wgt
        ∧ ∀ m, m ≠ idx → (woccAt (occs.set y.occ
          { woccAt occs y.occ with
            ips := Function.update (woccAt occs y.occ).ips idx y.item }) j).ips m
          = (woccAt occs j).ips m := by
      by_cases hj : y.occ = j
      · subst hj
        by_cases hlt : y.occ < occs.length
        · rw [woccAt_set_self occs y.occ _ hlt]
          exact ⟨rfl, rfl, fun m hm => Function.update_noteq hm _ _⟩
        · rw [List.set_eq_of_length_le (by omega)]
          exact ⟨rfl, rfl, fun _ _ => rfl⟩
      · rw [woccAt_set_ne occs y.occ _ j hj]
        exact ⟨rfl, rfl, fun _ _ => rfl⟩
    obtain ⟨ih1, ih2, ih3⟩ := ih (occs.set y.occ
      { woccAt occs y.occ with
        ips := Function.update (woccAt occs y.occ).ips idx y.item }) j
    exact ⟨ih1.trans hstep.1, ih2.trans hstep.2.1,
      fun m hm => (ih3 m hm).trans (hstep.2.2 m hm)⟩

/-- The weighted anchor writes leave records outside the written set untouched. -/
lemma wwriteAnchors_other (idx : Nat) :
    ∀ (oxs : List WOccExt) (occs : List WPatOcc) (j : Nat),
      j ∉ oxs.map WOccExt.occ →
      woccAt (wwriteAnchors occs oxs idx) j = woccAt occs j := by
  intro oxs
  induction oxs with
  | nil => intro occs j _; rfl
  | cons y oxs ih =>
    intro occs j hj
    have hjy : y.occ ≠ j := fun h => hj (by simp [← h])
    have h2 := ih (occs.set y.occ
        { woccAt occs y.occ with
          ips := Function.update (woccAt occs y.occ).ips idx y.item }) j
        (fun h => hj (List.mem_cons_of_mem _ h))
    have h3 := woccAt_set_ne occs y.occ
        { woccAt occs y.occ with
          ips := Function.update (woccAt occs y.occ).ips idx y.item } j hjy
    exact h2.trans h3

/-- After the weighted anchor writes, every written occurrence extension has
its anchor at `idx` set to its item position. -/
lemma wwriteAnchors_get (idx : Nat) :
    ∀ (oxs : List WOccExt) (occs : List WPatOcc),
      (oxs.map WOccExt.occ).Nodup →
      (∀ x ∈ oxs, x.occ < occs.length) →
      ∀ x ∈ oxs,
        (woccAt (wwriteAnchors occs oxs idx) x.occ).ips idx = x.item := by
  intro oxs
  induction oxs with
  | nil => intro occs _ _ x hx; exact absurd hx (List.not_mem_nil x)
  | cons y oxs ih =>
    intro occs hnd hbnd x hx
    rcases List.mem_cons.mp hx with rfl | hx2
    · have hnotin : x.occ ∉ oxs.map WOccExt.occ := (List.nodup_cons.mp hnd).1
      have h2 := wwriteAnchors_other idx oxs (occs.set x.occ
          { woccAt occs x.occ with
            ips := Function.update (woccAt occs x.occ).ips idx x.item }) x.occ hnotin
      have h3 := woccAt_set_self occs x.occ
          { woccAt occs x.occ with
            ips := Function.update (woccAt occs x.occ).ips idx x.item }
          (hbnd x (List.mem_cons_self _ _))
      have h4 := congrArg (fun o : WPatOcc => o.ips idx) (h2.trans h3)
      exact h4.trans (by simp)
    · have hbnd2 : ∀ w ∈ oxs, w.occ < (occs.set y.occ
          { woccAt occs y.occ with
            ips := Function.update (woccAt occs y.occ).ips idx y.item }).length := by
        intro w hw
        rw [List.length_set]
        exact hbnd w (List.mem_cons_of_mem _ hw)
      exact ih _ (List.nodup_cons.mp hnd).2 hbnd2 x hx2

/-- A guarded selection is a sublist of the full projection. -/
lemma filterMap_if_sublist_map {α β : Type} (c : α → Prop) [DecidablePred c]
    (g : α → β) :
    ∀ l : List α,
      (l.filterMap (fun a => if c a then some (g a) else none)).Sublist (l.map g) := by
  intro l
  induction l with
  | nil => exact List.Sublist.refl _
  | cons a l ih =>
    by_cases hc : c a
    · have h1 : (a :: l).filterMap (fun a => if c a then some (g a) else none)
          = g a :: l.filterMap (fun a => if c a then some (g a) else none) := by
        rw [List.filterMap_cons, if_pos hc]
      rw [h1, List.map_cons]
      exact List.Sublist.cons₂ _ ih
    · have h1 : (a :: l).filterMap (fun a => if c a then some (g a) else none)
          = l.filterMap (fun a => if c a then some (g a) else none) := by
        rw [List.filterMap_cons, if_neg hc]
      rw [h1, List.map_cons]
      exact List.Sublist.cons _ ih

/-- The occurrence indices of a canonical weighted extension are pairwise
distinct (one entry per transaction). -/
lemma wcanonOxs_occ_nodup (bag : List WTrans) (P : List Nat) (i : Nat) :
    ((wcanonOxs bag P i).map WOccExt.occ).Nodup := by
  unfold wcanonOxs
  rw [List.map_filterMap]
  have hfn : (fun jt : Nat × WTrans =>
      (if (P ++ [i]).Sublist (idsOf jt.2.items)
        then some (⟨(idsOf jt.2.items).indexOf i, jt.1⟩ : WOccExt)
        else none).map WOccExt.occ)
      = (fun jt : Nat × WTrans =>
        if (P ++ [i]).Sublist (idsOf jt.2.items) then some jt.1 else none) := by
    funext jt
    split <;> rfl
  rw [hfn]
  refine List.Nodup.sublist
    (filterMap_if_sublist_map (fun jt : Nat × WTrans =>
      (P ++ [i]).Sublist (idsOf jt.2.items)) Prod.fst bag.enum) ?_
  rw [List.enum_map_fst]
  exact List.nodup_range _

/-- The occurrence indices of a canonical weighted extension are within the
bag. -/
lemma wcanonOxs_occ_lt (bag : List WTrans) (P : List Nat) (i : Nat) :
    ∀ x ∈ wcanonOxs bag P i, x.occ < bag.length := by
  intro x hx
  obtain ⟨jt, hjt, hfx⟩ := List.mem_filterMap.mp hx
  have hx1 : x.occ = jt.1 := by
    by_cases hc : (P ++ [i]).Sublist (idsOf jt.2.items)
    · rw [if_pos hc] at hfx
      cases hfx
      rfl
    · rw [if_neg hc] at hfx
      cases hfx
  rw [hx1]
  have hm := List.mk_mem_enum_iff_getElem?.mp
    (show (jt.1, jt.2) ∈ bag.enum from hjt)
  exact (List.getElem?_eq_some.mp hm).1

/-- Membership of the canonical anchor entry for an embedding transaction. -/
lemma wcanonOxs_mem (bag : List WTrans) (P : List Nat) (i : Nat)
    (jt : Nat × WTrans) (hjt : jt ∈ bag.enum)
    (hsub : (P ++ [i]).Sublist (idsOf jt.2.items)) :
    (⟨(idsOf jt.2.items).indexOf i, jt.1⟩ : WOccExt) ∈ wcanonOxs bag P i := by
  unfold wcanonOxs
  exact List.mem_filterMap.mpr ⟨jt, hjt, by rw [if_pos hsub]⟩

/-- Value of a fold of pointwise additive updates over a duplicate-free index
list. -/
lemma foldl_update_add (g : Nat → Rat) :
    ∀ (ps : List Nat) (w : Nat → Rat) (j : Nat), ps.Nodup →
      (ps.foldl (fun w' m => Function.update w' m (w' m + g m)) w) j
        = if j ∈ ps then w j + g j else w j := by
  intro ps
  induction ps with
  | nil => intro w j _; simp
  | cons m ps ih =>
    intro w j hnd
    rw [List.foldl_cons, ih _ j (List.nodup_cons.mp hnd).2]
    by_cases hj : j = m
    · subst hj
      rw [if_neg (List.nodup_cons.mp hnd).1, if_pos (List.mem_cons_self _ _)]
      rw [Function.update_same]
    · rw [Function.update_noteq hj]
      by_cases hjin : j ∈ ps
      · rw [if_pos hjin, if_pos (List.mem_cons_of_mem _ hjin)]
      · rw [if_neg hjin, if_neg (by
          intro h
          rcases List.mem_cons.mp h with h | h
          · exact hj h
          · exact hjin h)]

/-- The weight-aggregation loop, characterised per occurrence extension. -/
lemma computeWgts_fold (st : WMState) (len : Nat) (j : Nat) (hj : j < len) :
    ∀ (oxs : List WOccExt) (w : Nat → Rat),
      (oxs.foldl (fun w x =>
        (List.range len).foldl (fun w' m =>
          Function.update w' m (w' m + ((woccAt st.occs x.occ).wgt : Rat)
            * (witemAt (woccAt st.occs x.occ)
                ((woccAt st.occs x.occ).ips m)).wgt)) w) w) j
      = w j + (oxs.map (fun x => ((woccAt st.occs x.occ).wgt : Rat)
          * (witemAt (woccAt st.occs x.occ)
              ((woccAt st.occs x.occ).ips j)).wgt)).sum := by
  intro oxs
  induction oxs with
  | nil => intro w; simp
  | cons x oxs ih =>
    intro w
    rw [List.foldl_cons, ih, List.map_cons, List.sum_cons]
    rw [foldl_update_add _ (List.range len) w j (List.nodup_range len)]
    rw [if_pos (List.mem_range.mpr hj)]
    ring

/-- The weight array entry for a pattern position is the sum over occurrence
extensions of transaction weight times the anchored item weight. -/
lemma computeWgts_spec (st : WMState) (e : WPatExt) (len : Nat) (j : Nat)
    (hj : j < len) :
    computeWgts st e len j
      = (e.oxs.map (fun x => ((woccAt st.occs x.occ).wgt : Rat)
          * (witemAt (woccAt st.occs x.occ)
              ((woccAt st.occs x.occ).ips j)).wgt)).sum := by
  simp only [computeWgts]
  rw [computeWgts_fold st len j hj e.oxs (fun _ => 0)]
  simp

/-- `find?` and `indexOf` over the id list agree on a present item. -/
lemma find_getD_indexOf (it : Nat) :
    ∀ (items : List WItem), it ∈ idsOf items →
      ∃ w, items.find? (fun w => w.item == it) = some w
        ∧ items.getD ((idsOf items).indexOf it) wdummyItem = w := by
  intro items
  induction items with
  | nil => intro hit; exact absurd hit (List.not_mem_nil it)
  | cons y items ih =>
    intro hit
    by_cases hy : y.item = it
    · refine ⟨y, List.find?_cons_of_pos _ (by simp [hy]), ?_⟩
      have hidx : (idsOf (y :: items)).indexOf it = 0 := by
        show (y.item :: idsOf items).indexOf it = 0
        rw [hy]
        exact List.indexOf_cons_self it (idsOf items)
      rw [hidx]
      rfl
    · have hit2 : it ∈ idsOf items := by
        rcases List.mem_cons.mp hit with h | h
        · exact absurd h.symm hy
        · exact h
      obtain ⟨w, hf, hg⟩ := ih hit2
      refine ⟨w, ?_, ?_⟩
      · rw [List.find?_cons_of_neg _ (by simp [hy]), hf]
      · have hidx : (idsOf (y :: items)).indexOf it
            = (idsOf items).indexOf it + 1 := by
          show (y.item :: idsOf items).indexOf it = (idsOf items).indexOf it + 1
          exact List.indexOf_cons_ne _ (fun h => hy h)
        rw [hidx]
        exact hg

/-- The item at the index of `it` carries the weight `wItemWgt` looks up. -/
lemma getD_indexOf_wgt (tr : WTrans) (it : Nat) (hit : it ∈ idsOf tr.items) :
    (tr.items.getD ((idsOf tr.items).indexOf it) wdummyItem).wgt
      = wItemWgt tr it := by
  obtain ⟨w, hf, hg⟩ := find_getD_indexOf it tr.items hit
  rw [hg]
  unfold wItemWgt
  rw [hf]

/-- Reading the pattern buffer back: mapping `getD` over the index range of a
list reproduces it. -/
lemma map_range_getD (L : List Nat) :
    (List.range L.length).map (fun m => L.getD m 0) = L := by
  apply List.ext_getElem
  · simp
  · intro k h1 h2
    simp only [List.getElem_map, List.getElem_range]
    exact List.getD_eq_getElem L 0 h2

/-- `getD` on a map over an index range. -/
lemma getD_map_range (f : Nat → Rat) (n j : Nat) (hj : j < n) :
    ((List.range n).map f).getD j 0 = f j := by
  rw [List.getD_eq_getElem?_getD, List.getElem?_map, List.getElem?_range hj]
  rfl

/-- Support of the empty pattern over a weighted bag is the total weight. -/
lemma wsupport_nil_eq (bag : List WTrans) : wsupport bag [] = wtotalWgt bag := by
  unfold wsupport wtotalWgt
  congr 1
  rw [List.filter_eq_self.mpr]
  intro t _
  exact decide_eq_true (List.nil_sublist _)

/-- The initial weighted state's occurrence records agree with the bag. -/
lemma winitState_occsMatch (bag : List WTrans) (ips0 : Nat → Nat → Nat) :
    WOccsMatch (initWState bag ips0) bag := by
  constructor
  · show (mkWOccs bag ips0).length = bag.length
    simp [mkWOccs, List.enum_length]
  · intro jt hjt
    have hm := List.mk_mem_enum_iff_getElem?.mp
      (show (jt.1, jt.2) ∈ bag.enum from hjt)
    obtain ⟨hlt, he⟩ := List.getElem?_eq_some.mp hm
    have hlt2 : jt.1 < (mkWOccs bag ips0).length := by
      simpa [mkWOccs, List.enum_length] using hlt
    have hocc : woccAt (initWState bag ips0).occs jt.1
        = ⟨jt.2.wgt, jt.2.items, ips0 jt.1⟩ := by
      show (mkWOccs bag ips0).getD jt.1 wdummyOcc = _
      rw [List.getD_eq_getElem _ _ hlt2]
      simp [mkWOccs, List.getElem_enum, he]
    exact ⟨by rw [hocc], by rw [hocc]⟩

/-- Mapping over a guarded selection is a plain filter-and-map. -/
lemma filterMap_if_map {α β γ : Type} (c : α → Prop) [DecidablePred c]
    (h : α → β) (f : β → γ) :
    ∀ l : List α,
      (l.filterMap (fun a => if c a then some (h a) else none)).map f
        = (l.filter (fun a => decide (c a))).map (fun a => f (h a)) := by
  intro l
  induction l with
  | nil => rfl
  | cons a l ih =>
    rw [List.filterMap_cons, List.filter_cons]
    by_cases hc : c a
    · rw [if_pos hc, if_pos (decide_eq_true hc), List.map_cons, List.map_cons, ih]
    · rw [if_neg hc, if_neg (fun hd => hc (of_decide_eq_true hd)), ih]

/-- The last entry of a one-item extension, read back with `getD`. -/
lemma getD_concat_length (P : List Nat) (i : Nat) :
    (P ++ [i]).getD P.length 0 = i := by
  rw [List.getD_eq_getElem?_getD, List.getElem?_append_right (le_refl P.length)]
  simp

/-- Entries of a one-item extension below the added item. -/
lemma getD_concat_lt (P : List Nat) (i : Nat) (m : Nat) (hm : m < P.length) :
    (P ++ [i]).getD m 0 = P.getD m 0 := by
  rw [List.getD_eq_getElem?_getD, List.getD_eq_getElem?_getD,
    List.getElem?_append, if_pos hm]

/-- An in-range `getD` entry is a member. -/
lemma getD_mem_of_lt (L : List Nat) (j : Nat) (hj : j < L.length) :
    L.getD j 0 ∈ L := by
  rw [List.getD_eq_getElem L 0 hj]
  exact List.getElem_mem hj

/-- `isr_isetx` under a non-failing oracle: status `0`, the pattern appended
when its size is in range. -/
lemma isrIsetx_noFail (rd : RecData) (st : WMState) (pat : List Nat)
    (ws : List Rat) (supp : Int) (hf : rd.failAt st.rep.calls = false) :
    isrIsetx rd st pat ws supp = (0, { st with rep := {
        out := if rd.zmin ≤ pat.length ∧ pat.length ≤ rd.zmax
          then st.rep.out ++ [(pat, ws, supp)] else st.rep.out,
        calls := st.rep.calls + 1 } }) := by
  simp only [isrIsetx, hf, Bool.false_eq_true, if_false]

/-- `wreportPhase` in ALL mode under a non-failing oracle: always report, keep
`s` and `mx`. -/
lemma wreportPhase_all (rd : RecData) (e : WPatExt) (len' : Nat) (s mx : Int)
    (st : WMState) (hmode : rd.modeClosed = false)
    (hf : rd.failAt st.rep.calls = false) :
    wreportPhase rd e len' s mx st = Sum.inl (s, mx,
      { st with rep := {
          out := if rd.zmin ≤ (patOf st len').length
              ∧ (patOf st len').length ≤ rd.zmax
            then st.rep.out ++ [(patOf st len',
              (List.range len').map (computeWgts st e len'), e.supp)]
            else st.rep.out,
          calls := st.rep.calls + 1 } }) := by
  simp only [wreportPhase, hmode, Bool.false_eq_true, false_and, if_false]
  rw [isrIsetx_noFail rd st _ _ _ hf]
  norm_num

/-- At an emission point for the pattern `P ++ [i]` (pattern buffer and anchors
set, canonical occurrences), the reported pattern is `P ++ [i]` and every
weight-array entry is the claimed sum over supporting transactions. -/
lemma wemission_good (bag : List WTrans) (P : List Nat) (i : Nat)
    (st' : WMState) (hocc : WOccsMatch st' bag)
    (hpit : ∀ m, m < P.length + 1 → st'.pitems m = (P ++ [i]).getD m 0)
    (hanch : ∀ jt ∈ bag.enum, (P ++ [i]).Sublist (idsOf jt.2.items) →
      ∀ m, m < P.length + 1 →
        (woccAt st'.occs jt.1).ips m
          = (idsOf jt.2.items).indexOf ((P ++ [i]).getD m 0)) :
    patOf st' (P.length + 1) = P ++ [i]
    ∧ ∀ j, j < P.length + 1 →
        computeWgts st' (wcanonExt bag P i) (P.length + 1) j
          = wSum bag (P ++ [i]) j := by
  constructor
  · unfold patOf
    have hcg : (List.range (P.length + 1)).map st'.pitems
        = (List.range (P.length + 1)).map (fun m => (P ++ [i]).getD m 0) :=
      List.map_congr_left (fun m hm => hpit m (List.mem_range.mp hm))
    have hlen : P.length + 1 = (P ++ [i]).length := by simp
    rw [hcg, hlen, map_range_getD]
  · intro j hj
    rw [computeWgts_spec st' (wcanonExt bag P i) (P.length + 1) j hj]
    have he : (wcanonExt bag P i).oxs = wcanonOxs bag P i := rfl
    rw [he]
    unfold wcanonOxs
    rw [filterMap_if_map
      (fun jt : Nat × WTrans => (P ++ [i]).Sublist (idsOf jt.2.items))
      (fun jt => (⟨(idsOf jt.2.items).indexOf i, jt.1⟩ : WOccExt))
      (fun x => ((woccAt st'.occs x.occ).wgt : Rat)
          * (witemAt (woccAt st'.occs x.occ) ((woccAt st'.occs x.occ).ips j)).wgt)
      bag.enum]
    have hcg : ∀ jt ∈ bag.enum.filter
        (fun jt => decide ((P ++ [i]).Sublist (idsOf jt.2.items))),
        ((woccAt st'.occs jt.1).wgt : Rat)
          * (witemAt (woccAt st'.occs jt.1) ((woccAt st'.occs jt.1).ips j)).wgt
        = (jt.2.wgt : Rat) * wItemWgt jt.2 ((P ++ [i]).getD j 0) := by
      intro jt hjt
      have hpair := List.mem_filter.mp hjt
      have hjte : jt ∈ bag.enum := hpair.1
      have hsub : (P ++ [i]).Sublist (idsOf jt.2.items) :=
        of_decide_eq_true hpair.2
      obtain ⟨hitems, hwgt⟩ := hocc.2 jt hjte
      have hips := hanch jt hjte hsub j hj
      have hlen2 : j < (P ++ [i]).length := by
        rw [List.length_append, List.length_singleton]
        omega
      have hmem : (P ++ [i]).getD j 0 ∈ idsOf jt.2.items :=
        hsub.subset (getD_mem_of_lt _ j hlen2)
      rw [hwgt, hips]
      congr 1
      unfold witemAt
      rw [hitems]
      exact getD_indexOf_wgt jt.2 ((P ++ [i]).getD j 0) hmem
    rw [List.map_congr_left hcg]
    rw [enum_filter_map_snd_any bag
      (fun tr => decide ((P ++ [i]).Sublist (idsOf tr.items)))
      (fun tr => (tr.wgt : Rat) * wItemWgt tr ((P ++ [i]).getD j 0))]
    rfl

/-- The weighted occurrence-record invariant only reads the occurrence list. -/
lemma woccsMatch_of_eq {st st' : WMState} {bag : List WTrans}
    (h : st'.occs = st.occs) (hm : WOccsMatch st bag) : WOccsMatch st' bag := by
  unfold WOccsMatch at hm ⊢
  rw [h]
  exact hm

/-- One iteration of the `rec_iw` extension loop in ALL mode with canonical
extensions and correct pattern buffer and anchors below the current depth: the
accumulator stays `Sum.inl`, anchors and buffer entries below the depth are
untouched, and every emission carries the pattern's support and the claimed
per-position weight sums. -/
lemma witemStep_sound_one (bag : List WTrans) (rd : RecData)
    (hmode : rd.modeClosed = false) (hfail : ∀ k, rd.failAt k = false)
    (hvb : ValidWBag bag rd.cnt)
    (P : List Nat) (exts : Nat → WPatExt)
    (hexts : ∀ t, exts t = wcanonExt bag P t)
    (recur : (Nat → WPatExt) → Nat → WMState → Int × WMState) (i : Nat)
    (hrec : ∀ (c : Nat → WPatExt) (zc : Nat) (st' : WMState),
        (∀ t, c t = wcanonExt bag (P ++ [i]) t) →
        WOccsMatch st' bag →
        (∀ m, m < P.length + 1 → st'.pitems m = (P ++ [i]).getD m 0) →
        (∀ jt ∈ bag.enum, (P ++ [i]).Sublist (idsOf jt.2.items) →
          ∀ m, m < P.length + 1 →
            (woccAt st'.occs jt.1).ips m
              = (idsOf jt.2.items).indexOf ((P ++ [i]).getD m 0)) →
        0 ≤ (recur c zc st').1
        ∧ WOccsMatch (recur c zc st').2 bag
        ∧ (∀ j m, m < P.length + 1 →
            (woccAt (recur c zc st').2.occs j).ips m = (woccAt st'.occs j).ips m)
        ∧ (∀ m, m < P.length + 1 →
            (recur c zc st').2.pitems m = st'.pitems m)
        ∧ ∃ Δ, (recur c zc st').2.rep.out = st'.rep.out ++ Δ
            ∧ ∀ el ∈ Δ, el.2.2 = wsupport bag el.1
                ∧ el.2.1.length = el.1.length
                ∧ ∀ j, j < el.1.length → el.2.1.getD j 0 = wSum bag el.1 j)
    (s mx : Int) (st : WMState) (hs : 0 ≤ s) (hmx : 0 ≤ mx)
    (hocc : WOccsMatch st bag)
    (hpit : ∀ m, m < P.length → st.pitems m = P.getD m 0)
    (hanch : ∀ jt ∈ bag.enum, P.Sublist (idsOf jt.2.items) →
      ∀ m, m < P.length →
        (woccAt st.occs jt.1).ips m = (idsOf jt.2.items).indexOf (P.getD m 0)) :
    ∃ s₁ mx₁ st₁,
      witemStep recur rd exts (P.length + 1) (decide (P.length + 1 ≤ rd.zmax))
          (Sum.inl (s, mx, st)) i = Sum.inl (s₁, mx₁, st₁)
      ∧ 0 ≤ s₁ ∧ 0 ≤ mx₁
      ∧ WOccsMatch st₁ bag
      ∧ (∀ j m, m < P.length →
          (woccAt st₁.occs j).ips m = (woccAt st.occs j).ips m)
      ∧ (∀ m, m < P.length → st₁.pitems m = st.pitems m)
      ∧ ∃ Δ, st₁.rep.out = st.rep.out ++ Δ
          ∧ ∀ el ∈ Δ, el.2.2 = wsupport bag el.1
              ∧ el.2.1.length = el.1.length
              ∧ ∀ j, j < el.1.length → el.2.1.getD j 0 = wSum bag el.1 j := by
  have hnd : ∀ tr ∈ bag, (idsOf tr.items).Nodup := fun tr htr => (hvb tr htr).1
  by_cases h1 : (exts i).supp < rd.smin
  · have hstep : witemStep recur rd exts (P.length + 1)
        (decide (P.length + 1 ≤ rd.zmax)) (Sum.inl (s, mx, st)) i
        = Sum.inl (s, mx, st) := by
      simp only [witemStep]
      rw [if_pos h1]
    exact ⟨s, mx, st, hstep, hs, hmx, hocc, fun _ _ _ => rfl, fun _ _ => rfl,
      [], by simp, fun el hel => absurd hel (List.not_mem_nil el)⟩
  · set mx₁ := if mx < (exts i).supp then (exts i).supp else mx with hmx₁
    have hmx₁0 : 0 ≤ mx₁ := by
      rw [hmx₁]
      split
      · have : rd.smin ≤ (exts i).supp := not_lt.mp h1
        omega
      · exact hmx
    set st₁ : WMState := { st with
      pitems := Function.update st.pitems P.length i,
      occs := wwriteAnchors st.occs (exts i).oxs P.length } with hst₁def
    have hstep : witemStep recur rd exts (P.length + 1)
        (decide (P.length + 1 ≤ rd.zmax)) (Sum.inl (s, mx, st)) i
        = wextendPhase recur rd (exts i) (P.length + 1)
            (decide (P.length + 1 ≤ rd.zmax)) s mx₁ st₁ := by
      simp only [witemStep, hmode, Bool.false_eq_true, if_false, false_and,
        Nat.add_sub_cancel]
      rw [if_neg h1]
    have hoxs : (exts i).oxs = wcanonOxs bag P i := by
      rw [hexts i]
      rfl
    have hsupp_i : (exts i).supp = wsupport bag (P ++ [i]) := by
      rw [hexts i]
      rfl
    have hocc₁ : WOccsMatch st₁ bag := by
      constructor
      · show (wwriteAnchors st.occs (exts i).oxs P.length).length = bag.length
        rw [wwriteAnchors_length]
        exact hocc.1
      · intro jt hjt
        obtain ⟨hf1, hf2, _⟩ :=
          wwriteAnchors_fields P.length (exts i).oxs st.occs jt.1
        exact ⟨hf1.trans (hocc.2 jt hjt).1, hf2.trans (hocc.2 jt hjt).2⟩
    have hpit₁ : ∀ m, m < P.length + 1 → st₁.pitems m = (P ++ [i]).getD m 0 := by
      intro m hm
      show Function.update st.pitems P.length i m = _
      by_cases hmP : m = P.length
      · subst hmP
        rw [Function.update_same, getD_concat_length]
      · rw [Function.update_noteq hmP, getD_concat_lt P i m (by omega)]
        exact hpit m (by omega)
    have hanch₁ : ∀ jt ∈ bag.enum, (P ++ [i]).Sublist (idsOf jt.2.items) →
        ∀ m, m < P.length + 1 →
          (woccAt st₁.occs jt.1).ips m
            = (idsOf jt.2.items).indexOf ((P ++ [i]).getD m 0) := by
      intro jt hjt hsub m hm
      by_cases hmP : m = P.length
      · subst hmP
        rw [getD_concat_length]
        have hx : (⟨(idsOf jt.2.items).indexOf i, jt.1⟩ : WOccExt)
            ∈ (exts i).oxs := by
          rw [hoxs]
          exact wcanonOxs_mem bag P i jt hjt hsub
        have hgot := wwriteAnchors_get P.length (exts i).oxs st.occs
          (by rw [hoxs]; exact wcanonOxs_occ_nodup bag P i)
          (by
            rw [hoxs]
            intro x hxm
            rw [hocc.1]
            exact wcanonOxs_occ_lt bag P i x hxm)
          ⟨(idsOf jt.2.items).indexOf i, jt.1⟩ hx
        exact hgot
      · obtain ⟨_, _, hf3⟩ :=
          wwriteAnchors_fields P.length (exts i).oxs st.occs jt.1
        rw [show (woccAt st₁.occs jt.1).ips m
            = (woccAt (wwriteAnchors st.occs (exts i).oxs P.length) jt.1).ips m
          from rfl]
        rw [hf3 m hmP, getD_concat_lt P i m (by omega)]
        exact hanch jt hjt ((List.sublist_append_left P [i]).trans hsub) m (by omega)
    have hrel_ips : ∀ j m, m < P.length →
        (woccAt st₁.occs j).ips m = (woccAt st.occs j).ips m := by
      intro j m hm
      obtain ⟨_, _, hf3⟩ := wwriteAnchors_fields P.length (exts i).oxs st.occs j
      exact hf3 m (by omega)
    have hrel_pit : ∀ m, m < P.length → st₁.pitems m = st.pitems m := by
      intro m hm
      show Function.update st.pitems P.length i m = st.pitems m
      rw [Function.update_noteq (by omega)]
    have hout₁ : st₁.rep.out = st.rep.out := rfl
    have hcalls₁ : st₁.rep.calls = st.rep.calls := rfl
    have hemit : ∀ (st' : WMState), WOccsMatch st' bag →
        (∀ m, m < P.length + 1 → st'.pitems m = (P ++ [i]).getD m 0) →
        (∀ jt ∈ bag.enum, (P ++ [i]).Sublist (idsOf jt.2.items) →
          ∀ m, m < P.length + 1 →
            (woccAt st'.occs jt.1).ips m
              = (idsOf jt.2.items).indexOf ((P ++ [i]).getD m 0)) →
        ∀ el ∈ (if rd.zmin ≤ (patOf st' (P.length + 1)).length
              ∧ (patOf st' (P.length + 1)).length ≤ rd.zmax
            then [(patOf st' (P.length + 1),
              (List.range (P.length + 1)).map
                (computeWgts st' (exts i) (P.length + 1)), (exts i).supp)]
            else []),
          el.2.2 = wsupport bag el.1
          ∧ el.2.1.length = el.1.length
          ∧ ∀ j, j < el.1.length → el.2.1.getD j 0 = wSum bag el.1 j := by
      intro st' hocc' hpit' hanch' el hel
      obtain ⟨hpat, hwj⟩ := wemission_good bag P i st' hocc' hpit' hanch'
      split at hel
      · simp only [List.mem_singleton] at hel
        subst hel
        refine ⟨?_, ?_, ?_⟩
        · show (exts i).supp = wsupport bag (patOf st' (P.length + 1))
          rw [hpat, hsupp_i]
        · show ((List.range (P.length + 1)).map _).length
            = (patOf st' (P.length + 1)).length
          rw [hpat]
          simp
        · intro j hj
          have hj' : j < P.length + 1 := by
            rw [hpat] at hj
            simpa using hj
          show ((List.range (P.length + 1)).map
              (computeWgts st' (exts i) (P.length + 1))).getD j 0
            = wSum bag (patOf st' (P.length + 1)) j
          rw [getD_map_range _ _ _ hj', hpat, hexts i]
          exact hwj j hj'
      · exact absurd hel (List.not_mem_nil el)
    by_cases hcnd : P.length + 1 ≤ rd.zmax
    · rw [decide_eq_true hcnd] at hstep ⊢
      simp only [wextendPhase, if_true] at hstep
      have hcz := buildWCond_canon bag st₁ P i hnd hocc₁
      rw [← hexts i] at hcz
      by_cases hz : 0 < (buildWCond st₁ (exts i)).2
      · rw [if_pos hz] at hstep
        obtain ⟨hr0, hocc_r, hips_r, hpit_r, Δr, hout_r, hgood_r⟩ :=
          hrec (buildWCond st₁ (exts i)).1 (buildWCond st₁ (exts i)).2 st₁
            hcz hocc₁ hpit₁ hanch₁
        rw [if_neg (not_lt.mpr hr0)] at hstep
        rw [wreportPhase_all rd (exts i) (P.length + 1) _ _ _ hmode (hfail _)]
          at hstep
        rw [hout_r, hout₁] at hstep
        refine ⟨_, mx₁, _, hstep, hr0, hmx₁0,
          woccsMatch_of_eq rfl hocc_r, ?_, ?_,
          Δr ++ (if rd.zmin ≤ (patOf (recur (buildWCond st₁ (exts i)).1
                (buildWCond st₁ (exts i)).2 st₁).2 (P.length + 1)).length
              ∧ (patOf (recur (buildWCond st₁ (exts i)).1
                (buildWCond st₁ (exts i)).2 st₁).2 (P.length + 1)).length ≤ rd.zmax
            then [(patOf (recur (buildWCond st₁ (exts i)).1
                (buildWCond st₁ (exts i)).2 st₁).2 (P.length + 1),
              (List.range (P.length + 1)).map
                (computeWgts (recur (buildWCond st₁ (exts i)).1
                  (buildWCond st₁ (exts i)).2 st₁).2 (exts i) (P.length + 1)),
              (exts i).supp)]
            else []), ?_, ?_⟩
        · intro j m hm
          exact (hips_r j m (by omega)).trans (hrel_ips j m hm)
        · intro m hm
          exact (hpit_r m (by omega)).trans (hrel_pit m hm)
        · split
          · rw [List.append_assoc]
          · rw [List.append_nil]
        · intro el hel
          rcases List.mem_append.mp hel with hm | hm
          · exact hgood_r el hm
          · refine hemit _ (woccsMatch_of_eq rfl hocc_r) ?_ ?_ el hm
            · intro m hm2
              exact (hpit_r m hm2).trans (hpit₁ m hm2)
            · intro jt hjt hsub m hm2
              exact (hips_r jt.1 m hm2).trans (hanch₁ jt hjt hsub m hm2)
      · rw [if_neg hz] at hstep
        rw [wreportPhase_all rd (exts i) (P.length + 1) _ _ _ hmode (hfail _)]
          at hstep
        rw [hout₁] at hstep
        refine ⟨s, mx₁, _, hstep, hs, hmx₁0,
          woccsMatch_of_eq rfl hocc₁, hrel_ips, hrel_pit,
          (if rd.zmin ≤ (patOf st₁ (P.length + 1)).length
              ∧ (patOf st₁ (P.length + 1)).length ≤ rd.zmax
            then [(patOf st₁ (P.length + 1),
              (List.range (P.length + 1)).map
                (computeWgts st₁ (exts i) (P.length + 1)), (exts i).supp)]
            else []), ?_, hemit st₁ hocc₁ hpit₁ hanch₁⟩
        split
        · rfl
        · rw [List.append_nil]
    · rw [decide_eq_false hcnd] at hstep ⊢
      simp only [wextendPhase, Bool.false_eq_true, if_false] at hstep
      rw [wreportPhase_all rd (exts i) (P.length + 1) _ _ _ hmode (hfail _)]
        at hstep
      rw [hout₁] at hstep
      refine ⟨0, mx₁, _, hstep, le_refl 0, hmx₁0,
        woccsMatch_of_eq rfl hocc₁, hrel_ips, hrel_pit,
        (if rd.zmin ≤ (patOf st₁ (P.length + 1)).length
            ∧ (patOf st₁ (P.length + 1)).length ≤ rd.zmax
          then [(patOf st₁ (P.length + 1),
            (List.range (P.length + 1)).map
              (computeWgts st₁ (exts i) (P.length + 1)), (exts i).supp)]
          else []), ?_, hemit st₁ hocc₁ hpit₁ hanch₁⟩
      split
      · rfl
      · rw [List.append_nil]

/-- The `rec_iw` extension loop in ALL mode: state invariants below the current
depth are preserved and every emission is sound. -/
lemma witemFold_sound (bag : List WTrans) (rd : RecData)
    (hmode : rd.modeClosed = false) (hfail : ∀ k, rd.failAt k = false)
    (hvb : ValidWBag bag rd.cnt)
    (P : List Nat) (exts : Nat → WPatExt)
    (hexts : ∀ t, exts t = wcanonExt bag P t)
    (recur : (Nat → WPatExt) → Nat → WMState → Int × WMState)
    (hrec : ∀ (i : Nat) (c : Nat → WPatExt) (zc : Nat) (st' : WMState),
        (∀ t, c t = wcanonExt bag (P ++ [i]) t) →
        WOccsMatch st' bag →
        (∀ m, m < P.length + 1 → st'.pitems m = (P ++ [i]).getD m 0) →
        (∀ jt ∈ bag.enum, (P ++ [i]).Sublist (idsOf jt.2.items) →
          ∀ m, m < P.length + 1 →
            (woccAt st'.occs jt.1).ips m
              = (idsOf jt.2.items).indexOf ((P ++ [i]).getD m 0)) →
        0 ≤ (recur c zc st').1
        ∧ WOccsMatch (recur c zc st').2 bag
        ∧ (∀ j m, m < P.length + 1 →
            (woccAt (recur c zc st').2.occs j).ips m = (woccAt st'.occs j).ips m)
        ∧ (∀ m, m < P.length + 1 →
            (recur c zc st').2.pitems m = st'.pitems m)
        ∧ ∃ Δ, (recur c zc st').2.rep.out = st'.rep.out ++ Δ
            ∧ ∀ el ∈ Δ, el.2.2 = wsupport bag el.1
                ∧ el.2.1.length = el.1.length
                ∧ ∀ j, j < el.1.length → el.2.1.getD j 0 = wSum bag el.1 j) :
    ∀ (is : List Nat) (s mx : Int) (st : WMState), 0 ≤ s → 0 ≤ mx →
      WOccsMatch st bag →
      (∀ m, m < P.length → st.pitems m = P.getD m 0) →
      (∀ jt ∈ bag.enum, P.Sublist (idsOf jt.2.items) →
        ∀ m, m < P.length →
          (woccAt st.occs jt.1).ips m = (idsOf jt.2.items).indexOf (P.getD m 0)) →
      ∃ s₁ mx₁ st₁,
        is.foldl (witemStep recur rd exts (P.length + 1)
            (decide (P.length + 1 ≤ rd.zmax))) (Sum.inl (s, mx, st))
          = Sum.inl (s₁, mx₁, st₁)
        ∧ 0 ≤ s₁ ∧ 0 ≤ mx₁
        ∧ WOccsMatch st₁ bag
        ∧ (∀ j m, m < P.length →
            (woccAt st₁.occs j).ips m = (woccAt st.occs j).ips m)
        ∧ (∀ m, m < P.length → st₁.pitems m = st.pitems m)
        ∧ ∃ Δ, st₁.rep.out = st.rep.out ++ Δ
            ∧ ∀ el ∈ Δ, el.2.2 = wsupport bag el.1
                ∧ el.2.1.length = el.1.length
                ∧ ∀ j, j < el.1.length → el.2.1.getD j 0 = wSum bag el.1 j := by
  intro is
  induction is with
  | nil =>
    intro s mx st hs hmx hocc hpit hanch
    exact ⟨s, mx, st, rfl, hs, hmx, hocc, fun _ _ _ => rfl, fun _ _ => rfl,
      [], by simp, fun el hel => absurd hel (List.not_mem_nil el)⟩
  | cons i is ih =>
    intro s mx st hs hmx hocc hpit hanch
    obtain ⟨s₁, mx₁, st₁, hstep, hs₁, hmx₁, hocc₁, hips₁, hpit₁, Δ₁, hout₁,
      hgood₁⟩ := witemStep_sound_one bag rd hmode hfail hvb P exts hexts
        recur i (hrec i) s mx st hs hmx hocc hpit hanch
    rw [List.foldl_cons, hstep]
    obtain ⟨s₂, mx₂, st₂, hfold, hs₂, hmx₂, hocc₂, hips₂, hpit₂, Δ₂, hout₂,
      hgood₂⟩ := ih s₁ mx₁ st₁ hs₁ hmx₁ hocc₁
        (fun m hm => (hpit₁ m hm).trans (hpit m hm))
        (fun jt hjt hsub m hm =>
          (hips₁ jt.1 m hm).trans (hanch jt hjt hsub m hm))
    refine ⟨s₂, mx₂, st₂, hfold, hs₂, hmx₂, hocc₂,
      (fun j m hm => (hips₂ j m hm).trans (hips₁ j m hm)),
      (fun m hm => (hpit₂ m hm).trans (hpit₁ m hm)),
      Δ₁ ++ Δ₂, by rw [hout₂, hout₁, List.append_assoc], ?_⟩
    intro el hel
    rcases List.mem_append.mp hel with hm | hm
    · exact hgood₁ el hm
    · exact hgood₂ el hm

/-- C `rec_iw` in ALL mode under a non-failing reporter, started with canonical
extensions, a correct pattern buffer and correct anchors for the current
pattern: anchors and buffer entries below the current depth are untouched, and
every newly emitted record carries its pattern's support and, at every pattern
position, the sum over supporting transactions of transaction weight times the
anchored item weight. -/
lemma recIw_sound (bag : List WTrans) (rd : RecData)
    (hmode : rd.modeClosed = false) (hfail : ∀ k, rd.failAt k = false)
    (hvb : ValidWBag bag rd.cnt) :
    ∀ (fuel : Nat) (P : List Nat) (exts : Nat → WPatExt) (z : Nat) (st : WMState),
      (∀ t, exts t = wcanonExt bag P t) →
      WOccsMatch st bag →
      (∀ m, m < P.length → st.pitems m = P.getD m 0) →
      (∀ jt ∈ bag.enum, P.Sublist (idsOf jt.2.items) →
        ∀ m, m < P.length →
          (woccAt st.occs jt.1).ips m = (idsOf jt.2.items).indexOf (P.getD m 0)) →
      0 ≤ (recIw fuel exts z P.length rd st).1
      ∧ WOccsMatch (recIw fuel exts z P.length rd st).2 bag
      ∧ (∀ j m, m < P.length →
          (woccAt (recIw fuel exts z P.length rd st).2.occs j).ips m
            = (woccAt st.occs j).ips m)
      ∧ (∀ m, m < P.length →
          (recIw fuel exts z P.length rd st).2.pitems m = st.pitems m)
      ∧ ∃ Δ, (recIw fuel exts z P.length rd st).2.rep.out = st.rep.out ++ Δ
          ∧ ∀ el ∈ Δ, el.2.2 = wsupport bag el.1
              ∧ el.2.1.length = el.1.length
              ∧ ∀ j, j < el.1.length → el.2.1.getD j 0 = wSum bag el.1 j := by
  intro fuel
  induction fuel with
  | zero =>
    intro P exts z st hexts hocc hpit hanch
    exact ⟨le_refl 0, hocc, fun _ _ _ => rfl, fun _ _ => rfl,
      [], by simp [recIw], fun el hel => absurd hel (List.not_mem_nil el)⟩
  | succ fuel ih =>
    intro P exts z st hexts hocc hpit hanch
    have hrec : ∀ (i : Nat) (c : Nat → WPatExt) (zc : Nat) (st' : WMState),
        (∀ t, c t = wcanonExt bag (P ++ [i]) t) →
        WOccsMatch st' bag →
        (∀ m, m < P.length + 1 → st'.pitems m = (P ++ [i]).getD m 0) →
        (∀ jt ∈ bag.enum, (P ++ [i]).Sublist (idsOf jt.2.items) →
          ∀ m, m < P.length + 1 →
            (woccAt st'.occs jt.1).ips m
              = (idsOf jt.2.items).indexOf ((P ++ [i]).getD m 0)) →
        0 ≤ (recIw fuel c zc (P.length + 1) rd st').1
        ∧ WOccsMatch (recIw fuel c zc (P.length + 1) rd st').2 bag
        ∧ (∀ j m, m < P.length + 1 →
            (woccAt (recIw fuel c zc (P.length + 1) rd st').2.occs j).ips m
              = (woccAt st'.occs j).ips m)
        ∧ (∀ m, m < P.length + 1 →
            (recIw fuel c zc (P.length + 1) rd st').2.pitems m = st'.pitems m)
        ∧ ∃ Δ, (recIw fuel c zc (P.length + 1) rd st').2.rep.out
              = st'.rep.out ++ Δ
            ∧ ∀ el ∈ Δ, el.2.2 = wsupport bag el.1
                ∧ el.2.1.length = el.1.length
                ∧ ∀ j, j < el.1.length → el.2.1.getD j 0 = wSum bag el.1 j := by
      intro i c zc st' hc hocc' hpit' hanch'
      have hlp : (P ++ [i]).length = P.length + 1 := by simp
      have h := ih (P ++ [i]) c zc st' hc hocc'
        (by rw [hlp]; exact hpit') (by
          intro jt hjt hsub m hm
          rw [hlp] at hm
          exact hanch' jt hjt hsub m hm)
      rw [hlp] at h
      exact h
    obtain ⟨s₁, mx₁, st₁, hfold, hs₁, hmx₁, hocc₁, hips₁, hpit₁, Δ, hout,
      hgood⟩ := witemFold_sound bag rd hmode hfail hvb P exts hexts
        (fun c zc st' => recIw fuel c zc (P.length + 1) rd st') hrec
        (List.range rd.cnt) 0 0 st (le_refl 0) (le_refl 0) hocc hpit hanch
    have hred : recIw (fuel + 1) exts z P.length rd st
        = ((if s₁ < 0 then s₁ else mx₁), st₁) := by
      simp only [recIw]
      rw [hfold]
    rw [hred, if_neg (not_lt.mpr hs₁)]
    exact ⟨hmx₁, hocc₁, hips₁, hpit₁, Δ, hout, hgood⟩

/-- C9: in the weighted variant (ALL mode, non-failing reporter, sane bag),
every record `(pattern, weights, support)` emitted by `rec_iw` (and the final
empty-pattern report of `sequoia_iw`) satisfies the sum-form/mean-form
identity: the support is the pattern's support over the bag, the weights array
has one entry per pattern position, and entry `j` equals the sum over all
supporting transactions of transaction weight times the weight of the item at
the position anchoring pattern position `j` — that is, `weights[j] = mean[j] ×
support`. -/
theorem c9_reported_weight_sums (bag : List WTrans) (smin : Int)
    (cnt zmin zmax : Nat) (target : Bool) (ips0 : Nat → Nat → Nat)
    (hvb : ValidWBag bag cnt) (hsmin : 1 ≤ smin) :
    ∀ el ∈ (sequoiaIwFn bag target smin false cnt zmin zmax noFail
        ips0).2.rep.out,
      el.2.2 = wsupport bag el.1
      ∧ el.2.1.length = el.1.length
      ∧ ∀ j, j < el.1.length → el.2.1.getD j 0 = wSum bag el.1 j := by
  have hnd : ∀ tr ∈ bag, (idsOf tr.items).Nodup := fun tr htr => (hvb tr htr).1
  have hsmin' : (if 0 < smin then smin else 1) = smin := if_pos (by omega)
  by_cases hW : wtotalWgt bag < smin
  · have hres : sequoiaIwFn bag target smin false cnt zmin zmax noFail ips0
        = (0, initWState bag ips0) := by
      simp only [sequoiaIwFn, hsmin']
      rw [if_pos hW]
    rw [hres]
    intro el hel
    exact absurd hel (List.not_mem_nil el)
  · by_cases hcnt : cnt = 0
    · have hres : sequoiaIwFn bag target smin false cnt zmin zmax noFail ips0
          = ((if (isrIsetx ⟨target, false, cnt, zmax, smin, zmin, wtotalWgt bag,
                noFail⟩ (initWState bag ips0) [] [] (wtotalWgt bag)).1 < 0
              then -1 else 0),
             (isrIsetx ⟨target, false, cnt, zmax, smin, zmin, wtotalWgt bag,
                noFail⟩ (initWState bag ips0) [] [] (wtotalWgt bag)).2) := by
        simp only [sequoiaIwFn, hsmin']
        rw [if_neg hW, if_pos hcnt]
      have hout : (isrIsetx ⟨target, false, cnt, zmax, smin, zmin, wtotalWgt bag,
            noFail⟩ (initWState bag ips0) [] [] (wtotalWgt bag)).2.rep.out
          = if zmin ≤ (0 : Nat) ∧ (0 : Nat) ≤ zmax
            then [(([] : List Nat), ([] : List Rat), wtotalWgt bag)] else [] := by
        rw [isrIsetx_noFail _ _ _ _ _ rfl]
        rfl
      rw [hres]
      show ∀ el ∈ (isrIsetx ⟨target, false, cnt, zmax, smin, zmin, wtotalWgt bag,
          noFail⟩ (initWState bag ips0) [] [] (wtotalWgt bag)).2.rep.out, _
      rw [hout]
      intro el hel
      split at hel
      · simp only [List.mem_singleton] at hel
        subst hel
        exact ⟨(wsupport_nil_eq bag).symm, rfl,
          fun j hj => absurd hj (Nat.not_lt_zero j)⟩
      · exact absurd hel (List.not_mem_nil el)
    · have h := recIw_sound bag
        ⟨target, false, cnt, zmax, smin, zmin, wtotalWgt bag, noFail⟩
        rfl (fun _ => rfl) hvb (zmax + 1) [] (rootWExts bag) (wextent bag)
        (initWState bag ips0) (rootWExts_canon bag hnd)
        (winitState_occsMatch bag ips0)
        (fun m hm => absurd hm (by simp))
        (fun jt _ _ m hm => absurd hm (by simp))
      simp only [List.length_nil] at h
      obtain ⟨hr0, hocc_r, _, _, Δ, hout_r, hgood⟩ := h
      have hres : sequoiaIwFn bag target smin false cnt zmin zmax noFail ips0
          = ((if (isrIsetx ⟨target, false, cnt, zmax, smin, zmin, wtotalWgt bag,
                noFail⟩ (recIw (zmax + 1) (rootWExts bag) (wextent bag) 0
                ⟨target, false, cnt, zmax, smin, zmin, wtotalWgt bag, noFail⟩
                (initWState bag ips0)).2 [] [] (wtotalWgt bag)).1 < 0
              then -1 else 0),
             (isrIsetx ⟨target, false, cnt, zmax, smin, zmin, wtotalWgt bag,
                noFail⟩ (recIw (zmax + 1) (rootWExts bag) (wextent bag) 0
                ⟨target, false, cnt, zmax, smin, zmin, wtotalWgt bag, noFail⟩
                (initWState bag ips0)).2 [] [] (wtotalWgt bag)).2) := by
        simp only [sequoiaIwFn, hsmin']
        rw [if_neg hW, if_neg hcnt, if_pos (Or.inr (by simp))]
      have hout2 : (isrIsetx ⟨target, false, cnt, zmax, smin, zmin, wtotalWgt bag,
            noFail⟩ (recIw (zmax + 1) (rootWExts bag) (wextent bag) 0
            ⟨target, false, cnt, zmax, smin, zmin, wtotalWgt bag, noFail⟩
            (initWState bag ips0)).2 [] [] (wtotalWgt bag)).2.rep.out
          = if zmin ≤ (0 : Nat) ∧ (0 : Nat) ≤ zmax
            then ((initWState bag ips0).rep.out ++ Δ)
              ++ [(([] : List Nat), ([] : List Rat), wtotalWgt bag)]
            else (initWState bag ips0).rep.out ++ Δ := by
        rw [isrIsetx_noFail _ _ _ _ _ rfl, hout_r]
        rfl
      rw [hres]
      show ∀ el ∈ (isrIsetx ⟨target, false, cnt, zmax, smin, zmin, wtotalWgt bag,
          noFail⟩ (recIw (zmax + 1) (rootWExts bag) (wextent bag) 0
          ⟨target, false, cnt, zmax, smin, zmin, wtotalWgt bag, noFail⟩
          (initWState bag ips0)).2 [] [] (wtotalWgt bag)).2.rep.out, _
      rw [hout2]
      intro el hel
      have hbase : el ∈ (initWState bag ips0).rep.out ++ Δ
          ∨ el = (([] : List Nat), ([] : List Rat), wtotalWgt bag) := by
        split at hel
        · rcases List.mem_append.mp hel with hm | hm
          · exact Or.inl hm
          · exact Or.inr (List.mem_singleton.mp hm)
        · exact Or.inl hel
      rcases hbase with hm | rfl
      · rcases List.mem_append.mp hm with hm0 | hmΔ
        · exact absurd hm0 (List.not_mem_nil el)
        · exact hgood el hmΔ
      · exact ⟨(wsupport_nil_eq bag).symm, rfl,
          fun j hj => absurd hj (Nat.not_lt_zero j)⟩

/-- Witness for `c9_reported_weight_sums` on the fourth scenario bag
`{(a:1,b:3) w1, (a:2,b:4) w2}` with `smin = 3`: the run emits
`(a,b) [5,11] 3`, `(a) [5] 3`, `(b) [11] 3` — sum-form weights, e.g.
`5 = (5/3)·3` and `11 = (11/3)·3` for `(a,b)` — and every emission satisfies
the claimed identity by the theorem. -/
theorem c9_reported_weight_sums_witness :
    (ValidWBag wbagS4 2 ∧ (1 : Int) ≤ 3
      ∧ (sequoiaIwFn wbagS4 false 3 false 2 1 2 noFail junkIps).2.rep.out.map
          Prod.fst = [[0, 1], [0], [1]]
      ∧ (sequoiaIwFn wbagS4 false 3 false 2 1 2 noFail junkIps).2.rep.out.map
          (fun el => el.2.2) = [3, 3, 3])
    ∧ ∀ el ∈ (sequoiaIwFn wbagS4 false 3 false 2 1 2 noFail
        junkIps).2.rep.out,
      el.2.2 = wsupport wbagS4 el.1
      ∧ el.2.1.length = el.1.length
      ∧ ∀ j, j < el.1.length → el.2.1.getD j 0 = wSum wbagS4 el.1 j :=
  ⟨⟨by unfold ValidWBag; decide, by decide, by decide, by decide⟩,
   c9_reported_weight_sums wbagS4 3 2 1 2 false junkIps
     (by unfold ValidWBag; decide) (by decide)⟩

end Sequoia
